import Mathlib

/-!
# Tile-matching puzzle: board model and backtracking solver

A shallow embedding of `Tile.cpp`, `Puzzle.cpp` and the `solve` function of
`puzzle-solve.cpp`, followed by theorems about them.

Conventions of the embedding.

* C++ `int` values (`_numFilled`, rows, columns) are `Int`; grid dimensions are
  sizes of a container and are `Nat`.  Arithmetic overflow of `int` is not
  modelled: every counter is bounded by the number of grid cells.
* A member function that mutates the object takes the old state and returns the
  new state.  A member function that can raise an error returns the outcome
  together with the state the object is left in, so that "the board is
  unchanged after the error" is a statement about the model and not a
  convention.
* `updateDisplay` only reads the board and the inventory; it is left out of
  `solve` and recorded as an event by the logged solver `solveLog`, which
  computes the same result.
-/

namespace TilePuzzle

/-- Compass directions of `direction.h`, in enumeration order. -/
inductive Direction where
  | NORTH
  | EAST
  | SOUTH
  | WEST
deriving DecidableEq, Repr

/-- Errors that the modelled code can raise. -/
inductive Error where
  /-- The call `error("Cannot add to full grid!")` in `Puzzle::add`. -/
  | addToFull
  /-- The call `error("Cannot remove from empty grid!")` in `Puzzle::remove`. -/
  | removeFromEmpty
  /-- Bounds check of `Grid::operator[]`. -/
  | gridBounds
  /-- Integer division by zero in `locationForCount` (undefined behaviour in C++). -/
  | divByZero
  /-- Bounds check of `Vector::get` and `Vector::remove`. -/
  | vectorBounds
  /-- The model ran out of recursion fuel; not an outcome of the C++ code. -/
  | outOfFuel
  /-- The check made by `solveFullBase` failed: no tiles remain and the board is not
  full; not an outcome of the C++ code. -/
  | baseNotFull
deriving DecidableEq, Repr

deriving instance DecidableEq for Except

/-- Private members of class `Tile` (Tile.h): four edge labels and the identifier
`_id` that `operator==` and `operator<` compare. -/
structure Tile where
  _north : String
  _east : String
  _south : String
  _west : String
  _id : String
deriving DecidableEq, Repr

namespace Tile

/-- Constructor `Tile::Tile(n, e, s, w)`: `_id = n + e + s + w`. -/
def create (n e s w : String) : TilePuzzle.Tile :=
  { _north := n, _east := e, _south := s, _west := w, _id := n ++ e ++ s ++ w }

/-- Default constructor `Tile::Tile()`, which delegates to `Tile("","","","")`. -/
def blank : TilePuzzle.Tile := create "" "" "" ""

/-- Member `Tile::getEdge`. -/
def getEdge (t : TilePuzzle.Tile) (dir : Direction) : String :=
  if dir = Direction.NORTH then t._north
  else if dir = Direction.EAST then t._east
  else if dir = Direction.SOUTH then t._south
  else t._west

/-- Member `Tile::rotate`: the four labels are replaced, `_id` is not touched. -/
def rotate (t : TilePuzzle.Tile) : TilePuzzle.Tile :=
  let n := t._north
  let e := t._east
  let s := t._south
  let w := t._west
  { t with _north := w, _east := n, _south := e, _west := s }

/-- Member `Tile::isBlank`. -/
def isBlank (t : TilePuzzle.Tile) : Bool :=
  t._north == "" && t._east == "" && t._south == "" && t._west == ""

/-- `operator==` on tiles compares `_id`. -/
def eq (lhs rhs : TilePuzzle.Tile) : Bool := lhs._id == rhs._id

/-- Calling `rotate()` `k` times in a row. -/
def rotateN : Nat → TilePuzzle.Tile → TilePuzzle.Tile
  | 0, t => t
  | k + 1, t => rotateN k (rotate t)

end Tile

/-- Type `GridLocation` of the container library: a row and a column, both `int`. -/
structure GridLocation where
  row : Int
  col : Int
deriving DecidableEq, Repr

/-- Modelled from the spec: the container `Grid<Tile>` (grid.h is a library header
that is not among the sources).  A grid has `nRows × nCols` cells stored as a
row-major tile array; access is bounds-checked and raises an error outside the
grid. -/
structure Grid where
  nRows : Nat
  nCols : Nat
  elems : List Tile
deriving DecidableEq, Repr

namespace Grid

/-- Library call `numRows()`. -/
def numRows (g : Grid) : Int := g.nRows

/-- Library call `numCols()`. -/
def numCols (g : Grid) : Int := g.nCols

/-- Library call `size()`: the number of cells. -/
def size (g : Grid) : Int := g.numRows * g.numCols

/-- Library call `inBounds(loc)`. -/
def inBounds (g : Grid) (loc : GridLocation) : Bool :=
  decide (0 ≤ loc.row) && decide (loc.row < g.numRows) &&
    decide (0 ≤ loc.col) && decide (loc.col < g.numCols)

/-- Position of a cell in the row-major array. -/
def index (g : Grid) (loc : GridLocation) : Nat :=
  (loc.row * g.numCols + loc.col).toNat

/-- Read access `grid[loc]`. -/
def get (g : Grid) (loc : GridLocation) : Except Error Tile :=
  if g.inBounds loc then
    match g.elems[g.index loc]? with
    | some t => Except.ok t
    | none => Except.error Error.gridBounds
  else Except.error Error.gridBounds

/-- Write access `grid[loc] = t`. -/
def set (g : Grid) (loc : GridLocation) (t : Tile) : Except Error Grid :=
  if g.inBounds loc then
    if g.index loc < g.elems.length then
      Except.ok { g with elems := g.elems.set (g.index loc) t }
    else Except.error Error.gridBounds
  else Except.error Error.gridBounds

/-- Library calls `resize(numRows, numCols)` followed by `clear()`: every cell holds
the default-constructed tile. -/
def resizeClear (numRows numCols : Nat) : Grid :=
  { nRows := numRows, nCols := numCols,
    elems := List.replicate (numRows * numCols) Tile.blank }

end Grid

/-- Modelled from the spec: the container `Map<string, string>` (map.h is a library
header that is not among the sources), as an association list in which the first
entry for a key is the current one. -/
abbrev StrMap := List (String × String)

namespace StrMap

/-- Read access `map[key]` on a constant map: the stored value, or the default
value `""` when the key is absent. -/
def get (m : StrMap) (key : String) : String :=
  match m.lookup key with
  | some v => v
  | none => ""

/-- Write access `map[key] = value`. -/
def put (m : StrMap) (key value : String) : StrMap := (key, value) :: m

/-- Membership test `map.containsKey(key)`. -/
def containsKey (m : StrMap) (key : String) : Bool := (m.lookup key).isSome

end StrMap

/-- Private members of class `Puzzle` (Puzzle.h). -/
structure Puzzle where
  _grid : Grid
  _complementMap : StrMap
  _numFilled : Int
deriving DecidableEq, Repr

namespace Puzzle

/-- Member `Puzzle::configure`.  The numbers of rows and columns are `Nat`: the
library rejects a negative dimension. -/
def configure (_p : Puzzle) (numRows numCols : Nat) (pairs : StrMap) : Puzzle :=
  { _complementMap := pairs, _grid := Grid.resizeClear numRows numCols, _numFilled := 0 }

/-- Member `Puzzle::isFull`. -/
def isFull (p : Puzzle) : Bool := p._numFilled == p._grid.size

/-- Member `Puzzle::isEmpty`. -/
def isEmpty (p : Puzzle) : Bool := p._numFilled == 0

/-- Member `Puzzle::locationForCount`; C++ `/` and `%` truncate toward zero. -/
def locationForCount (p : Puzzle) (count : Int) : Except Error GridLocation :=
  if p._grid.numCols = 0 then Except.error Error.divByZero
  else Except.ok { row := Int.tdiv count p._grid.numCols, col := Int.tmod count p._grid.numCols }

/-- Member `Puzzle::isComplement`. -/
def isComplement (p : Puzzle) (one two : String) : Bool :=
  p._complementMap.get one == two

/-- Member `Puzzle::tileAt`. -/
def tileAt (p : Puzzle) (loc : GridLocation) : Except Error Tile := p._grid.get loc

/-- Member `Puzzle::canMatchEdge`.  The operator `||` evaluates left to right and
stops at the first true operand, so `tileAt(other)` is only read when the
boundary test fails. -/
def canMatchEdge (p : Puzzle) (tile : Tile) (loc : GridLocation) (dir : Direction) :
    Except Error Bool :=
  if dir = Direction.NORTH then
    let other : GridLocation := { row := loc.row - 1, col := loc.col }
    if other.row = -1 then Except.ok true
    else match p.tileAt other with
      | Except.error e => Except.error e
      | Except.ok nb =>
        if nb.isBlank then Except.ok true
        else Except.ok (p.isComplement (tile.getEdge Direction.NORTH) (nb.getEdge Direction.SOUTH))
  else if dir = Direction.EAST then
    let other : GridLocation := { row := loc.row, col := loc.col + 1 }
    if other.col = p._grid.numCols then Except.ok true
    else match p.tileAt other with
      | Except.error e => Except.error e
      | Except.ok nb =>
        if nb.isBlank then Except.ok true
        else Except.ok (p.isComplement (tile.getEdge Direction.EAST) (nb.getEdge Direction.WEST))
  else if dir = Direction.SOUTH then
    let other : GridLocation := { row := loc.row + 1, col := loc.col }
    if other.row = p._grid.numRows then Except.ok true
    else match p.tileAt other with
      | Except.error e => Except.error e
      | Except.ok nb =>
        if nb.isBlank then Except.ok true
        else Except.ok (p.isComplement (tile.getEdge Direction.SOUTH) (nb.getEdge Direction.NORTH))
  else
    let other : GridLocation := { row := loc.row, col := loc.col - 1 }
    if other.col = -1 then Except.ok true
    else match p.tileAt other with
      | Except.error e => Except.error e
      | Except.ok nb =>
        if nb.isBlank then Except.ok true
        else Except.ok (p.isComplement (tile.getEdge Direction.WEST) (nb.getEdge Direction.EAST))

/-- The loop of `Puzzle::canMatchAllEdges` over the directions still to check. -/
def canMatchEdgesFrom (p : Puzzle) (tile : Tile) (loc : GridLocation) :
    List Direction → Except Error Bool
  | [] => Except.ok true
  | dir :: rest =>
    match p.canMatchEdge tile loc dir with
    | Except.error e => Except.error e
    | Except.ok false => Except.ok false
    | Except.ok true => canMatchEdgesFrom p tile loc rest

/-- Member `Puzzle::canMatchAllEdges`: `for (dir = NORTH; dir <= WEST; dir++)`. -/
def canMatchAllEdges (p : Puzzle) (tile : Tile) (loc : GridLocation) : Except Error Bool :=
  p.canMatchEdgesFrom tile loc
    [Direction.NORTH, Direction.EAST, Direction.SOUTH, Direction.WEST]

/-- Member `Puzzle::canAdd`: `!isFull() && canMatchAllEdges(tile, locationForCount(_numFilled))`. -/
def canAdd (p : Puzzle) (tile : Tile) : Except Error Bool :=
  if p.isFull then Except.ok false
  else match p.locationForCount p._numFilled with
    | Except.error e => Except.error e
    | Except.ok loc => p.canMatchAllEdges tile loc

/-- Member `Puzzle::add`: the outcome and the board afterwards. -/
def add (p : Puzzle) (tile : Tile) : Except Error Unit × Puzzle :=
  if p.isFull then (Except.error Error.addToFull, p)
  else match p.locationForCount p._numFilled with
    | Except.error e => (Except.error e, p)
    | Except.ok loc =>
      match p._grid.set loc tile with
      | Except.error e => (Except.error e, p)
      | Except.ok g => (Except.ok (), { p with _grid := g, _numFilled := p._numFilled + 1 })

/-- Member `Puzzle::remove`: the outcome (the removed tile) and the board afterwards. -/
def remove (p : Puzzle) : Except Error Tile × Puzzle :=
  if p.isEmpty then (Except.error Error.removeFromEmpty, p)
  else match p.locationForCount (p._numFilled - 1) with
    | Except.error e => (Except.error e, p)
    | Except.ok loc =>
      match p._grid.get loc with
      | Except.error e => (Except.error e, p)
      | Except.ok removed =>
        match p._grid.set loc Tile.blank with
        | Except.error e => (Except.error e, p)
        | Except.ok g => (Except.ok removed, { p with _grid := g, _numFilled := p._numFilled - 1 })

end Puzzle

/-- How an iteration of a loop in `solve` ends: the function returns, or the loop
goes on with the updated local variables. -/
inductive Flow (α : Type) where
  | ret (b : Bool) (p : Puzzle) (v : List Tile)
  | next (a : α) (p : Puzzle) (v : List Tile)
deriving DecidableEq, Repr

/-- What a call of `solve` yields: the returned flag, the board and the tile vector
afterwards (both are reference parameters). -/
abbrev SolveResult := Except Error (Bool × Puzzle × List Tile)

/-- The inner loop `for (int i = 0; i < 4; i++)` of `solve` with `n` iterations left;
`self` is the recursive call `solve(puzzle, tileVec)`, whose returned flag the
code discards. -/
def rotLoop (self : Puzzle → List Tile → SolveResult) :
    Nat → Tile → Puzzle → List Tile → Except Error (Flow Tile)
  | 0, tile, p, v => Except.ok (Flow.next tile p v)
  | n + 1, tile, p, v =>
    let tile := tile.rotate
    match p.canAdd tile with
    | Except.error e => Except.error e
    | Except.ok false => rotLoop self n tile p v
    | Except.ok true =>
      match p.add tile with
      | (Except.error e, _) => Except.error e
      | (Except.ok _, p1) =>
        match self p1 v with
        | Except.error e => Except.error e
        | Except.ok (_, p2, v2) =>
          if p2.isFull then Except.ok (Flow.ret true p2 v2)
          else match p2.remove with
            | (Except.error e, _) => Except.error e
            | (Except.ok _, p3) => rotLoop self n tile p3 v2

/-- The outer loop `for (int k = tileVec.size() - 1; k >= 0; k--)` of `solve`; the
counter is `k + 1`, so the loop ends at counter `0`. -/
def tileLoop (self : Puzzle → List Tile → SolveResult) :
    Nat → Puzzle → List Tile → Except Error (Flow Unit)
  | 0, p, v => Except.ok (Flow.next () p v)
  | k + 1, p, v =>
    match v[k]? with
    | none => Except.error Error.vectorBounds
    | some tile =>
      match rotLoop self 4 tile p (v.eraseIdx k) with
      | Except.error e => Except.error e
      | Except.ok (Flow.ret b p1 v1) => Except.ok (Flow.ret b p1 v1)
      | Except.ok (Flow.next tile1 p1 v1) => tileLoop self k p1 (v1 ++ [tile1])

/-- Function `solve` of puzzle-solve.cpp.  The first argument bounds the recursion
depth. -/
def solve : Nat → Puzzle → List Tile → SolveResult
  | 0, _, _ => Except.error Error.outOfFuel
  | fuel + 1, p, v =>
    if v.isEmpty then Except.ok (true, p, v)
    else
      match tileLoop (solve fuel) v.length p v with
      | Except.error e => Except.error e
      | Except.ok (Flow.ret b p1 v1) => Except.ok (b, p1, v1)
      | Except.ok (Flow.next _ p1 v1) => Except.ok (p1.isFull, p1, v1)

/-! ## Vocabulary of the specification -/

/-- Direction facing `dir`. -/
def Direction.opposite : Direction → Direction
  | Direction.NORTH => Direction.SOUTH
  | Direction.EAST => Direction.WEST
  | Direction.SOUTH => Direction.NORTH
  | Direction.WEST => Direction.EAST

/-- The cell one step from `loc` toward `dir`. -/
def GridLocation.neighbour (loc : GridLocation) : Direction → GridLocation
  | Direction.NORTH => { row := loc.row - 1, col := loc.col }
  | Direction.EAST => { row := loc.row, col := loc.col + 1 }
  | Direction.SOUTH => { row := loc.row + 1, col := loc.col }
  | Direction.WEST => { row := loc.row, col := loc.col - 1 }

/-- The `n`-th cell of the grid in row-major order, counted from `0`. -/
def Grid.cell (g : Grid) (n : Nat) : GridLocation :=
  { row := ((n / g.nCols : Nat) : Int), col := ((n % g.nCols : Nat) : Int) }

namespace Puzzle

/-- The next open cell as the specification writes it, with mathematical quotient
and remainder: `(numFilled / numCols, numFilled % numCols)`. -/
def cellOf (p : Puzzle) (count : Int) : GridLocation :=
  { row := count / p._grid.numCols, col := count % p._grid.numCols }

/-- The edge rule of the specification for `tile` at `loc` toward `dir`: the
neighbouring cell is outside the grid, or holds a blank tile, or the complement
table maps the label of `tile` facing `dir` to the label of the neighbour facing
back. -/
def edgeRule (p : Puzzle) (tile : Tile) (loc : GridLocation) (dir : Direction) : Prop :=
  p._grid.inBounds (loc.neighbour dir) = false ∨
    ∃ nb, p.tileAt (loc.neighbour dir) = Except.ok nb ∧
      (nb.isBlank = true ∨ p._complementMap.get (tile.getEdge dir) = nb.getEdge dir.opposite)

/-- Class invariant of `Puzzle` after `configure`: the grid stores one tile per cell
and `0 <= _numFilled <= numRows * numCols`. -/
def Valid (p : Puzzle) : Prop :=
  p._grid.elems.length = p._grid.nRows * p._grid.nCols ∧
    0 ≤ p._numFilled ∧ p._numFilled ≤ p._grid.size

/-- The board whose first cells in row-major order hold the tiles of `stack`, bottom
first, and whose other cells hold the blank tile. -/
def ofStack (numRows numCols : Nat) (pairs : StrMap) (stack : List Tile) : Puzzle :=
  { _grid := { nRows := numRows, nCols := numCols,
               elems := stack ++ List.replicate (numRows * numCols - stack.length) Tile.blank },
    _complementMap := pairs,
    _numFilled := stack.length }

/-- Boards reached from `configure` by successful `add` and `remove` calls. -/
inductive Reachable : Puzzle → Prop where
  | configure (p0 : Puzzle) (numRows numCols : Nat) (pairs : StrMap) :
      Reachable (p0.configure numRows numCols pairs)
  | add {p p1 : Puzzle} (tile : Tile) :
      Reachable p → p.add tile = (Except.ok (), p1) → Reachable p1
  | remove {p p1 : Puzzle} (tile : Tile) :
      Reachable p → p.remove = (Except.ok tile, p1) → Reachable p1

/-- Adding the tiles of a list one after another, each only when `canAdd` accepts
it; `none` as soon as a tile is refused. -/
def placeAll : Puzzle → List Tile → Option Puzzle
  | p, [] => some p
  | p, t :: ts =>
    match p.canAdd t with
    | Except.ok true =>
      match p.add t with
      | (Except.ok _, p1) => placeAll p1 ts
      | (Except.error _, _) => none
    | _ => none

/-- Every filled cell is legally matched toward its NORTH and WEST neighbours. -/
def Matched (p : Puzzle) : Prop :=
  ∀ (loc : GridLocation) (t : Tile), p._grid.inBounds loc = true →
    (p._grid.index loc : Int) < p._numFilled → p.tileAt loc = Except.ok t →
      p.edgeRule t loc Direction.NORTH ∧ p.edgeRule t loc Direction.WEST

end Puzzle

/-- A board operation of a client: `add(tile)` or `remove()`. -/
inductive Op where
  | add (tile : Tile)
  | remove
deriving DecidableEq, Repr

/-- Runs a sequence of board operations; `none` as soon as one of them fails. -/
def runOps : Puzzle → List Op → Option Puzzle
  | p, [] => some p
  | p, Op.add tile :: ops =>
    match p.add tile with
    | (Except.ok _, p1) => runOps p1 ops
    | (Except.error _, _) => none
  | p, Op.remove :: ops =>
    match p.remove with
    | (Except.ok _, p1) => runOps p1 ops
    | (Except.error _, _) => none

/-- The same operations on a stack written bottom first: `add` pushes, `remove`
pops and fails on the empty stack. -/
def stackOps : List Tile → List Op → Option (List Tile)
  | s, [] => some s
  | s, Op.add tile :: ops => stackOps (s ++ [tile]) ops
  | s, Op.remove :: ops => if s = [] then none else stackOps s.dropLast ops

/-- Tile `t` is tile `o` after zero to three quarter turns. -/
def RotOf (o t : Tile) : Prop := ∃ j, j < 4 ∧ Tile.rotateN j o = t

/-- The two ways a call `solve(p, v)` can end.  Either the board is as on entry,
the vector holds the tiles of `v` (same orientations) in some order, and the
flag is true exactly when `v` was empty or the board is full.  Or the flag is
true and the board is full, having been reached from `p` by adding the tiles
`ts` one after another, each accepted by `canAdd`; `ts` are turned copies of
tiles `l`, and `l` together with the tiles left in the vector are the tiles of
`v`. -/
def SolvePost (p : Puzzle) (v : List Tile) (res : Bool × Puzzle × List Tile) : Prop :=
  (res.2.1 = p ∧ res.2.2.Perm v ∧ res.1 = (v.isEmpty || p.isFull)) ∨
  (∃ l ts, ts ≠ [] ∧ p.placeAll ts = some res.2.1 ∧ res.2.1.isFull = true ∧ res.1 = true ∧
    List.Forall₂ RotOf l ts ∧ (l ++ res.2.2).Perm v)

/-- Runs a sequence of board operations in which every `add(tile)` is made only
when `canAdd(tile)` is true on the board at that moment, removes being free;
`none` when an add is attempted that `canAdd` refuses, or when an operation
fails. -/
def runCheckedOps : Puzzle → List Op → Option Puzzle
  | p, [] => some p
  | p, Op.add tile :: ops =>
    match p.canAdd tile with
    | Except.ok true =>
      match p.add tile with
      | (Except.ok _, p1) => runCheckedOps p1 ops
      | (Except.error _, _) => none
    | _ => none
  | p, Op.remove :: ops =>
    match p.remove with
    | (Except.ok _, p1) => runCheckedOps p1 ops
    | (Except.error _, _) => none

/-- Two declared pairs do not clash: they are the same pair, or one is the other
reversed, or they have no label in common. -/
def PairsAgree (x y : String × String) : Prop :=
  x = y ∨ x = (y.2, y.1) ∨ (x.1 ≠ y.1 ∧ x.1 ≠ y.2 ∧ x.2 ≠ y.1 ∧ x.2 ≠ y.2)

/-! ## The solver with a record of what it does

The same control flow as `rotLoop`, `tileLoop` and `solve`, with a log of the
steps an observer can see.  `updateDisplay(puzzle, tileVec)` is called by `solve`
after every `add` and after every `remove`, so the `display` events are the
board states the run goes through. -/

/-- A visible step of a run of `solve`. -/
inductive Event where
  /-- Outer loop: `Tile tile = tileVec.get(k); tileVec.remove(k);`. -/
  | take (tile : Tile)
  /-- Inner loop: `puzzle.canAdd(tile)` is evaluated. -/
  | probe (tile : Tile)
  /-- The call `updateDisplay(puzzle, tileVec)`. -/
  | display (p : Puzzle) (v : List Tile)
deriving DecidableEq, Repr

/-- What a logged call of `solve` yields: the result and the log. -/
abbrev SolveLogResult := Except Error ((Bool × Puzzle × List Tile) × List Event)

/-- The inner loop of `solve` (see `rotLoop`) with the log so far as a further
local variable. -/
def rotLoopLog (self : Puzzle → List Tile → List Event → SolveLogResult) :
    Nat → Tile → Puzzle → List Tile → List Event → Except Error (Flow Tile × List Event)
  | 0, tile, p, v, log => Except.ok (Flow.next tile p v, log)
  | n + 1, tile, p, v, log =>
    let tile := tile.rotate
    let log := log ++ [Event.probe tile]
    match p.canAdd tile with
    | Except.error e => Except.error e
    | Except.ok false => rotLoopLog self n tile p v log
    | Except.ok true =>
      match p.add tile with
      | (Except.error e, _) => Except.error e
      | (Except.ok _, p1) =>
        match self p1 v (log ++ [Event.display p1 v]) with
        | Except.error e => Except.error e
        | Except.ok ((_, p2, v2), log2) =>
          if p2.isFull then Except.ok (Flow.ret true p2 v2, log2)
          else match p2.remove with
            | (Except.error e, _) => Except.error e
            | (Except.ok _, p3) => rotLoopLog self n tile p3 v2 (log2 ++ [Event.display p3 v2])

/-- The outer loop of `solve` (see `tileLoop`) with the log so far. -/
def tileLoopLog (self : Puzzle → List Tile → List Event → SolveLogResult) :
    Nat → Puzzle → List Tile → List Event → Except Error (Flow Unit × List Event)
  | 0, p, v, log => Except.ok (Flow.next () p v, log)
  | k + 1, p, v, log =>
    match v[k]? with
    | none => Except.error Error.vectorBounds
    | some tile =>
      match rotLoopLog self 4 tile p (v.eraseIdx k) (log ++ [Event.take tile]) with
      | Except.error e => Except.error e
      | Except.ok (Flow.ret b p1 v1, log1) => Except.ok (Flow.ret b p1 v1, log1)
      | Except.ok (Flow.next tile1 p1 v1, log1) => tileLoopLog self k p1 (v1 ++ [tile1]) log1

/-- The body of `solve` (see `solve`) with the log so far; `self` is the recursive
call. -/
def solveBody (self : Puzzle → List Tile → List Event → SolveLogResult)
    (p : Puzzle) (v : List Tile) (log : List Event) : SolveLogResult :=
  if v.isEmpty then Except.ok ((true, p, v), log)
  else
    match tileLoopLog self v.length p v log with
    | Except.error e => Except.error e
    | Except.ok (Flow.ret b p1 v1, log1) => Except.ok ((b, p1, v1), log1)
    | Except.ok (Flow.next _ p1 v1, log1) => Except.ok ((p1.isFull, p1, v1), log1)

/-- Function `solve` with the log of the whole run, recursive calls included. -/
def solveLog : Nat → Puzzle → List Tile → List Event → SolveLogResult
  | 0, _, _, _ => Except.error Error.outOfFuel
  | fuel + 1, p, v, log => solveBody (solveLog fuel) p v log

/-- A recursive call whose own steps are not recorded: with it, `solveBody` logs
the steps of the outermost call only. -/
def silent (self : Puzzle → List Tile → SolveResult) (p : Puzzle) (v : List Tile)
    (log : List Event) : SolveLogResult :=
  match self p v with
  | Except.error e => Except.error e
  | Except.ok res => Except.ok (res, log)

/-- The tiles taken out of the vector, in the order of the log. -/
def takes : List Event → List Tile
  | [] => []
  | Event.take tile :: rest => tile :: takes rest
  | _ :: rest => takes rest

/-- The event shows no board whose `numFilled` is below `lo` or above `hi`. -/
def Event.within (lo hi : Int) : Event → Prop
  | Event.display q _ => lo ≤ q._numFilled ∧ q._numFilled ≤ hi
  | _ => True

/-- Board `q` satisfies the class invariant and has the dimensions of board `p`. -/
def Puzzle.Like (p q : Puzzle) : Prop :=
  q.Valid ∧ q._grid.nRows = p._grid.nRows ∧ q._grid.nCols = p._grid.nCols

/-- What a logged call `solve(p, v)` guarantees on a board that satisfies the class
invariant: the board on return satisfies it too and has the same dimensions;
either `numFilled` and the length of the vector are as on entry, or the board
is full; and the call adds to the log only boards whose `numFilled` lies between
the value on entry and the number of cells. -/
def LogPost (p : Puzzle) (v : List Tile) (log : List Event)
    (out : (Bool × Puzzle × List Tile) × List Event) : Prop :=
  p.Like out.1.2.1 ∧
  ((out.1.2.1._numFilled = p._numFilled ∧ out.1.2.2.length = v.length) ∨
    out.1.2.1.isFull = true) ∧
  ∃ new, out.2 = log ++ new ∧ ∀ e ∈ new, e.within p._numFilled p._grid.size

/-- The result of a logged call without the log. -/
def dropLog {α : Type} : Except Error (α × List Event) → Except Error α
  | Except.error e => Except.error e
  | Except.ok (a, _) => Except.ok a

/-- The boundary test that `canMatchEdge` makes for a direction: the first operand
of `||` in the branch of that direction. -/
def Puzzle.atBoundary (p : Puzzle) (loc : GridLocation) (dir : Direction) : Bool :=
  if dir = Direction.NORTH then decide (loc.row - 1 = -1)
  else if dir = Direction.EAST then decide (loc.col + 1 = p._grid.numCols)
  else if dir = Direction.SOUTH then decide (loc.row + 1 = p._grid.numRows)
  else decide (loc.col - 1 = -1)

/-- The two-direction check of the specification: the board is not full and the
tile matches at the next open cell toward NORTH and toward WEST. -/
def Puzzle.canAddTwoWay (p : Puzzle) (tile : Tile) : Except Error Bool :=
  if p.isFull then Except.ok false
  else match p.locationForCount p._numFilled with
    | Except.error e => Except.error e
    | Except.ok loc => p.canMatchEdgesFrom tile loc [Direction.NORTH, Direction.WEST]

/-- The tiles passed to `canAdd`, in the order of the log. -/
def probes : List Event → List Tile
  | [] => []
  | Event.probe tile :: rest => tile :: probes rest
  | _ :: rest => probes rest

/-- Function `solve` with the base case as the specification words it, "if no tiles
remain, the board is full by construction": the code of `solve`, except that a
call with an empty inventory on a board that is not full fails with
`baseNotFull` instead of returning true.  A run of `solveFullBase` that ends
without that error has met the base case on full boards only. -/
def solveFullBase : Nat → Puzzle → List Tile → SolveResult
  | 0, _, _ => Except.error Error.outOfFuel
  | fuel + 1, p, v =>
    if v.isEmpty then
      if p.isFull then Except.ok (true, p, v) else Except.error Error.baseNotFull
    else
      match tileLoop (solveFullBase fuel) v.length p v with
      | Except.error e => Except.error e
      | Except.ok (Flow.ret b p1 v1) => Except.ok (b, p1, v1)
      | Except.ok (Flow.next _ p1 v1) => Except.ok (p1.isFull, p1, v1)

/-- The check that `readPuzzleConfigFile` makes for every tile it reads: each of
the four edge labels has an entry in the table of pairs
(`if (!pairs.containsKey(tile.getEdge(dir))) throw ...`). -/
def labelsDeclared (pairs : StrMap) (tile : Tile) : Bool :=
  [Direction.NORTH, Direction.EAST, Direction.SOUTH, Direction.WEST].all
    (fun dir => pairs.containsKey (tile.getEdge dir))

/-! ## Concrete boards and inventories used in the examples -/

/-- A `Puzzle` object before `configure` is called on it.  (C++ leaves `_numFilled`
uninitialised; `configure` overwrites every member.) -/
def Puzzle.fresh : Puzzle :=
  { _grid := { nRows := 0, nCols := 0, elems := [] }, _complementMap := [], _numFilled := 0 }

/-- The loop of `readPuzzleConfigFile` over the declared pairs:
`pairs[tokens[0]] = tokens[1]; pairs[tokens[1]] = tokens[0];`. -/
def loadPairs : StrMap → List (String × String) → StrMap
  | pairs, [] => pairs
  | pairs, (a, b) :: rest => loadPairs ((pairs.put a b).put b a) rest

/-- Complement table declared as `A=a B=b C=c z=Z`. -/
def incPairs : StrMap := loadPairs [] [("A", "a"), ("B", "b"), ("C", "c"), ("z", "Z")]

/-- Tile `z-A-z-z`, placed by hand at cell (0,0) of a 1x4 board. -/
def incX : Tile := Tile.create "z" "A" "z" "z"

/-- Tile `a-C-z-b`. -/
def incA : Tile := Tile.create "a" "C" "z" "b"

/-- Tile `a-z-B-z`. -/
def incB : Tile := Tile.create "a" "z" "B" "z"

/-- Tile `c-a-z-z`. -/
def incC : Tile := Tile.create "c" "a" "z" "z"

/-- The 1x4 board with `incX` at cell (0,0) and three open cells. -/
def incBoard : Puzzle := Puzzle.ofStack 1 4 incPairs [incX]

/-- The 1x4 board filled with `incX`, `incB`, `incA`, `incC`, the second and the
fourth turned three times. -/
def incFull : Puzzle :=
  Puzzle.ofStack 1 4 incPairs [incX, Tile.rotateN 3 incB, incA, Tile.rotateN 3 incC]

/-- Complement table declared as `A=a B=b`. -/
def ordPairs : StrMap := loadPairs [] [("A", "a"), ("B", "b")]

/-- Tile `A-A-A-A`. -/
def ordP : Tile := Tile.create "A" "A" "A" "A"

/-- Tile `B-B-B-B`. -/
def ordQ : Tile := Tile.create "B" "B" "B" "B"

/-- The empty 1x2 board with the table `ordPairs`. -/
def ordBoard : Puzzle := Puzzle.fresh.configure 1 2 ordPairs

/-- Complement table declared as `r=g`. -/
def rgPairs : StrMap := loadPairs [] [("r", "g")]

/-- Tile T1 of the specification's examples: only the east edge is labelled, `r`. -/
def exT1 : Tile := Tile.create "" "r" "" ""

/-- Tile T2 of the specification's examples: only the west edge is labelled, `g`. -/
def exT2 : Tile := Tile.create "" "" "" "g"

/-- Tile T3 of the specification's examples: only the west edge is labelled, `r`. -/
def exT3 : Tile := Tile.create "" "" "" "r"

/-- The empty 1x2 board with the table `rgPairs`. -/
def rgBoard : Puzzle := Puzzle.fresh.configure 1 2 rgPairs

/-- The 1x2 board on which `solve` ends for the inventory `[exT1, exT2]`. -/
def rgSolved : Puzzle := Puzzle.ofStack 1 2 rgPairs [exT2.rotate, exT1.rotate]

/-- Complement table declared as `r=g x=y`: the pair of the specification's examples
and a pair for the label `x`, which stands on the edges that the examples leave
without a label. -/
def decPairs : StrMap := loadPairs [] [("r", "g"), ("x", "y")]

/-- Tile T1 of the examples with the label `x` on the unlabelled edges: `x-r-x-x`. -/
def decT1 : Tile := Tile.create "x" "r" "x" "x"

/-- Tile T2 of the examples with the label `x` on the unlabelled edges: `x-x-x-g`. -/
def decT2 : Tile := Tile.create "x" "x" "x" "g"

/-- Tile T3 of the examples with the label `x` on the unlabelled edges: `x-x-x-r`. -/
def decT3 : Tile := Tile.create "x" "x" "x" "r"

/-- The empty 1x2 board with the table `decPairs`. -/
def decBoard : Puzzle := Puzzle.fresh.configure 1 2 decPairs

/-- The 1x2 board on which `solve` ends for the inventory `[decT1, decT2]`: both
tiles turned twice, `decT2` first. -/
def decSolved : Puzzle :=
  Puzzle.ofStack 1 2 decPairs [Tile.rotateN 2 decT2, Tile.rotateN 2 decT1]

/-- The 1x4 board with `incX` at (0,0), `incB` turned three times at (0,1) and two
open cells. -/
def incHalf : Puzzle := Puzzle.ofStack 1 4 incPairs [incX, Tile.rotateN 3 incB]

/-- A tile with four distinct labels `n`, `e`, `s`, `w`. -/
def exNESW : Tile := Tile.create "n" "e" "s" "w"

/-- The empty 1x1 board with the empty complement table. -/
def oneBoard : Puzzle := Puzzle.fresh.configure 1 1 []

/-! ## Tiles -/

theorem Tile.blank_eq :
    Tile.blank = { _north := "", _east := "", _south := "", _west := "", _id := "" } := by
  decide

theorem Tile.rotateN_four (t : Tile) : Tile.rotateN 4 t = t := by
  cases t; rfl

theorem Tile.rotateN_succ (k : Nat) (t : Tile) :
    Tile.rotateN (k + 1) t = Tile.rotate (Tile.rotateN k t) := by
  induction k generalizing t with
  | zero => rfl
  | succ k ih =>
    show Tile.rotateN (k + 1) (Tile.rotate t) = _
    rw [ih (Tile.rotate t)]
    rfl

/-! ## Row-major arithmetic -/

theorem Grid.size_eq (g : Grid) : g.size = ((g.nRows * g.nCols : Nat) : Int) := by
  simp [Grid.size, Grid.numRows, Grid.numCols]

theorem Grid.nCols_pos (g : Grid) {n : Nat} (h : n < g.nRows * g.nCols) : 0 < g.nCols := by
  rcases Nat.eq_zero_or_pos g.nCols with h0 | h0
  · rw [h0] at h; simp at h
  · exact h0

theorem Grid.inBounds_iff (g : Grid) (loc : GridLocation) :
    g.inBounds loc = true ↔
      0 ≤ loc.row ∧ loc.row < g.nRows ∧ 0 ≤ loc.col ∧ loc.col < g.nCols := by
  simp [Grid.inBounds, Grid.numRows, Grid.numCols, and_assoc]

theorem Grid.inBounds_cell (g : Grid) {n : Nat} (h : n < g.nRows * g.nCols) :
    g.inBounds (g.cell n) = true := by
  have hc := g.nCols_pos h
  rw [Grid.inBounds_iff]
  have h1 : n / g.nCols < g.nRows := (Nat.div_lt_iff_lt_mul hc).2 h
  have h2 : n % g.nCols < g.nCols := Nat.mod_lt n hc
  exact ⟨Int.ofNat_nonneg _, Int.ofNat_lt.2 h1, Int.ofNat_nonneg _, Int.ofNat_lt.2 h2⟩

theorem Grid.index_cell (g : Grid) (n : Nat) :
    g.index (g.cell n) = n := by
  have h : ((n / g.nCols : Nat) : Int) * (g.nCols : Int) + ((n % g.nCols : Nat) : Int)
      = ((n / g.nCols * g.nCols + n % g.nCols : Nat) : Int) := by push_cast; rfl
  simp only [Grid.index, Grid.numCols, Grid.cell]
  rw [h, Int.toNat_natCast, Nat.div_add_mod']

/-- An in-bounds location is the row-major cell of its index. -/
theorem Grid.loc_of_inBounds (g : Grid) (loc : GridLocation) (h : g.inBounds loc = true) :
    g.index loc < g.nRows * g.nCols ∧
      loc = g.cell (g.index loc) := by
  rw [Grid.inBounds_iff] at h
  obtain ⟨h1, h2, h3, h4⟩ := h
  obtain ⟨a, ha⟩ := Int.eq_ofNat_of_zero_le h1
  obtain ⟨b, hb⟩ := Int.eq_ofNat_of_zero_le h3
  cases loc with
  | mk row col =>
    simp only at ha hb h2 h4
    subst ha hb
    have ha2 : a < g.nRows := by exact_mod_cast h2
    have hb2 : b < g.nCols := by exact_mod_cast h4
    have hidx : g.index { row := (a : Int), col := (b : Int) } = a * g.nCols + b := by
      simp only [Grid.index, Grid.numCols]
      have : (a : Int) * (g.nCols : Int) + (b : Int) = ((a * g.nCols + b : Nat) : Int) := by
        push_cast; rfl
      rw [this, Int.toNat_natCast]
    rw [hidx]
    have hc : 0 < g.nCols := by omega
    refine ⟨?_, ?_⟩
    · calc a * g.nCols + b < a * g.nCols + g.nCols := by omega
        _ = (a + 1) * g.nCols := by ring
        _ ≤ g.nRows * g.nCols := Nat.mul_le_mul_right _ ha2
    · have hd : (a * g.nCols + b) / g.nCols = a := by
        rw [Nat.add_comm, Nat.add_mul_div_right _ _ hc, Nat.div_eq_of_lt hb2, Nat.zero_add]
      have hm : (a * g.nCols + b) % g.nCols = b := by
        rw [Nat.add_comm, Nat.add_mul_mod_self_right, Nat.mod_eq_of_lt hb2]
      simp only [Grid.cell]
      rw [hd, hm]

theorem Puzzle.locationForCount_nat (p : Puzzle) {n : Nat}
    (h : n < p._grid.nRows * p._grid.nCols) :
    p.locationForCount (n : Int) = Except.ok (p._grid.cell n) := by
  have hc := p._grid.nCols_pos h
  have hc2 : (p._grid.nCols : Int) ≠ 0 := by exact_mod_cast (Nat.pos_iff_ne_zero.1 hc)
  simp only [Puzzle.locationForCount, Grid.numCols, hc2, if_false]
  rw [← Int.ofNat_tdiv, ← Int.ofNat_tmod]
  rfl

theorem Puzzle.cellOf_nat (p : Puzzle) (n : Nat) :
    p.cellOf (n : Int) = p._grid.cell n := by
  simp [Puzzle.cellOf, Grid.numCols, Grid.cell]

/-! ## Grid access -/

theorem Grid.get_eq (g : Grid) (loc : GridLocation) (h : g.inBounds loc = true) {t : Tile}
    (ht : g.elems[g.index loc]? = some t) : g.get loc = Except.ok t := by
  simp [Grid.get, h, ht]

theorem Grid.get_ok_iff (g : Grid) (loc : GridLocation) (t : Tile) :
    g.get loc = Except.ok t ↔ g.inBounds loc = true ∧ g.elems[g.index loc]? = some t := by
  unfold Grid.get
  by_cases h : g.inBounds loc = true
  · rw [if_pos h]
    cases hq : g.elems[g.index loc]? with
    | none => simp [h]
    | some u => simp [h]
  · simp [h]

theorem Grid.get_cell (g : Grid) {n : Nat} (h : n < g.nRows * g.nCols) {t : Tile}
    (ht : g.elems[n]? = some t) : g.get (g.cell n) = Except.ok t := by
  apply Grid.get_eq g _ (g.inBounds_cell h)
  rw [Grid.index_cell]; exact ht

theorem Grid.set_cell (g : Grid) {n : Nat} (h : n < g.nRows * g.nCols)
    (hl : n < g.elems.length) (t : Tile) :
    g.set (g.cell n) t = Except.ok { g with elems := g.elems.set n t } := by
  simp [Grid.set, g.inBounds_cell h, Grid.index_cell, hl]

/-- Reading a grid in which cell `k` was overwritten. -/
theorem Grid.get_set (g : Grid) (k : Nat) (t : Tile) (loc : GridLocation) :
    Grid.get { g with elems := g.elems.set k t } loc =
      if g.inBounds loc = true ∧ g.index loc = k ∧ k < g.elems.length then Except.ok t
      else g.get loc := by
  by_cases h : g.inBounds loc = true
  · have h2 : Grid.inBounds { g with elems := g.elems.set k t } loc = true := h
    simp only [Grid.get, h2, h, if_true, true_and]
    show (match (g.elems.set k t)[g.index loc]? with
      | some t => Except.ok t
      | none => Except.error Error.gridBounds) = _
    rw [List.getElem?_set]
    by_cases hk : k = g.index loc
    · subst hk
      by_cases hl : g.index loc < g.elems.length
      · simp [hl]
      · have : g.elems[g.index loc]? = none := List.getElem?_eq_none (by omega)
        simp [hl, this]
    · have hk2 : ¬ g.index loc = k := fun e => hk e.symm
      simp [hk, hk2]
  · have h2 : ¬ Grid.inBounds { g with elems := g.elems.set k t } loc = true := h
    simp [Grid.get, h2, h]

/-! ## `add` and `remove` on a board that satisfies the class invariant -/

theorem Puzzle.Valid.numFilled_eq {p : Puzzle} (hv : p.Valid) :
    p._numFilled = ((p._numFilled.toNat : Nat) : Int) := by
  have := hv.2.1
  omega

theorem Puzzle.Valid.lt_of_not_full {p : Puzzle} (hv : p.Valid) (hnf : p.isFull = false) :
    p._numFilled.toNat < p._grid.nRows * p._grid.nCols := by
  obtain ⟨_, h0, h1⟩ := hv
  rw [Grid.size_eq] at h1
  have h2 : p._numFilled ≠ ((p._grid.nRows * p._grid.nCols : Nat) : Int) := by
    intro e
    simp [Puzzle.isFull, Grid.size_eq, e] at hnf
  omega

theorem Puzzle.add_eq (p : Puzzle) (hv : p.Valid) (hnf : p.isFull = false) (t : Tile) :
    p.add t = (Except.ok (),
      { p with _grid := { p._grid with elems := p._grid.elems.set p._numFilled.toNat t },
               _numFilled := p._numFilled + 1 }) := by
  have hlt := hv.lt_of_not_full hnf
  have hn := hv.numFilled_eq
  have hl : p._numFilled.toNat < p._grid.elems.length := by rw [hv.1]; exact hlt
  unfold Puzzle.add
  rw [hnf]
  simp only [Bool.false_eq_true, if_false]
  conv => lhs; rw [hn]
  rw [Puzzle.locationForCount_nat p hlt]
  simp only [Grid.set_cell p._grid hlt hl]
  rw [← hn]

theorem Puzzle.remove_eq (p : Puzzle) (hv : p.Valid) (hne : p.isEmpty = false) :
    ∃ t, p._grid.elems[(p._numFilled - 1).toNat]? = some t ∧
      p.remove = (Except.ok t,
        { p with _grid := { p._grid with
                   elems := p._grid.elems.set (p._numFilled - 1).toNat Tile.blank },
                 _numFilled := p._numFilled - 1 }) := by
  obtain ⟨hlen, h0, h1⟩ := hv
  rw [Grid.size_eq] at h1
  have hpos : p._numFilled ≠ 0 := by
    intro e
    simp [Puzzle.isEmpty, e] at hne
  have hlt : (p._numFilled - 1).toNat < p._grid.nRows * p._grid.nCols := by omega
  have hn : p._numFilled - 1 = (((p._numFilled - 1).toNat : Nat) : Int) := by omega
  have hl : (p._numFilled - 1).toNat < p._grid.elems.length := by rw [hlen]; exact hlt
  refine ⟨p._grid.elems[(p._numFilled - 1).toNat], List.getElem?_eq_getElem hl, ?_⟩
  unfold Puzzle.remove
  rw [hne]
  simp only [Bool.false_eq_true, if_false]
  conv => lhs; rw [hn]
  rw [Puzzle.locationForCount_nat p hlt]
  simp only [Grid.get_cell p._grid hlt (List.getElem?_eq_getElem hl),
    Grid.set_cell p._grid hlt hl]
  rw [← hn]

/-! ## Boards as stacks -/

theorem Puzzle.ofStack_valid (r c : Nat) (m : StrMap) (s : List Tile) (hs : s.length ≤ r * c) :
    (Puzzle.ofStack r c m s).Valid := by
  refine ⟨?_, ?_, ?_⟩
  · simp only [Puzzle.ofStack, List.length_append, List.length_replicate]
    omega
  · exact Int.ofNat_nonneg _
  · rw [Grid.size_eq]
    exact Int.ofNat_le.2 hs

theorem Puzzle.ofStack_isFull (r c : Nat) (m : StrMap) (s : List Tile) :
    (Puzzle.ofStack r c m s).isFull = decide (s.length = r * c) := by
  simp only [Puzzle.isFull, Grid.size_eq, Puzzle.ofStack]
  by_cases h : s.length = r * c
  · simp [h]
  · have h2 : ¬ ((s.length : Int) = ((r * c : Nat) : Int)) := by exact_mod_cast h
    simp only [h, decide_False]
    exact beq_false_of_ne h2

theorem Puzzle.ofStack_isEmpty (r c : Nat) (m : StrMap) (s : List Tile) :
    (Puzzle.ofStack r c m s).isEmpty = decide (s = []) := by
  cases s with
  | nil => simp [Puzzle.isEmpty, Puzzle.ofStack]
  | cons a l => simp [Puzzle.isEmpty, Puzzle.ofStack]; omega

theorem Puzzle.configure_eq_ofStack (p0 : Puzzle) (r c : Nat) (m : StrMap) :
    p0.configure r c m = Puzzle.ofStack r c m [] := by
  simp [Puzzle.configure, Puzzle.ofStack, Grid.resizeClear]

theorem Puzzle.add_ofStack (r c : Nat) (m : StrMap) (s : List Tile) (t : Tile)
    (hs : s.length < r * c) :
    (Puzzle.ofStack r c m s).add t = (Except.ok (), Puzzle.ofStack r c m (s ++ [t])) := by
  have hv := Puzzle.ofStack_valid r c m s (Nat.le_of_lt hs)
  have hnf : (Puzzle.ofStack r c m s).isFull = false := by
    rw [Puzzle.ofStack_isFull]; simp; omega
  rw [Puzzle.add_eq _ hv hnf]
  obtain ⟨k, hk⟩ : ∃ k, r * c - s.length = k + 1 := ⟨r * c - s.length - 1, by omega⟩
  have hk2 : r * c - (s.length + 1) = k := by omega
  simp [Puzzle.ofStack, hk, hk2, List.replicate_succ]

theorem Puzzle.remove_ofStack (r c : Nat) (m : StrMap) (s : List Tile) (t : Tile)
    (hs : s.length < r * c) :
    (Puzzle.ofStack r c m (s ++ [t])).remove = (Except.ok t, Puzzle.ofStack r c m s) := by
  have hv := Puzzle.ofStack_valid r c m (s ++ [t]) (by simp; omega)
  have hne : (Puzzle.ofStack r c m (s ++ [t])).isEmpty = false := by
    rw [Puzzle.ofStack_isEmpty]; simp
  obtain ⟨u, hu, he⟩ := Puzzle.remove_eq _ hv hne
  obtain ⟨k, hk⟩ : ∃ k, r * c - s.length = k + 1 := ⟨r * c - s.length - 1, by omega⟩
  have hk2 : r * c - (s.length + 1) = k := by omega
  have hidx : ((Puzzle.ofStack r c m (s ++ [t]))._numFilled - 1).toNat = s.length := by
    simp [Puzzle.ofStack]
  rw [hidx] at hu he
  have hut : u = t := by
    have h2 : (Puzzle.ofStack r c m (s ++ [t]))._grid.elems[s.length]? = some t := by
      show ((s ++ [t]) ++ List.replicate (r * c - (s ++ [t]).length) Tile.blank)[s.length]? = _
      rw [List.append_assoc, List.getElem?_append_right (Nat.le_refl _)]
      simp
    rw [h2] at hu
    exact (Option.some.inj hu).symm
  rw [he, hut]
  simp [Puzzle.ofStack, hk, hk2, List.replicate_succ]

theorem Puzzle.Reachable.exists_stack {p : Puzzle} (h : p.Reachable) :
    ∃ (r c : Nat) (m : StrMap) (s : List Tile), s.length ≤ r * c ∧ p = Puzzle.ofStack r c m s := by
  induction h with
  | configure p0 r c m => exact ⟨r, c, m, [], Nat.zero_le _, Puzzle.configure_eq_ofStack p0 r c m⟩
  | @add p p1 tile _ hadd ih =>
    obtain ⟨r, c, m, s, hs, rfl⟩ := ih
    rcases Nat.lt_or_ge s.length (r * c) with hlt | hge
    · rw [Puzzle.add_ofStack r c m s tile hlt] at hadd
      exact ⟨r, c, m, s ++ [tile], by simp; omega, (Prod.mk.inj hadd).2.symm⟩
    · have hf : (Puzzle.ofStack r c m s).isFull = true := by
        rw [Puzzle.ofStack_isFull]; simp; omega
      simp [Puzzle.add, hf] at hadd
  | @remove p p1 tile _ hrem ih =>
    obtain ⟨r, c, m, s, hs, rfl⟩ := ih
    rcases List.eq_nil_or_concat s with rfl | ⟨s1, t, hst⟩
    · have he : (Puzzle.ofStack r c m []).isEmpty = true := by
        rw [Puzzle.ofStack_isEmpty]; simp
      simp [Puzzle.remove, he] at hrem
    · rw [List.concat_eq_append] at hst
      subst hst
      have hs1 : s1.length < r * c := by simp at hs; omega
      rw [Puzzle.remove_ofStack r c m s1 t hs1] at hrem
      exact ⟨r, c, m, s1, Nat.le_of_lt hs1, (Prod.mk.inj hrem).2.symm⟩

theorem Puzzle.ofStack_reachable (r c : Nat) (m : StrMap) (s : List Tile) (hs : s.length ≤ r * c) :
    (Puzzle.ofStack r c m s).Reachable := by
  induction s using List.reverseRecOn with
  | nil =>
    rw [← Puzzle.configure_eq_ofStack (Puzzle.ofStack r c m []) r c m]
    exact Puzzle.Reachable.configure _ r c m
  | append_singleton s1 t ih =>
    have hs1 : s1.length < r * c := by simp at hs; omega
    exact Puzzle.Reachable.add t (ih (Nat.le_of_lt hs1)) (Puzzle.add_ofStack r c m s1 t hs1)

theorem Puzzle.Reachable.valid {p : Puzzle} (h : p.Reachable) : p.Valid := by
  obtain ⟨r, c, m, s, hs, rfl⟩ := h.exists_stack
  exact Puzzle.ofStack_valid r c m s hs

/-- The `k`-th cell of a stack board holds the `k`-th tile of the stack, or the blank tile. -/
theorem Puzzle.tileAt_ofStack (r c : Nat) (m : StrMap) (s : List Tile)
    {k : Nat} (hk : k < r * c) :
    (Puzzle.ofStack r c m s).tileAt ((Puzzle.ofStack r c m s)._grid.cell k) =
      Except.ok (s.getD k Tile.blank) := by
  apply Grid.get_cell _ hk
  show (s ++ List.replicate (r * c - s.length) Tile.blank)[k]? = _
  rcases Nat.lt_or_ge k s.length with h | h
  · rw [List.getElem?_append_left h, List.getD_eq_getElem?_getD, List.getElem?_eq_getElem h]
    rfl
  · rw [List.getElem?_append_right h, List.getD_eq_default _ _ h, List.getElem?_replicate]
    simp; omega

/-! ## Contracts of `add` and `remove` -/

/-- Reading a board in which row-major cell `n` was overwritten. -/
theorem Puzzle.tileAt_set (p : Puzzle) (hv : p.Valid) {n : Nat}
    (hn : n < p._grid.nRows * p._grid.nCols) (t : Tile) (k : Int) :
    Puzzle.tileAt { p with _grid := { p._grid with elems := p._grid.elems.set n t },
                           _numFilled := k } (p._grid.cell n) = Except.ok t ∧
    ∀ loc, loc ≠ p._grid.cell n →
      Puzzle.tileAt { p with _grid := { p._grid with elems := p._grid.elems.set n t },
                             _numFilled := k } loc = p.tileAt loc := by
  have hl : n < p._grid.elems.length := by rw [hv.1]; exact hn
  constructor
  · show Grid.get { p._grid with elems := p._grid.elems.set n t } (p._grid.cell n) = _
    rw [Grid.get_set, if_pos ⟨p._grid.inBounds_cell hn, p._grid.index_cell n, hl⟩]
  · intro loc hloc
    show Grid.get { p._grid with elems := p._grid.elems.set n t } loc = p._grid.get loc
    rw [Grid.get_set, if_neg]
    rintro ⟨hb, hi, _⟩
    apply hloc
    rw [(p._grid.loc_of_inBounds loc hb).2, hi]

/-- C7: on every board that satisfies the class invariant (every board the class
can hold after `configure`), `add(tile)` raises an error exactly when the board is
full, the error is the logic error of `add`, and the board is left unchanged;
otherwise `add` succeeds for every tile, whether or not `canAdd` accepts it:
the tile is stored at cell `(numFilled / numCols, numFilled % numCols)`,
`numFilled` grows by one, and every other cell, the dimensions and the complement
table stay as they were. -/
theorem add_contract (p : Puzzle) (tile : Tile) (hv : p.Valid) :
    ((∃ e, (p.add tile).1 = Except.error e) ↔ p.isFull = true) ∧
    (p.isFull = true → p.add tile = (Except.error Error.addToFull, p)) ∧
    (p.isFull = false → ∃ p1, p.add tile = (Except.ok (), p1) ∧
      p1.tileAt (p.cellOf p._numFilled) = Except.ok tile ∧
      p1._numFilled = p._numFilled + 1 ∧
      (∀ loc, loc ≠ p.cellOf p._numFilled → p1.tileAt loc = p.tileAt loc) ∧
      p1._complementMap = p._complementMap ∧
      p1._grid.nRows = p._grid.nRows ∧ p1._grid.nCols = p._grid.nCols) := by
  have hfull : p.isFull = true → p.add tile = (Except.error Error.addToFull, p) := by
    intro hf
    simp [Puzzle.add, hf]
  have hnot : p.isFull = false → ∃ p1, p.add tile = (Except.ok (), p1) ∧
      p1.tileAt (p.cellOf p._numFilled) = Except.ok tile ∧
      p1._numFilled = p._numFilled + 1 ∧
      (∀ loc, loc ≠ p.cellOf p._numFilled → p1.tileAt loc = p.tileAt loc) ∧
      p1._complementMap = p._complementMap ∧
      p1._grid.nRows = p._grid.nRows ∧ p1._grid.nCols = p._grid.nCols := by
    intro hnf
    have hlt := hv.lt_of_not_full hnf
    have hc : p.cellOf p._numFilled = p._grid.cell p._numFilled.toNat := by
      conv => lhs; rw [hv.numFilled_eq]
      exact p.cellOf_nat _
    have ht := Puzzle.tileAt_set p hv hlt tile (p._numFilled + 1)
    refine ⟨_, Puzzle.add_eq p hv hnf tile, ?_, rfl, ?_, rfl, rfl, rfl⟩
    · rw [hc]; exact ht.1
    · rw [hc]; exact ht.2
  refine ⟨⟨?_, ?_⟩, hfull, hnot⟩
  · rintro ⟨e, he⟩
    cases hf : p.isFull with
    | true => rfl
    | false =>
      obtain ⟨p1, h1, _⟩ := hnot hf
      rw [h1] at he
      cases he
  · intro hf
    exact ⟨Error.addToFull, by rw [hfull hf]⟩

/-- C8: on every board that satisfies the class invariant, `remove()` raises an
error exactly when the board is empty (`numFilled = 0`), and then the board is
unchanged; otherwise it returns the tile stored at the last filled cell
`((numFilled-1) / numCols, (numFilled-1) % numCols)`, that cell then holds the
blank tile, `numFilled` drops by one and every other cell, the dimensions and
the complement table stay as they were. -/
theorem remove_contract (p : Puzzle) (hv : p.Valid) :
    ((∃ e, p.remove.1 = Except.error e) ↔ p._numFilled = 0) ∧
    (p._numFilled = 0 → p.remove = (Except.error Error.removeFromEmpty, p)) ∧
    (p._numFilled ≠ 0 → ∃ t p1, p.remove = (Except.ok t, p1) ∧
      p.tileAt (p.cellOf (p._numFilled - 1)) = Except.ok t ∧
      p1.tileAt (p.cellOf (p._numFilled - 1)) = Except.ok Tile.blank ∧
      p1._numFilled = p._numFilled - 1 ∧
      (∀ loc, loc ≠ p.cellOf (p._numFilled - 1) → p1.tileAt loc = p.tileAt loc) ∧
      p1._complementMap = p._complementMap ∧
      p1._grid.nRows = p._grid.nRows ∧ p1._grid.nCols = p._grid.nCols) := by
  have hempty : p._numFilled = 0 → p.remove = (Except.error Error.removeFromEmpty, p) := by
    intro h0
    simp [Puzzle.remove, Puzzle.isEmpty, h0]
  have hnot : p._numFilled ≠ 0 → ∃ t p1, p.remove = (Except.ok t, p1) ∧
      p.tileAt (p.cellOf (p._numFilled - 1)) = Except.ok t ∧
      p1.tileAt (p.cellOf (p._numFilled - 1)) = Except.ok Tile.blank ∧
      p1._numFilled = p._numFilled - 1 ∧
      (∀ loc, loc ≠ p.cellOf (p._numFilled - 1) → p1.tileAt loc = p.tileAt loc) ∧
      p1._complementMap = p._complementMap ∧
      p1._grid.nRows = p._grid.nRows ∧ p1._grid.nCols = p._grid.nCols := by
    intro hne
    have hne2 : p.isEmpty = false := by
      simp [Puzzle.isEmpty, hne]
    obtain ⟨t, ht, hrem⟩ := Puzzle.remove_eq p hv hne2
    have h0 := hv.2.1
    have h1 := hv.2.2
    rw [Grid.size_eq] at h1
    have hlt : (p._numFilled - 1).toNat < p._grid.nRows * p._grid.nCols := by omega
    have hn : p._numFilled - 1 = (((p._numFilled - 1).toNat : Nat) : Int) := by omega
    have hc : p.cellOf (p._numFilled - 1) = p._grid.cell (p._numFilled - 1).toNat := by
      conv => lhs; rw [hn]
      exact p.cellOf_nat _
    have hs := Puzzle.tileAt_set p hv hlt Tile.blank (p._numFilled - 1)
    refine ⟨t, _, hrem, ?_, ?_, rfl, ?_, rfl, rfl, rfl⟩
    · rw [hc]; exact Grid.get_cell _ hlt ht
    · rw [hc]; exact hs.1
    · rw [hc]; exact hs.2
  refine ⟨⟨?_, ?_⟩, hempty, hnot⟩
  · rintro ⟨e, he⟩
    by_contra hne
    obtain ⟨t, p1, h1, _⟩ := hnot hne
    rw [h1] at he
    cases he
  · intro h0
    exact ⟨Error.removeFromEmpty, by rw [hempty h0]⟩

/-- C9: on every board reached from `configure` by `add` and `remove`: when the
board is not full, `add(t)` followed by `remove()` returns `t` and gives back
the board as it was before the add; when the board is not empty, `remove()`
followed by `add` of the returned tile gives back the board as it was before
the remove. -/
theorem add_remove_round_trip (p : Puzzle) (h : p.Reachable) :
    (∀ t, p.isFull = false →
      ∃ p1, p.add t = (Except.ok (), p1) ∧ p1.remove = (Except.ok t, p)) ∧
    (p.isEmpty = false →
      ∃ t p1, p.remove = (Except.ok t, p1) ∧ p1.add t = (Except.ok (), p)) := by
  obtain ⟨r, c, m, s, hs, rfl⟩ := h.exists_stack
  constructor
  · intro t hnf
    rw [Puzzle.ofStack_isFull] at hnf
    have hlt : s.length < r * c := by
      have : s.length ≠ r * c := by simpa using hnf
      omega
    exact ⟨_, Puzzle.add_ofStack r c m s t hlt, Puzzle.remove_ofStack r c m s t hlt⟩
  · intro hne
    rw [Puzzle.ofStack_isEmpty] at hne
    rcases List.eq_nil_or_concat s with rfl | ⟨s1, t, hst⟩
    · simp at hne
    · rw [List.concat_eq_append] at hst
      subst hst
      have hs1 : s1.length < r * c := by simp at hs; omega
      exact ⟨t, _, Puzzle.remove_ofStack r c m s1 t hs1, Puzzle.add_ofStack r c m s1 t hs1⟩

/-! ## Fill order -/

theorem runOps_ofStack (r c : Nat) (m : StrMap) (ops : List Op) :
    ∀ (s : List Tile) (p : Puzzle), s.length ≤ r * c →
      runOps (Puzzle.ofStack r c m s) ops = some p →
      ∃ s1, stackOps s ops = some s1 ∧ s1.length ≤ r * c ∧ p = Puzzle.ofStack r c m s1 := by
  induction ops with
  | nil =>
    intro s p hs h
    simp only [runOps, Option.some.injEq] at h
    exact ⟨s, rfl, hs, h.symm⟩
  | cons op ops ih =>
    intro s p hs h
    cases op with
    | add tile =>
      rcases Nat.lt_or_ge s.length (r * c) with hlt | hge
      · simp only [runOps, Puzzle.add_ofStack r c m s tile hlt] at h
        obtain ⟨s1, h1, h2, h3⟩ := ih (s ++ [tile]) p (by simp; omega) h
        exact ⟨s1, by simpa [stackOps] using h1, h2, h3⟩
      · have hf : (Puzzle.ofStack r c m s).isFull = true := by
          rw [Puzzle.ofStack_isFull]; simp; omega
        simp [runOps, Puzzle.add, hf] at h
    | remove =>
      rcases List.eq_nil_or_concat s with rfl | ⟨s0, t, hst⟩
      · have he : (Puzzle.ofStack r c m []).isEmpty = true := by
          rw [Puzzle.ofStack_isEmpty]; simp
        simp [runOps, Puzzle.remove, he] at h
      · rw [List.concat_eq_append] at hst
        subst hst
        have hs1 : s0.length < r * c := by simp at hs; omega
        simp only [runOps, Puzzle.remove_ofStack r c m s0 t hs1] at h
        obtain ⟨s1, h1, h2, h3⟩ := ih s0 p (Nat.le_of_lt hs1) h
        exact ⟨s1, by simpa [stackOps] using h1, h2, h3⟩

theorem Puzzle.cellOf_ofStack (r c : Nat) (m : StrMap) (s : List Tile) (k : Nat) :
    (Puzzle.ofStack r c m s).cellOf (k : Int) = (Puzzle.ofStack r c m s)._grid.cell k :=
  Puzzle.cellOf_nat _ k

/-- C10: after `configure(numRows, numCols, pairs)` and any sequence of successful
`add` and `remove` calls, `0 <= numFilled <= numRows*numCols`; the operations
are those of a push/pop stack `s` whose height is `numFilled`, and the `k`-th
cell in row-major order, `(k / numCols, k % numCols)`, holds the `k`-th tile of
the stack from the bottom when `k < numFilled` and the blank tile otherwise; so
the next `add` lands at cell `(numFilled / numCols, numFilled % numCols)` and
the next `remove` vacates the last filled cell.  On a 2x2 board the adds land at
(0,0), (0,1), (1,0), (1,1) and the removes vacate (1,1), (1,0), (0,1), (0,0). -/
theorem fill_order :
    (∀ (p0 : Puzzle) (numRows numCols : Nat) (pairs : StrMap) (ops : List Op) (p : Puzzle),
      runOps (p0.configure numRows numCols pairs) ops = some p →
      0 ≤ p._numFilled ∧ p._numFilled ≤ ((numRows * numCols : Nat) : Int) ∧
      ∃ s, stackOps [] ops = some s ∧ p._numFilled = (s.length : Int) ∧
        (∀ k : Nat, k < numRows * numCols →
          p.tileAt (p.cellOf (k : Int)) = Except.ok (s.getD k Tile.blank)) ∧
        (∀ t, p.isFull = false → ∃ p1, p.add t = (Except.ok (), p1) ∧
          p1.tileAt (p.cellOf (s.length : Int)) = Except.ok t) ∧
        (p.isEmpty = false → ∃ t p1, p.remove = (Except.ok t, p1) ∧
          p.tileAt (p.cellOf ((s.length - 1 : Nat) : Int)) = Except.ok t ∧
          p1.tileAt (p.cellOf ((s.length - 1 : Nat) : Int)) = Except.ok Tile.blank)) ∧
    (∀ (p0 : Puzzle) (pairs : StrMap) (t1 t2 t3 t4 : Tile),
      ∃ b1 b2 b3 b4 : Puzzle,
        (p0.configure 2 2 pairs).add t1 = (Except.ok (), b1) ∧
        b1.tileAt { row := 0, col := 0 } = Except.ok t1 ∧
        b1.add t2 = (Except.ok (), b2) ∧
        b2.tileAt { row := 0, col := 1 } = Except.ok t2 ∧
        b2.add t3 = (Except.ok (), b3) ∧
        b3.tileAt { row := 1, col := 0 } = Except.ok t3 ∧
        b3.add t4 = (Except.ok (), b4) ∧
        b4.tileAt { row := 1, col := 1 } = Except.ok t4 ∧
        b4.remove = (Except.ok t4, b3) ∧
        b3.tileAt { row := 1, col := 1 } = Except.ok Tile.blank ∧
        b3.remove = (Except.ok t3, b2) ∧
        b2.tileAt { row := 1, col := 0 } = Except.ok Tile.blank ∧
        b2.remove = (Except.ok t2, b1) ∧
        b1.tileAt { row := 0, col := 1 } = Except.ok Tile.blank ∧
        b1.remove = (Except.ok t1, p0.configure 2 2 pairs) ∧
        (p0.configure 2 2 pairs).tileAt { row := 0, col := 0 } = Except.ok Tile.blank) := by
  constructor
  · intro p0 r c m ops p h
    rw [Puzzle.configure_eq_ofStack] at h
    obtain ⟨s, hstack, hs, rfl⟩ := runOps_ofStack r c m ops [] p (Nat.zero_le _) h
    refine ⟨Int.ofNat_nonneg _, Int.ofNat_le.2 hs, s, hstack, rfl, ?_, ?_, ?_⟩
    · intro k hk
      rw [Puzzle.cellOf_ofStack]
      exact Puzzle.tileAt_ofStack r c m s hk
    · intro t hnf
      rw [Puzzle.ofStack_isFull] at hnf
      have hlt : s.length < r * c := by
        have : s.length ≠ r * c := by simpa using hnf
        omega
      refine ⟨_, Puzzle.add_ofStack r c m s t hlt, ?_⟩
      have h1 := Puzzle.tileAt_ofStack r c m (s ++ [t]) hlt
      rw [Puzzle.cellOf_ofStack]
      simpa using h1
    · intro hne
      rw [Puzzle.ofStack_isEmpty] at hne
      rcases List.eq_nil_or_concat s with rfl | ⟨s0, t, hst⟩
      · simp at hne
      · rw [List.concat_eq_append] at hst
        subst hst
        have hs1 : s0.length < r * c := by simp at hs; omega
        have hlen : (s0 ++ [t]).length - 1 = s0.length := by simp
        refine ⟨t, _, Puzzle.remove_ofStack r c m s0 t hs1, ?_, ?_⟩
        · rw [hlen, Puzzle.cellOf_ofStack]
          have h1 := Puzzle.tileAt_ofStack r c m (s0 ++ [t]) hs1
          simpa using h1
        · rw [hlen, Puzzle.cellOf_ofStack]
          have h1 := Puzzle.tileAt_ofStack r c m s0 hs1
          simpa using h1
  · intro p0 pairs t1 t2 t3 t4
    rw [Puzzle.configure_eq_ofStack]
    exact ⟨Puzzle.ofStack 2 2 pairs [t1], Puzzle.ofStack 2 2 pairs [t1, t2],
      Puzzle.ofStack 2 2 pairs [t1, t2, t3], Puzzle.ofStack 2 2 pairs [t1, t2, t3, t4],
      Puzzle.add_ofStack 2 2 pairs [] t1 (by simp), rfl,
      Puzzle.add_ofStack 2 2 pairs [t1] t2 (by simp), rfl,
      Puzzle.add_ofStack 2 2 pairs [t1, t2] t3 (by simp), rfl,
      Puzzle.add_ofStack 2 2 pairs [t1, t2, t3] t4 (by simp), rfl,
      Puzzle.remove_ofStack 2 2 pairs [t1, t2, t3] t4 (by simp), rfl,
      Puzzle.remove_ofStack 2 2 pairs [t1, t2] t3 (by simp), rfl,
      Puzzle.remove_ofStack 2 2 pairs [t1] t2 (by simp), rfl,
      Puzzle.remove_ofStack 2 2 pairs [] t1 (by simp), rfl⟩

/-! ## The edge rule -/

theorem Grid.get_total (g : Grid) (hlen : g.elems.length = g.nRows * g.nCols)
    (loc : GridLocation) (hb : g.inBounds loc = true) : ∃ t, g.get loc = Except.ok t := by
  have hi := (g.loc_of_inBounds loc hb).1
  rw [← hlen] at hi
  exact ⟨g.elems[g.index loc], Grid.get_eq g loc hb (List.getElem?_eq_getElem hi)⟩

/-- The part of `canMatchEdge` after the boundary test, for a neighbour inside the grid. -/
theorem Puzzle.edge_inside (p : Puzzle) (hlen : p._grid.elems.length = p._grid.nRows * p._grid.nCols)
    (tile : Tile) (loc : GridLocation) (dir : Direction)
    (hb : p._grid.inBounds (loc.neighbour dir) = true) :
    ∃ b, (match p.tileAt (loc.neighbour dir) with
        | Except.error e => Except.error e
        | Except.ok nb =>
          if nb.isBlank then Except.ok true
          else Except.ok (p.isComplement (tile.getEdge dir) (nb.getEdge dir.opposite)))
        = (Except.ok b : Except Error Bool) ∧
      (b = true ↔ p.edgeRule tile loc dir) := by
  obtain ⟨nb, hnb⟩ := Grid.get_total p._grid hlen _ hb
  have hnb2 : p.tileAt (loc.neighbour dir) = Except.ok nb := hnb
  rw [hnb2]
  by_cases hbl : nb.isBlank = true
  · refine ⟨true, by simp [hbl], ?_⟩
    simp only [true_iff]
    exact Or.inr ⟨nb, hnb2, Or.inl hbl⟩
  · refine ⟨p.isComplement (tile.getEdge dir) (nb.getEdge dir.opposite), by simp [hbl], ?_⟩
    constructor
    · intro hc
      refine Or.inr ⟨nb, hnb2, Or.inr ?_⟩
      simpa [Puzzle.isComplement] using hc
    · rintro (h | ⟨nb2, h2, h3⟩)
      · rw [hb] at h; cases h
      · rw [hnb2] at h2
        cases h2
        rcases h3 with h3 | h3
        · exact absurd h3 hbl
        · simpa [Puzzle.isComplement] using h3

/-- The boundary test of `canMatchEdge` is true exactly when the neighbour lies outside. -/
theorem Puzzle.edge_outside (p : Puzzle) (tile : Tile) (loc : GridLocation) (dir : Direction)
    (hb : p._grid.inBounds (loc.neighbour dir) = false) : p.edgeRule tile loc dir :=
  Or.inl hb

theorem Puzzle.canMatchEdge_spec (p : Puzzle)
    (hlen : p._grid.elems.length = p._grid.nRows * p._grid.nCols)
    (tile : Tile) (loc : GridLocation) (hloc : p._grid.inBounds loc = true) (dir : Direction) :
    ∃ b, p.canMatchEdge tile loc dir = Except.ok b ∧ (b = true ↔ p.edgeRule tile loc dir) := by
  have hin := (p._grid.inBounds_iff loc).1 hloc
  cases dir with
  | NORTH =>
    by_cases hbd : loc.row - 1 = -1
    · refine ⟨true, by simp [Puzzle.canMatchEdge, hbd], ?_⟩
      simp only [true_iff]
      apply Puzzle.edge_outside
      rw [← Bool.not_eq_true, Grid.inBounds_iff]
      simp only [GridLocation.neighbour]
      omega
    · have hb : p._grid.inBounds (loc.neighbour Direction.NORTH) = true := by
        rw [Grid.inBounds_iff]
        simp only [GridLocation.neighbour]
        omega
      obtain ⟨b, h1, h2⟩ := p.edge_inside hlen tile loc Direction.NORTH hb
      refine ⟨b, ?_, h2⟩
      rw [← h1]
      simp [Puzzle.canMatchEdge, hbd, GridLocation.neighbour, Direction.opposite]
  | EAST =>
    by_cases hbd : loc.col + 1 = p._grid.numCols
    · refine ⟨true, by simp [Puzzle.canMatchEdge, hbd], ?_⟩
      simp only [true_iff]
      apply Puzzle.edge_outside
      rw [← Bool.not_eq_true, Grid.inBounds_iff]
      simp only [GridLocation.neighbour, Grid.numCols] at hbd ⊢
      omega
    · have hb : p._grid.inBounds (loc.neighbour Direction.EAST) = true := by
        rw [Grid.inBounds_iff]
        simp only [GridLocation.neighbour, Grid.numCols] at hbd ⊢
        omega
      obtain ⟨b, h1, h2⟩ := p.edge_inside hlen tile loc Direction.EAST hb
      refine ⟨b, ?_, h2⟩
      rw [← h1]
      simp [Puzzle.canMatchEdge, hbd, GridLocation.neighbour, Direction.opposite]
  | SOUTH =>
    by_cases hbd : loc.row + 1 = p._grid.numRows
    · refine ⟨true, by simp [Puzzle.canMatchEdge, hbd], ?_⟩
      simp only [true_iff]
      apply Puzzle.edge_outside
      rw [← Bool.not_eq_true, Grid.inBounds_iff]
      simp only [GridLocation.neighbour, Grid.numRows] at hbd ⊢
      omega
    · have hb : p._grid.inBounds (loc.neighbour Direction.SOUTH) = true := by
        rw [Grid.inBounds_iff]
        simp only [GridLocation.neighbour, Grid.numRows] at hbd ⊢
        omega
      obtain ⟨b, h1, h2⟩ := p.edge_inside hlen tile loc Direction.SOUTH hb
      refine ⟨b, ?_, h2⟩
      rw [← h1]
      simp [Puzzle.canMatchEdge, hbd, GridLocation.neighbour, Direction.opposite]
  | WEST =>
    by_cases hbd : loc.col - 1 = -1
    · refine ⟨true, by simp [Puzzle.canMatchEdge, hbd], ?_⟩
      simp only [true_iff]
      apply Puzzle.edge_outside
      rw [← Bool.not_eq_true, Grid.inBounds_iff]
      simp only [GridLocation.neighbour]
      omega
    · have hb : p._grid.inBounds (loc.neighbour Direction.WEST) = true := by
        rw [Grid.inBounds_iff]
        simp only [GridLocation.neighbour]
        omega
      obtain ⟨b, h1, h2⟩ := p.edge_inside hlen tile loc Direction.WEST hb
      refine ⟨b, ?_, h2⟩
      rw [← h1]
      simp [Puzzle.canMatchEdge, hbd, GridLocation.neighbour, Direction.opposite]

theorem Puzzle.canMatchEdgesFrom_spec (p : Puzzle)
    (hlen : p._grid.elems.length = p._grid.nRows * p._grid.nCols)
    (tile : Tile) (loc : GridLocation) (hloc : p._grid.inBounds loc = true)
    (dirs : List Direction) :
    ∃ b, p.canMatchEdgesFrom tile loc dirs = Except.ok b ∧
      (b = true ↔ ∀ dir ∈ dirs, p.edgeRule tile loc dir) := by
  induction dirs with
  | nil => exact ⟨true, rfl, by simp⟩
  | cons d ds ih =>
    obtain ⟨b, h1, h2⟩ := p.canMatchEdge_spec hlen tile loc hloc d
    obtain ⟨b2, h3, h4⟩ := ih
    cases b with
    | false =>
      refine ⟨false, by simp [Puzzle.canMatchEdgesFrom, h1], ?_⟩
      constructor
      · intro h; cases h
      · intro h
        exact h2.2 (h d (List.mem_cons_self _ _))
    | true =>
      refine ⟨b2, by simp [Puzzle.canMatchEdgesFrom, h1, h3], ?_⟩
      rw [h4]
      constructor
      · intro h dir hd
        rcases List.mem_cons.1 hd with rfl | hd
        · exact h2.1 rfl
        · exact h dir hd
      · intro h dir hd
        exact h dir (List.mem_cons_of_mem _ hd)

theorem Puzzle.canAdd_spec (p : Puzzle) (tile : Tile) (hv : p.Valid) :
    ∃ b, p.canAdd tile = Except.ok b ∧
      (b = true ↔ p.isFull = false ∧ ∀ dir, p.edgeRule tile (p.cellOf p._numFilled) dir) := by
  cases hf : p.isFull with
  | true => exact ⟨false, by simp [Puzzle.canAdd, hf], by simp⟩
  | false =>
    have hlt := hv.lt_of_not_full hf
    have hc : p.cellOf p._numFilled = p._grid.cell p._numFilled.toNat := by
      conv => lhs; rw [hv.numFilled_eq]
      exact p.cellOf_nat _
    have hl : p.locationForCount p._numFilled = Except.ok (p._grid.cell p._numFilled.toNat) := by
      conv => lhs; rw [hv.numFilled_eq]
      exact p.locationForCount_nat hlt
    obtain ⟨b, h1, h2⟩ := p.canMatchEdgesFrom_spec hv.1 tile _ (p._grid.inBounds_cell hlt)
      [Direction.NORTH, Direction.EAST, Direction.SOUTH, Direction.WEST]
    refine ⟨b, by simp [Puzzle.canAdd, hf, hl, Puzzle.canMatchAllEdges, h1], ?_⟩
    rw [h2, hc]
    constructor
    · intro h
      refine ⟨rfl, fun dir => h dir ?_⟩
      cases dir <;> simp
    · intro h dir _
      exact h.2 dir

/-- C6: on every board that satisfies the class invariant, `canAdd(tile)` returns
a flag (it raises no error), and the flag is true exactly when the board is not
full and, for the next open cell `L = (numFilled / numCols, numFilled % numCols)`
and each of the four directions `D`, the neighbour of `L` toward `D` is outside
the grid, or holds a blank tile, or the complement table maps the label of the
candidate facing `D` to the label of the neighbour facing back; one failing
direction makes the flag false. -/
theorem canAdd_iff (p : Puzzle) (tile : Tile) (hv : p.Valid) :
    (p.canAdd tile = Except.ok true ∨ p.canAdd tile = Except.ok false) ∧
    (p.canAdd tile = Except.ok true ↔
      p.isFull = false ∧ ∀ dir, p.edgeRule tile (p.cellOf p._numFilled) dir) := by
  obtain ⟨b, h1, h2⟩ := p.canAdd_spec tile hv
  rw [h1]
  constructor
  · cases b <;> simp
  · rw [← h2]
    cases b <;> simp

/-! ## Legal placements -/

theorem Puzzle.placeAll_cons {p p1 : Puzzle} {t : Tile} (ts : List Tile)
    (hc : p.canAdd t = Except.ok true) (ha : p.add t = (Except.ok (), p1)) :
    p.placeAll (t :: ts) = p1.placeAll ts := by
  simp [Puzzle.placeAll, hc, ha]

theorem Puzzle.canAdd_ofStack_lt (r c : Nat) (m : StrMap) (s : List Tile) (t : Tile)
    (hs : s.length ≤ r * c) (hc : (Puzzle.ofStack r c m s).canAdd t = Except.ok true) :
    s.length < r * c := by
  obtain ⟨b, h1, h2⟩ := (Puzzle.ofStack r c m s).canAdd_spec t (Puzzle.ofStack_valid r c m s hs)
  rw [h1] at hc
  cases hc
  have hnf := (h2.1 rfl).1
  rw [Puzzle.ofStack_isFull] at hnf
  have : s.length ≠ r * c := by simpa using hnf
  omega

theorem Puzzle.placeAll_ofStack (r c : Nat) (m : StrMap) (ts : List Tile) :
    ∀ (s : List Tile) (p1 : Puzzle), s.length ≤ r * c →
      (Puzzle.ofStack r c m s).placeAll ts = some p1 →
      (s ++ ts).length ≤ r * c ∧ p1 = Puzzle.ofStack r c m (s ++ ts) := by
  induction ts with
  | nil =>
    intro s p1 hs h
    simp only [Puzzle.placeAll, Option.some.injEq] at h
    simp [hs, h]
  | cons t ts ih =>
    intro s p1 hs h
    cases hc : (Puzzle.ofStack r c m s).canAdd t with
    | error e => simp [Puzzle.placeAll, hc] at h
    | ok b =>
      cases b with
      | false => simp [Puzzle.placeAll, hc] at h
      | true =>
        have hlt := Puzzle.canAdd_ofStack_lt r c m s t hs hc
        rw [Puzzle.placeAll_cons ts hc (Puzzle.add_ofStack r c m s t hlt)] at h
        have := ih (s ++ [t]) p1 (by simp; omega) h
        simpa using this

/-! ## The solver -/

theorem List.perm_cons_eraseIdx_of_getElem? {α : Type} {a : α} :
    ∀ (l : List α) (k : Nat), l[k]? = some a → (a :: l.eraseIdx k).Perm l
  | [], k, h => by simp at h
  | b :: l, 0, h => by
    simp at h
    subst h
    simp
  | b :: l, k + 1, h => by
    simp at h
    have ih := List.perm_cons_eraseIdx_of_getElem? l k h
    simp only [List.eraseIdx_cons_succ]
    exact (List.Perm.swap b a _).trans (ih.cons b)

theorem RotOf.of_rotateN (tile : Tile) (j : Nat) (hj : j ≤ 4) : RotOf tile (Tile.rotateN j tile) := by
  rcases Nat.lt_or_ge j 4 with h | h
  · exact ⟨j, h, rfl⟩
  · have : j = 4 := by omega
    subst this
    exact ⟨0, by decide, (Tile.rotateN_four tile).symm⟩

/-- What the inner loop of `solve` does on a stack board, given that the recursive
call behaves as `SolvePost` says on inventories of length `len`. -/
theorem rotLoop_spec (r c : Nat) (m : StrMap) (self : Puzzle → List Tile → SolveResult)
    (len : Nat)
    (hself : ∀ (s : List Tile) (v : List Tile), s.length ≤ r * c → v.length = len →
      ∃ res, self (Puzzle.ofStack r c m s) v = Except.ok res ∧
        SolvePost (Puzzle.ofStack r c m s) v res)
    (s : List Tile) (hs : s.length ≤ r * c) :
    ∀ (n : Nat) (tile : Tile) (v1 : List Tile), v1.length = len →
      ∃ fl, rotLoop self n tile (Puzzle.ofStack r c m s) v1 = Except.ok fl ∧
        ((∃ v2, fl = Flow.next (Tile.rotateN n tile) (Puzzle.ofStack r c m s) v2 ∧ v2.Perm v1) ∨
         (∃ p1 v2 j l ts, fl = Flow.ret true p1 v2 ∧ 1 ≤ j ∧ j ≤ n ∧
            (Puzzle.ofStack r c m s).placeAll (Tile.rotateN j tile :: ts) = some p1 ∧
            p1.isFull = true ∧ List.Forall₂ RotOf l ts ∧ (l ++ v2).Perm v1)) := by
  intro n
  induction n with
  | zero =>
    intro tile v1 _
    exact ⟨_, rfl, Or.inl ⟨v1, rfl, List.Perm.refl _⟩⟩
  | succ n ih =>
    intro tile v1 hv1
    obtain ⟨b, hb, _⟩ := (Puzzle.ofStack r c m s).canAdd_spec tile.rotate
      (Puzzle.ofStack_valid r c m s hs)
    cases b with
    | false =>
      obtain ⟨fl, h1, h2⟩ := ih tile.rotate v1 hv1
      refine ⟨fl, by simp [rotLoop, hb, h1], ?_⟩
      rcases h2 with ⟨v2, h3, h4⟩ | ⟨p1, v2, j, l, ts, h3, h4, h5, h6, h7, h8, h9⟩
      · exact Or.inl ⟨v2, h3, h4⟩
      · exact Or.inr ⟨p1, v2, j + 1, l, ts, h3, by omega, by omega, h6, h7, h8, h9⟩
    | true =>
      have hlt := Puzzle.canAdd_ofStack_lt r c m s tile.rotate hs hb
      have hadd := Puzzle.add_ofStack r c m s tile.rotate hlt
      obtain ⟨res, hres, hpost⟩ := hself (s ++ [tile.rotate]) v1 (by simp; omega) hv1
      obtain ⟨b2, p2, v2⟩ := res
      have hone : (Puzzle.ofStack r c m s).placeAll [tile.rotate] =
          some (Puzzle.ofStack r c m (s ++ [tile.rotate])) := by
        rw [Puzzle.placeAll_cons [] hb hadd]; rfl
      cases hfull : p2.isFull with
      | true =>
        refine ⟨Flow.ret true p2 v2, by simp [rotLoop, hb, hadd, hres, hfull], Or.inr ?_⟩
        rcases hpost with ⟨h1, h2, _⟩ | ⟨l, ts, _, h2, _, _, h5, h6⟩
        · simp only at h1 h2
          subst h1
          exact ⟨_, v2, 1, [], [], rfl, Nat.le_refl _, by omega, hone, hfull,
            List.Forall₂.nil, by simpa using h2⟩
        · simp only at h2 h6
          refine ⟨p2, v2, 1, l, ts, rfl, Nat.le_refl _, by omega, ?_, hfull, h5, h6⟩
          show (Puzzle.ofStack r c m s).placeAll (tile.rotate :: ts) = some p2
          rw [Puzzle.placeAll_cons ts hb hadd]
          exact h2
      | false =>
        rcases hpost with ⟨h1, h2, _⟩ | ⟨l, ts, _, _, h3, _⟩
        · simp only at h1 h2
          subst h1
          have hrem := Puzzle.remove_ofStack r c m s tile.rotate hlt
          obtain ⟨fl, h3, h4⟩ := ih tile.rotate v2 (by rw [h2.length_eq]; exact hv1)
          refine ⟨fl, by simp [rotLoop, hb, hadd, hres, hfull, hrem, h3], ?_⟩
          rcases h4 with ⟨v3, h5, h6⟩ | ⟨p1, v3, j, l, ts, h5, h6, h7, h8, h9, h10, h11⟩
          · exact Or.inl ⟨v3, h5, h6.trans h2⟩
          · exact Or.inr ⟨p1, v3, j + 1, l, ts, h5, by omega, by omega, h8, h9, h10,
              h11.trans h2⟩
        · simp only at h3
          rw [hfull] at h3
          cases h3

/-- What the outer loop of `solve` does on a stack board, given that the recursive
call behaves as `SolvePost` says on inventories one tile shorter. -/
theorem tileLoop_spec (r c : Nat) (m : StrMap) (self : Puzzle → List Tile → SolveResult)
    (len : Nat)
    (hself : ∀ (s : List Tile) (v : List Tile), s.length ≤ r * c → v.length = len →
      ∃ res, self (Puzzle.ofStack r c m s) v = Except.ok res ∧
        SolvePost (Puzzle.ofStack r c m s) v res)
    (s : List Tile) (hs : s.length ≤ r * c) :
    ∀ (k : Nat) (v : List Tile), v.length = len + 1 → k ≤ len + 1 →
      ∃ fl, tileLoop self k (Puzzle.ofStack r c m s) v = Except.ok fl ∧
        ((∃ v2, fl = Flow.next () (Puzzle.ofStack r c m s) v2 ∧ v2.Perm v) ∨
         (∃ p1 v2 l ts, fl = Flow.ret true p1 v2 ∧ ts ≠ [] ∧
            (Puzzle.ofStack r c m s).placeAll ts = some p1 ∧
            p1.isFull = true ∧ List.Forall₂ RotOf l ts ∧ (l ++ v2).Perm v)) := by
  intro k
  induction k with
  | zero =>
    intro v _ _
    exact ⟨_, rfl, Or.inl ⟨v, rfl, List.Perm.refl _⟩⟩
  | succ k ih =>
    intro v hv hk
    have hkl : k < v.length := by omega
    have hget : v[k]? = some v[k] := List.getElem?_eq_getElem hkl
    have hperm := List.perm_cons_eraseIdx_of_getElem? v k hget
    have hlen : (v.eraseIdx k).length = len := by
      have := hperm.length_eq
      simp only [List.length_cons] at this
      omega
    obtain ⟨fl, h1, h2⟩ := rotLoop_spec r c m self len hself s hs 4 v[k] (v.eraseIdx k) hlen
    rcases h2 with ⟨v2, h3, h4⟩ | ⟨p1, v2, j, l, ts, h3, h4, h5, h6, h7, h8, h9⟩
    · subst h3
      rw [Tile.rotateN_four] at h1
      have hp2 : (v2 ++ [v[k]]).Perm v :=
        (List.perm_append_comm.trans (List.Perm.cons _ h4)).trans hperm
      obtain ⟨fl2, h5, h6⟩ := ih (v2 ++ [v[k]]) (by rw [hp2.length_eq]; exact hv) (by omega)
      refine ⟨fl2, by simp [tileLoop, hget, h1, h5], ?_⟩
      rcases h6 with ⟨v3, h7, h8⟩ | ⟨p1, v3, l, ts, h7, h8, h9, h10, h11, h12⟩
      · exact Or.inl ⟨v3, h7, h8.trans hp2⟩
      · exact Or.inr ⟨p1, v3, l, ts, h7, h8, h9, h10, h11, h12.trans hp2⟩
    · subst h3
      refine ⟨Flow.ret true p1 v2, by simp [tileLoop, hget, h1], Or.inr ?_⟩
      refine ⟨p1, v2, v[k] :: l, Tile.rotateN j v[k] :: ts, rfl, by simp, h6, h7,
        List.Forall₂.cons (RotOf.of_rotateN _ j h5) h8, ?_⟩
      exact (List.Perm.cons _ h9).trans hperm

/-- With fuel above the number of tiles, `solve` returns on every stack board, and
ends in one of the two ways of `SolvePost`. -/
theorem solve_spec (r c : Nat) (m : StrMap) :
    ∀ (fuel : Nat) (s : List Tile) (v : List Tile), s.length ≤ r * c → v.length < fuel →
      ∃ res, solve fuel (Puzzle.ofStack r c m s) v = Except.ok res ∧
        SolvePost (Puzzle.ofStack r c m s) v res := by
  intro fuel
  induction fuel with
  | zero =>
    intro s v _ hv
    omega
  | succ fuel ih =>
    intro s v hs hv
    cases v with
    | nil =>
      exact ⟨(true, Puzzle.ofStack r c m s, []), rfl, Or.inl ⟨rfl, List.Perm.refl _, rfl⟩⟩
    | cons a v =>
      have hself : ∀ (s : List Tile) (w : List Tile), s.length ≤ r * c → w.length = v.length →
          ∃ res, solve fuel (Puzzle.ofStack r c m s) w = Except.ok res ∧
            SolvePost (Puzzle.ofStack r c m s) w res := by
        intro s w hs hw
        apply ih s w hs
        simp only [List.length_cons] at hv
        omega
      obtain ⟨fl, h1, h2⟩ := tileLoop_spec r c m (solve fuel) v.length hself s hs
        (a :: v).length (a :: v) rfl (Nat.le_refl _)
      simp only [List.length_cons] at h1
      rcases h2 with ⟨v2, h3, h4⟩ | ⟨p1, v2, l, ts, h3, h4, h5, h6, h7, h8⟩
      · subst h3
        refine ⟨((Puzzle.ofStack r c m s).isFull, Puzzle.ofStack r c m s, v2), ?_, Or.inl ?_⟩
        · simp [solve, h1]
        · exact ⟨rfl, h4, by simp⟩
      · subst h3
        refine ⟨(true, p1, v2), ?_, Or.inr ?_⟩
        · simp [solve, h1]
        · exact ⟨l, ts, h4, h5, h6, rfl, h7, h8⟩

/-- The same for every board reached from `configure` by `add` and `remove`. -/
theorem solve_reachable (p : Puzzle) (hp : p.Reachable) (v : List Tile) (fuel : Nat)
    (hf : v.length < fuel) :
    ∃ res, solve fuel p v = Except.ok res ∧ SolvePost p v res := by
  obtain ⟨r, c, m, s, hs, rfl⟩ := hp.exists_stack
  exact solve_spec r c m fuel s v hs hf

/-- C4: on every board reached from `configure` by `add` and `remove` and for every
inventory, `solve` returns (fuel above the number of tiles suffices), and if
it returns false the board on return is the board on entry: same `numFilled`,
the same tile in every cell. -/
theorem solve_false_board_unchanged (p : Puzzle) (hp : p.Reachable) (v : List Tile)
    (fuel : Nat) (hf : v.length < fuel) :
    ∃ b p1 v1, solve fuel p v = Except.ok (b, p1, v1) ∧
      (b = false → p1 = p ∧ p1._numFilled = p._numFilled ∧
        ∀ loc, p1.tileAt loc = p.tileAt loc) := by
  obtain ⟨⟨b, p1, v1⟩, hres, hpost⟩ := solve_reachable p hp v fuel hf
  refine ⟨b, p1, v1, hres, ?_⟩
  intro hb
  rcases hpost with ⟨h1, _, _⟩ | ⟨l, ts, _, _, _, h4, _⟩
  · simp only at h1
    subst h1
    exact ⟨rfl, rfl, fun _ => rfl⟩
  · simp only at h4
    rw [hb] at h4
    cases h4

/-- C2: on every board reached from `configure` by `add` and `remove` and for every
inventory with as many tiles as there are open cells
(`numRows*numCols - numFilled`), `solve` returns, it returns true exactly when
the board is full on return, and whenever it returns true the inventory is
empty on return. -/
theorem solve_true_iff_full (p : Puzzle) (hp : p.Reachable) (v : List Tile)
    (hv : (v.length : Int) = p._grid.size - p._numFilled)
    (fuel : Nat) (hf : v.length < fuel) :
    ∃ b p1 v1, solve fuel p v = Except.ok (b, p1, v1) ∧
      (b = true ↔ p1.isFull = true) ∧ (b = true → v1 = []) := by
  obtain ⟨r, c, m, s, hs, rfl⟩ := hp.exists_stack
  obtain ⟨⟨b, p1, v1⟩, hres, hpost⟩ := solve_spec r c m fuel s v hs hf
  refine ⟨b, p1, v1, hres, ?_⟩
  have hv2 : v.length + s.length = r * c := by
    rw [Grid.size_eq] at hv
    simp only [Puzzle.ofStack] at hv
    omega
  rcases hpost with ⟨h1, h2, h3⟩ | ⟨l, ts, _, h2, h3, h4, h5, h6⟩
  · simp only at h1 h2 h3
    subst h1
    rw [Puzzle.ofStack_isFull] at h3 ⊢
    cases v with
    | nil =>
      have hlen : s.length = r * c := by simpa using hv2
      have hv1 : v1 = [] := List.Perm.eq_nil h2
      simp [h3, hlen, hv1]
    | cons a w =>
      have hlen : s.length ≠ r * c := by
        simp only [List.length_cons] at hv2
        omega
      simp [h3, hlen]
  · simp only at h2 h3 h4 h6
    obtain ⟨hle, hp1⟩ := Puzzle.placeAll_ofStack r c m ts s p1 hs h2
    subst hp1
    rw [Puzzle.ofStack_isFull] at h3
    have hfull : (s ++ ts).length = r * c := by simpa using h3
    have hl := h5.length_eq
    have hp := h6.length_eq
    simp only [List.length_append] at hfull hp
    refine ⟨by simp [h4, Puzzle.ofStack_isFull, hfull], fun _ => ?_⟩
    apply List.eq_nil_of_length_eq_zero
    omega

/-! ## Soundness of the solver -/

theorem Grid.index_int (g : Grid) (loc : GridLocation) (h : g.inBounds loc = true) :
    ((g.index loc : Nat) : Int) = loc.row * (g.nCols : Int) + loc.col := by
  rw [Grid.inBounds_iff] at h
  simp only [Grid.index, Grid.numCols]
  apply Int.toNat_of_nonneg
  exact Int.add_nonneg (Int.mul_nonneg h.1 (Int.ofNat_nonneg _)) h.2.2.1

/-- The NORTH and WEST neighbours of a cell come before it in row-major order. -/
theorem Grid.index_neighbour_lt (g : Grid) (loc : GridLocation) (dir : Direction)
    (hd : dir = Direction.NORTH ∨ dir = Direction.WEST)
    (h : g.inBounds loc = true) (hn : g.inBounds (loc.neighbour dir) = true) :
    g.index (loc.neighbour dir) < g.index loc := by
  have h1 := g.index_int loc h
  have h2 := g.index_int _ hn
  rw [Grid.inBounds_iff] at h hn
  rcases hd with rfl | rfl
  · simp only [GridLocation.neighbour] at h2 hn ⊢
    have h3 : (loc.row - 1) * (g.nCols : Int) = loc.row * (g.nCols : Int) - g.nCols := by ring
    rw [h3] at h2
    omega
  · simp only [GridLocation.neighbour] at h2 hn ⊢
    omega

/-- Pushing a tile does not change what is read from the cells below the top. -/
theorem Puzzle.tileAt_snoc (r c : Nat) (m : StrMap) (s : List Tile) (t : Tile)
    (x : GridLocation)
    (hx : (Puzzle.ofStack r c m s)._grid.inBounds x = true →
      (Puzzle.ofStack r c m s)._grid.index x < s.length) :
    (Puzzle.ofStack r c m (s ++ [t])).tileAt x = (Puzzle.ofStack r c m s).tileAt x := by
  by_cases hb : (Puzzle.ofStack r c m s)._grid.inBounds x = true
  · obtain ⟨h1, h2⟩ := (Puzzle.ofStack r c m s)._grid.loc_of_inBounds x hb
    have hlt := hx hb
    have e1 := Puzzle.tileAt_ofStack r c m s h1
    have e2 := Puzzle.tileAt_ofStack r c m (s ++ [t]) h1
    have hc : (Puzzle.ofStack r c m (s ++ [t]))._grid.cell
        ((Puzzle.ofStack r c m s)._grid.index x) = x := h2.symm
    rw [← h2] at e1
    rw [hc] at e2
    rw [e1, e2, List.getD_append _ _ _ _ hlt]
  · have hb2 : ¬ (Puzzle.ofStack r c m (s ++ [t]))._grid.inBounds x = true := hb
    simp [Puzzle.tileAt, Grid.get, hb, hb2]

theorem Puzzle.edgeRule_snoc (r c : Nat) (m : StrMap) (s : List Tile) (t u : Tile)
    (loc : GridLocation) (dir : Direction)
    (hd : dir = Direction.NORTH ∨ dir = Direction.WEST)
    (hb : (Puzzle.ofStack r c m s)._grid.inBounds loc = true)
    (hi : (Puzzle.ofStack r c m s)._grid.index loc ≤ s.length)
    (he : (Puzzle.ofStack r c m s).edgeRule u loc dir) :
    (Puzzle.ofStack r c m (s ++ [t])).edgeRule u loc dir := by
  have ht := Puzzle.tileAt_snoc r c m s t (loc.neighbour dir) (fun hn =>
    Nat.lt_of_lt_of_le ((Puzzle.ofStack r c m s)._grid.index_neighbour_lt loc dir hd hb hn) hi)
  rcases he with h | ⟨nb, h1, h2⟩
  · exact Or.inl h
  · exact Or.inr ⟨nb, by rw [ht]; exact h1, h2⟩

theorem Puzzle.matched_snoc (r c : Nat) (m : StrMap) (s : List Tile) (t : Tile)
    (hs : s.length < r * c) (hm : (Puzzle.ofStack r c m s).Matched)
    (hc : (Puzzle.ofStack r c m s).canAdd t = Except.ok true) :
    (Puzzle.ofStack r c m (s ++ [t])).Matched := by
  intro loc u hb hidx htile
  have hb1 : (Puzzle.ofStack r c m s)._grid.inBounds loc = true := hb
  have hidx1 : (Puzzle.ofStack r c m s)._grid.index loc < s.length + 1 := by
    have : ((Puzzle.ofStack r c m (s ++ [t]))._grid.index loc : Int) < ((s.length + 1 : Nat) : Int) := by
      simpa [Puzzle.ofStack] using hidx
    exact Int.ofNat_lt.1 this
  rcases Nat.lt_or_ge ((Puzzle.ofStack r c m s)._grid.index loc) s.length with hlt | hge
  · have ht := Puzzle.tileAt_snoc r c m s t loc (fun _ => hlt)
    rw [ht] at htile
    have := hm loc u hb1 (Int.ofNat_lt.2 hlt) htile
    exact ⟨Puzzle.edgeRule_snoc r c m s t u loc _ (Or.inl rfl) hb1 (Nat.le_of_lt hlt) this.1,
      Puzzle.edgeRule_snoc r c m s t u loc _ (Or.inr rfl) hb1 (Nat.le_of_lt hlt) this.2⟩
  · have hi : (Puzzle.ofStack r c m s)._grid.index loc = s.length := by omega
    have hloc := ((Puzzle.ofStack r c m s)._grid.loc_of_inBounds loc hb1).2
    rw [hi] at hloc
    have e2 := Puzzle.tileAt_ofStack r c m (s ++ [t]) hs
    have hc2 : (Puzzle.ofStack r c m (s ++ [t]))._grid.cell s.length = loc := hloc.symm
    rw [hc2, htile] at e2
    have hu : u = t := by
      have := Except.ok.inj e2
      simpa using this
    subst hu
    obtain ⟨b, h1, h2⟩ := (Puzzle.ofStack r c m s).canAdd_spec u
      (Puzzle.ofStack_valid r c m s (Nat.le_of_lt hs))
    rw [h1] at hc
    cases hc
    have hall := (h2.1 rfl).2
    have hcell : (Puzzle.ofStack r c m s).cellOf (Puzzle.ofStack r c m s)._numFilled = loc := by
      rw [hloc]
      exact Puzzle.cellOf_ofStack r c m s s.length
    rw [hcell] at hall
    exact ⟨Puzzle.edgeRule_snoc r c m s u u loc _ (Or.inl rfl) hb1 (Nat.le_of_eq hi) (hall _),
      Puzzle.edgeRule_snoc r c m s u u loc _ (Or.inr rfl) hb1 (Nat.le_of_eq hi) (hall _)⟩

theorem Puzzle.matched_placeAll (r c : Nat) (m : StrMap) (ts : List Tile) :
    ∀ (s : List Tile) (p1 : Puzzle), s.length ≤ r * c → (Puzzle.ofStack r c m s).Matched →
      (Puzzle.ofStack r c m s).placeAll ts = some p1 → p1.Matched := by
  induction ts with
  | nil =>
    intro s p1 _ hm h
    simp only [Puzzle.placeAll, Option.some.injEq] at h
    rw [← h]; exact hm
  | cons t ts ih =>
    intro s p1 hs hm h
    cases hc : (Puzzle.ofStack r c m s).canAdd t with
    | error e => simp [Puzzle.placeAll, hc] at h
    | ok b =>
      cases b with
      | false => simp [Puzzle.placeAll, hc] at h
      | true =>
        have hlt := Puzzle.canAdd_ofStack_lt r c m s t hs hc
        rw [Puzzle.placeAll_cons ts hc (Puzzle.add_ofStack r c m s t hlt)] at h
        exact ih (s ++ [t]) p1 (by simp; omega) (Puzzle.matched_snoc r c m s t hlt hm hc) h

/-- C3: on a board reached from `configure` by `add` and `remove` on which every
filled cell is legally matched toward its NORTH and WEST neighbours (the
neighbour is outside the grid, or blank, or its facing label is the complement
table's image of the cell's facing label), `solve` returns, and if it returns
true then every filled cell of the board on return is legally matched in the
same sense; when the board on return is full this covers every cell of the
grid, hence every pair of horizontally or vertically adjacent cells.  With a
non-empty inventory a true return means the board is full. -/
theorem solve_sound (p : Puzzle) (hp : p.Reachable) (hm : p.Matched) (v : List Tile)
    (fuel : Nat) (hf : v.length < fuel) :
    ∃ b p1 v1, solve fuel p v = Except.ok (b, p1, v1) ∧
      (b = true → p1.Matched ∧ (v ≠ [] → p1.isFull = true) ∧
        (p1.isFull = true → ∀ (loc : GridLocation) (t : Tile),
          p1._grid.inBounds loc = true → p1.tileAt loc = Except.ok t →
            p1.edgeRule t loc Direction.NORTH ∧ p1.edgeRule t loc Direction.WEST)) := by
  obtain ⟨r, c, m, s, hs, rfl⟩ := hp.exists_stack
  obtain ⟨⟨b, p1, v1⟩, hres, hpost⟩ := solve_spec r c m fuel s v hs hf
  refine ⟨b, p1, v1, hres, ?_⟩
  intro hb
  have hm1 : p1.Matched := by
    rcases hpost with ⟨h1, _, _⟩ | ⟨l, ts, _, h2, _⟩
    · simp only at h1
      rw [h1]; exact hm
    · exact Puzzle.matched_placeAll r c m ts s p1 hs hm h2
  have hfull : v ≠ [] → p1.isFull = true := by
    intro hv
    rcases hpost with ⟨h1, _, h3⟩ | ⟨l, ts, _, _, h3, _⟩
    · simp only at h1 h3
      rw [h1, ← hb, h3]
      cases v with
      | nil => exact absurd rfl hv
      | cons a w => simp
    · exact h3
  refine ⟨hm1, hfull, ?_⟩
  intro hf1 loc t hb1 ht
  apply hm1 loc t hb1 _ ht
  have hsz : p1._numFilled = p1._grid.size := by
    simpa [Puzzle.isFull] using hf1
  rw [hsz, Grid.size_eq]
  exact Int.ofNat_lt.2 (p1._grid.loc_of_inBounds loc hb1).1

/-! ## The solver misses solutions and reorders the inventory -/

/-- C1 (evaluation at a failing input): the 1x4 board `incBoard` is reached from
`configure` by one add that `canAdd` accepted; the tiles of the inventory
`[incA, incB, incC]`, taken in the order `incB, incA, incC` and turned 3, 0 and
3 times, are each accepted by `canAdd` and fill the board; yet `solve` returns
false on this board and inventory. -/
theorem solve_misses_solution :
    (Puzzle.fresh.configure 1 4 incPairs).placeAll [incX] = some incBoard ∧
    List.Perm [incB, incA, incC] [incA, incB, incC] ∧
    incBoard.placeAll [Tile.rotateN 3 incB, Tile.rotateN 0 incA, Tile.rotateN 3 incC]
      = some incFull ∧
    incFull.isFull = true ∧
    solve 4 incBoard [incA, incB, incC] = Except.ok (false, incBoard, [incA, incB, incC]) := by
  decide

/-- C5 (evaluation at a failing input): on the empty 1x2 board `ordBoard`, whose
two tiles `ordP` and `ordQ` carry declared labels only, `solve` called with
the inventory `[ordP, ordQ]` returns false and leaves the inventory in the
order `[ordQ, ordP]`, which is not the order on entry; called with the
inventory `[ordQ, ordP]` it returns false and leaves `[ordP, ordQ]`.  The
board is unchanged in both runs. -/
theorem solve_reorders_inventory :
    labelsDeclared ordPairs ordP = true ∧ labelsDeclared ordPairs ordQ = true ∧
    solve 3 ordBoard [ordP, ordQ] = Except.ok (false, ordBoard, [ordQ, ordP]) ∧
    [ordQ, ordP] ≠ [ordP, ordQ] ∧
    solve 3 ordBoard [ordQ, ordP] = Except.ok (false, ordBoard, [ordP, ordQ]) := by
  decide

/-! ## More fuel does not change a result -/

theorem rotLoop_mono (self self2 : Puzzle → List Tile → SolveResult)
    (h : ∀ p v res, self p v = Except.ok res → self2 p v = Except.ok res) :
    ∀ (n : Nat) (tile : Tile) (p : Puzzle) (v : List Tile) (fl : Flow Tile),
      rotLoop self n tile p v = Except.ok fl → rotLoop self2 n tile p v = Except.ok fl := by
  intro n
  induction n with
  | zero =>
    intro tile p v fl hfl
    exact hfl
  | succ n ih =>
    intro tile p v fl hfl
    unfold rotLoop at hfl ⊢
    cases hc : p.canAdd tile.rotate with
    | error e => simp [hc] at hfl
    | ok b =>
      cases b with
      | false =>
        simp only [hc] at hfl ⊢
        exact ih _ _ _ _ hfl
      | true =>
        simp only [hc] at hfl ⊢
        rcases hadd : p.add tile.rotate with ⟨r1, p1⟩
        cases r1 with
        | error e => simp [hadd] at hfl
        | ok u =>
          simp only [hadd] at hfl ⊢
          cases hs : self p1 v with
          | error e => simp [hs] at hfl
          | ok res =>
            obtain ⟨b2, p2, v2⟩ := res
            simp only [hs] at hfl
            simp only [h p1 v _ hs]
            cases hf : p2.isFull with
            | true =>
              simp only [hf] at hfl ⊢
              exact hfl
            | false =>
              simp only [hf] at hfl ⊢
              rcases hrem : p2.remove with ⟨r3, p3⟩
              cases r3 with
              | error e => simp [hrem] at hfl
              | ok t3 =>
                simp only [hrem] at hfl ⊢
                exact ih _ _ _ _ hfl

theorem tileLoop_mono (self self2 : Puzzle → List Tile → SolveResult)
    (h : ∀ p v res, self p v = Except.ok res → self2 p v = Except.ok res) :
    ∀ (k : Nat) (p : Puzzle) (v : List Tile) (fl : Flow Unit),
      tileLoop self k p v = Except.ok fl → tileLoop self2 k p v = Except.ok fl := by
  intro k
  induction k with
  | zero =>
    intro p v fl hfl
    exact hfl
  | succ k ih =>
    intro p v fl hfl
    unfold tileLoop at hfl ⊢
    cases hg : v[k]? with
    | none => simp [hg] at hfl
    | some tile =>
      simp only [hg] at hfl ⊢
      cases hr : rotLoop self 4 tile p (v.eraseIdx k) with
      | error e => simp [hr] at hfl
      | ok fl1 =>
        simp only [hr] at hfl
        simp only [rotLoop_mono self self2 h _ _ _ _ _ hr]
        cases fl1 with
        | ret b p1 v1 => exact hfl
        | next t1 p1 v1 => exact ih _ _ _ hfl

theorem solve_mono_succ :
    ∀ (fuel : Nat) (p : Puzzle) (v : List Tile) (res : Bool × Puzzle × List Tile),
      solve fuel p v = Except.ok res → solve (fuel + 1) p v = Except.ok res := by
  intro fuel
  induction fuel with
  | zero =>
    intro p v res h
    simp [solve] at h
  | succ fuel ih =>
    intro p v res h
    unfold solve at h ⊢
    by_cases hv : v.isEmpty = true
    · simp only [hv, if_true] at h ⊢
      exact h
    · simp only [hv] at h ⊢
      cases ht : tileLoop (solve fuel) v.length p v with
      | error e => simp [ht] at h
      | ok fl =>
        simp only [ht] at h
        simp only [tileLoop_mono (solve fuel) (solve (fuel + 1)) ih _ _ _ _ ht]
        exact h

theorem solve_mono (fuel fuel2 : Nat) (hle : fuel ≤ fuel2) (p : Puzzle) (v : List Tile)
    (res : Bool × Puzzle × List Tile) (h : solve fuel p v = Except.ok res) :
    solve fuel2 p v = Except.ok res := by
  induction hle with
  | refl => exact h
  | step _ ih => exact solve_mono_succ _ p v res ih

/-! ## The theorems at concrete inputs -/

theorem Puzzle.matched_of_numFilled_zero (p : Puzzle) (h : p._numFilled = 0) : p.Matched := by
  intro loc t _ hidx _
  rw [h] at hidx
  have := Int.ofNat_nonneg (p._grid.index loc)
  omega

theorem incBoard_valid : incBoard.Valid :=
  Puzzle.ofStack_valid 1 4 incPairs [incX] (by decide)

theorem incBoard_reachable : incBoard.Reachable :=
  Puzzle.ofStack_reachable 1 4 incPairs [incX] (by decide)

theorem ordBoard_reachable : ordBoard.Reachable :=
  Puzzle.Reachable.configure Puzzle.fresh 1 2 ordPairs

/-- The result of `solve` on the failing input of C1 for every sufficient amount of fuel. -/
theorem solve_incBoard (fuel : Nat) (h : 4 ≤ fuel) :
    solve fuel incBoard [incA, incB, incC] = Except.ok (false, incBoard, [incA, incB, incC]) :=
  solve_mono 4 fuel h _ _ _ (by decide)

/-- The result of `solve` on the failing input of C5 for every sufficient amount of fuel. -/
theorem solve_ordBoard (fuel : Nat) (h : 3 ≤ fuel) :
    solve fuel ordBoard [ordP, ordQ] = Except.ok (false, ordBoard, [ordQ, ordP]) :=
  solve_mono 3 fuel h _ _ _ (by decide)

/-- C2 at the empty 1x2 board `ordBoard` with the two tiles `ordP`, `ordQ`. -/
theorem solve_true_iff_full_witness :
    ordBoard.Reachable ∧
    (([ordP, ordQ].length : Nat) : Int) = ordBoard._grid.size - ordBoard._numFilled ∧
    [ordP, ordQ].length < 3 ∧
    ∃ b p1 v1, solve 3 ordBoard [ordP, ordQ] = Except.ok (b, p1, v1) ∧
      (b = true ↔ p1.isFull = true) ∧ (b = true → v1 = []) :=
  ⟨ordBoard_reachable, by decide, by decide,
    solve_true_iff_full ordBoard ordBoard_reachable [ordP, ordQ] (by decide) 3 (by decide)⟩

/-- The board `incHalf` is reached by two adds that `canAdd` accepted, so its two
filled cells are matched: toward WEST, `incB` turned three times shows `a`
against the `A` of `incX`. -/
theorem incHalf_matched : incHalf.Matched :=
  Puzzle.matched_placeAll 1 4 incPairs [incX, Tile.rotateN 3 incB] [] incHalf (by decide)
    (Puzzle.matched_of_numFilled_zero _ rfl) (by decide)

/-- C3 at the 1x4 board `incHalf`, which holds two matched tiles, with the inventory
`[incC, incA]`: `solve` returns true on the full board `incFull`, on which the
tile at (0,2) shows `b` toward WEST against the `B` of its neighbour. -/
theorem solve_sound_witness :
    incHalf.Reachable ∧ incHalf.Matched ∧ [incC, incA].length < 3 ∧
    solve 3 incHalf [incC, incA] = Except.ok (true, incFull, []) ∧
    incFull.tileAt { row := 0, col := 2 } = Except.ok incA ∧
    incFull.tileAt { row := 0, col := 1 } = Except.ok (Tile.rotateN 3 incB) ∧
    incFull._complementMap.get (incA.getEdge Direction.WEST)
      = (Tile.rotateN 3 incB).getEdge Direction.EAST ∧
    ∃ b p1 v1, solve 3 incHalf [incC, incA] = Except.ok (b, p1, v1) ∧
      (b = true → p1.Matched ∧ ([incC, incA] ≠ [] → p1.isFull = true) ∧
        (p1.isFull = true → ∀ (loc : GridLocation) (t : Tile),
          p1._grid.inBounds loc = true → p1.tileAt loc = Except.ok t →
            p1.edgeRule t loc Direction.NORTH ∧ p1.edgeRule t loc Direction.WEST)) :=
  ⟨Puzzle.ofStack_reachable 1 4 incPairs [incX, Tile.rotateN 3 incB] (by decide),
    incHalf_matched, by decide, by decide, by decide, by decide, by decide,
    solve_sound incHalf
      (Puzzle.ofStack_reachable 1 4 incPairs [incX, Tile.rotateN 3 incB] (by decide))
      incHalf_matched [incC, incA] 3 (by decide)⟩

/-- C4 at the empty 1x2 board `ordBoard` with the two tiles `ordP`, `ordQ`. -/
theorem solve_false_board_unchanged_witness :
    ordBoard.Reachable ∧ [ordP, ordQ].length < 3 ∧
    ∃ b p1 v1, solve 3 ordBoard [ordP, ordQ] = Except.ok (b, p1, v1) ∧
      (b = false → p1 = ordBoard ∧ p1._numFilled = ordBoard._numFilled ∧
        ∀ loc, p1.tileAt loc = ordBoard.tileAt loc) :=
  ⟨ordBoard_reachable, by decide,
    solve_false_board_unchanged ordBoard ordBoard_reachable [ordP, ordQ] 3 (by decide)⟩

/-- C6 at the board `incBoard` and the tile `incB` turned three times. -/
theorem canAdd_iff_witness :
    incBoard.Valid ∧
    (incBoard.canAdd (Tile.rotateN 3 incB) = Except.ok true ∨
      incBoard.canAdd (Tile.rotateN 3 incB) = Except.ok false) ∧
    (incBoard.canAdd (Tile.rotateN 3 incB) = Except.ok true ↔
      incBoard.isFull = false ∧
        ∀ dir, incBoard.edgeRule (Tile.rotateN 3 incB) (incBoard.cellOf incBoard._numFilled) dir) :=
  ⟨incBoard_valid, canAdd_iff incBoard (Tile.rotateN 3 incB) incBoard_valid⟩

/-- C7 at the board `incBoard` and the tile `incA`, which `canAdd` refuses there. -/
theorem add_contract_witness :
    incBoard.Valid ∧ incBoard.canAdd incA = Except.ok false ∧
    ((∃ e, (incBoard.add incA).1 = Except.error e) ↔ incBoard.isFull = true) ∧
    (incBoard.isFull = true → incBoard.add incA = (Except.error Error.addToFull, incBoard)) ∧
    (incBoard.isFull = false → ∃ p1, incBoard.add incA = (Except.ok (), p1) ∧
      p1.tileAt (incBoard.cellOf incBoard._numFilled) = Except.ok incA ∧
      p1._numFilled = incBoard._numFilled + 1 ∧
      (∀ loc, loc ≠ incBoard.cellOf incBoard._numFilled → p1.tileAt loc = incBoard.tileAt loc) ∧
      p1._complementMap = incBoard._complementMap ∧
      p1._grid.nRows = incBoard._grid.nRows ∧ p1._grid.nCols = incBoard._grid.nCols) :=
  ⟨incBoard_valid, by decide, add_contract incBoard incA incBoard_valid⟩

/-- C8 at the board `incBoard`. -/
theorem remove_contract_witness :
    incBoard.Valid ∧
    ((∃ e, incBoard.remove.1 = Except.error e) ↔ incBoard._numFilled = 0) ∧
    (incBoard._numFilled = 0 →
      incBoard.remove = (Except.error Error.removeFromEmpty, incBoard)) ∧
    (incBoard._numFilled ≠ 0 → ∃ t p1, incBoard.remove = (Except.ok t, p1) ∧
      incBoard.tileAt (incBoard.cellOf (incBoard._numFilled - 1)) = Except.ok t ∧
      p1.tileAt (incBoard.cellOf (incBoard._numFilled - 1)) = Except.ok Tile.blank ∧
      p1._numFilled = incBoard._numFilled - 1 ∧
      (∀ loc, loc ≠ incBoard.cellOf (incBoard._numFilled - 1) →
        p1.tileAt loc = incBoard.tileAt loc) ∧
      p1._complementMap = incBoard._complementMap ∧
      p1._grid.nRows = incBoard._grid.nRows ∧ p1._grid.nCols = incBoard._grid.nCols) :=
  ⟨incBoard_valid, remove_contract incBoard incBoard_valid⟩

/-- C9 at the board `incBoard`. -/
theorem add_remove_round_trip_witness :
    incBoard.Reachable ∧
    (∀ t, incBoard.isFull = false →
      ∃ p1, incBoard.add t = (Except.ok (), p1) ∧ p1.remove = (Except.ok t, incBoard)) ∧
    (incBoard.isEmpty = false →
      ∃ t p1, incBoard.remove = (Except.ok t, p1) ∧ p1.add t = (Except.ok (), incBoard)) :=
  ⟨incBoard_reachable, add_remove_round_trip incBoard incBoard_reachable⟩

/-- C10 at the operations `add incX, add incA, remove` on a 1x4 board. -/
theorem fill_order_witness :
    runOps (Puzzle.fresh.configure 1 4 incPairs) [Op.add incX, Op.add incA, Op.remove]
      = some incBoard ∧
    0 ≤ incBoard._numFilled ∧ incBoard._numFilled ≤ ((1 * 4 : Nat) : Int) ∧
    ∃ s, stackOps [] [Op.add incX, Op.add incA, Op.remove] = some s ∧
      incBoard._numFilled = (s.length : Int) ∧
      (∀ k : Nat, k < 1 * 4 →
        incBoard.tileAt (incBoard.cellOf (k : Int)) = Except.ok (s.getD k Tile.blank)) ∧
      (∀ t, incBoard.isFull = false → ∃ p1, incBoard.add t = (Except.ok (), p1) ∧
        p1.tileAt (incBoard.cellOf (s.length : Int)) = Except.ok t) ∧
      (incBoard.isEmpty = false → ∃ t p1, incBoard.remove = (Except.ok t, p1) ∧
        incBoard.tileAt (incBoard.cellOf ((s.length - 1 : Nat) : Int)) = Except.ok t ∧
        p1.tileAt (incBoard.cellOf ((s.length - 1 : Nat) : Int)) = Except.ok Tile.blank) :=
  ⟨by decide, fill_order.1 Puzzle.fresh 1 4 incPairs [Op.add incX, Op.add incA, Op.remove]
    incBoard (by decide)⟩

/-! ## Rotation and identity of tiles -/

theorem Tile.rotateN_id (k : Nat) (t : Tile) : (Tile.rotateN k t)._id = t._id := by
  induction k generalizing t with
  | zero => rfl
  | succ k ih =>
    show (Tile.rotateN k (Tile.rotate t))._id = t._id
    rw [ih]
    rfl

/-- C14: for every tile with edges `(N, E, S, W)`, `rotate()` yields the edges
`(W, N, E, S)`: the west label moves to north, north to east, east to south and
south to west; and four calls of `rotate()` yield a tile whose four edge labels
are those of the original (the tile is the original one, identifier
included). -/
theorem rotate_cycle (t : Tile) :
    (t.rotate._north = t._west ∧ t.rotate._east = t._north ∧
      t.rotate._south = t._east ∧ t.rotate._west = t._south) ∧
    (∀ dir, (Tile.rotateN 4 t).getEdge dir = t.getEdge dir) ∧
    t.rotate.rotate.rotate.rotate = t ∧ Tile.rotateN 4 t = t := by
  refine ⟨⟨rfl, rfl, rfl, rfl⟩, ?_, ?_, Tile.rotateN_four t⟩
  · intro dir
    rw [Tile.rotateN_four]
  · cases t; rfl

/-- C15 (amended): two tiles compare equal under `operator==` exactly when their
identifiers `_id` are equal; the identifier is the concatenation `N+E+S+W` of
the labels the tile was constructed with, and `rotate()` does not change it, so
a turned copy of a tile always compares equal to the tile. -/
theorem tile_identity :
    (∀ t1 t2 : Tile, Tile.eq t1 t2 = true ↔ t1._id = t2._id) ∧
    (∀ n e s w : String, (Tile.create n e s w)._id = n ++ e ++ s ++ w) ∧
    (∀ (t : Tile) (k : Nat), (Tile.rotateN k t)._id = t._id ∧
      Tile.eq (Tile.rotateN k t) t = true) := by
  refine ⟨?_, ?_, ?_⟩
  · intro t1 t2
    simp [Tile.eq]
  · intro n e s w
    rfl
  · intro t k
    refine ⟨Tile.rotateN_id k t, ?_⟩
    simp [Tile.eq, Tile.rotateN_id]

/-- C15 (counterexample to the claim as stated): the tile with the four distinct
labels `a, b, c, d`, turned once, has the current labels `d, a, b, c`, whose
concatenation differs from `abcd`, and still compares equal to the unturned
tile. -/
theorem rotated_tile_compares_equal :
    Tile.eq (Tile.create "a" "b" "c" "d").rotate (Tile.create "a" "b" "c" "d") = true ∧
    (Tile.create "a" "b" "c" "d").rotate._north ++ (Tile.create "a" "b" "c" "d").rotate._east ++
      (Tile.create "a" "b" "c" "d").rotate._south ++ (Tile.create "a" "b" "c" "d").rotate._west
      ≠ "a" ++ "b" ++ "c" ++ "d" := by
  decide

/-! ## Blank and boundary neighbours -/

/-- C17: for every board, every tile, every in-bounds location and every direction
`D`: if the neighbouring cell toward `D` lies outside the grid or holds a blank
tile, `canMatchEdge(tile, loc, D)` is true, whatever the labels of the tile and
whatever the complement table. -/
theorem blank_or_boundary_matches (p : Puzzle) (tile : Tile) (loc : GridLocation)
    (dir : Direction) (hloc : p._grid.inBounds loc = true)
    (h : p._grid.inBounds (loc.neighbour dir) = false ∨
      ∃ nb, p.tileAt (loc.neighbour dir) = Except.ok nb ∧ nb.isBlank = true) :
    p.canMatchEdge tile loc dir = Except.ok true := by
  have hin := (p._grid.inBounds_iff loc).1 hloc
  rcases h with h | ⟨nb, h1, h2⟩
  · rw [← Bool.not_eq_true, Grid.inBounds_iff] at h
    cases dir with
    | NORTH =>
      simp only [GridLocation.neighbour] at h
      have hbd : loc.row - 1 = -1 := by omega
      simp [Puzzle.canMatchEdge, hbd]
    | EAST =>
      simp only [GridLocation.neighbour] at h
      have hbd : loc.col + 1 = p._grid.numCols := by
        simp only [Grid.numCols]; omega
      simp [Puzzle.canMatchEdge, hbd]
    | SOUTH =>
      simp only [GridLocation.neighbour] at h
      have hbd : loc.row + 1 = p._grid.numRows := by
        simp only [Grid.numRows]; omega
      simp [Puzzle.canMatchEdge, hbd]
    | WEST =>
      simp only [GridLocation.neighbour] at h
      have hbd : loc.col - 1 = -1 := by omega
      simp [Puzzle.canMatchEdge, hbd]
  · cases dir with
    | NORTH =>
      simp only [GridLocation.neighbour] at h1
      simp [Puzzle.canMatchEdge, h1, h2]
    | EAST =>
      simp only [GridLocation.neighbour] at h1
      simp [Puzzle.canMatchEdge, h1, h2]
    | SOUTH =>
      simp only [GridLocation.neighbour] at h1
      simp [Puzzle.canMatchEdge, h1, h2]
    | WEST =>
      simp only [GridLocation.neighbour] at h1
      simp [Puzzle.canMatchEdge, h1, h2]

/-! ## The complement table built by the loader -/

theorem StrMap.get_put (m : StrMap) (k v k2 : String) :
    StrMap.get (StrMap.put m k v) k2 = if k2 = k then v else StrMap.get m k2 := by
  by_cases h : k2 = k
  · subst h
    simp [StrMap.get, StrMap.put, List.lookup]
  · have hb : (k2 == k) = false := by simpa using h
    simp [StrMap.get, StrMap.put, List.lookup, hb, h]

/-- A label that no declared pair mentions keeps the entry it had. -/
theorem loadPairs_get_of_not_mentioned (decl : List (String × String)) :
    ∀ (acc : StrMap) (k : String), (∀ x ∈ decl, k ≠ x.1 ∧ k ≠ x.2) →
      StrMap.get (loadPairs acc decl) k = StrMap.get acc k := by
  induction decl with
  | nil => intro acc k _; rfl
  | cons x rest ih =>
    intro acc k h
    obtain ⟨a, b⟩ := x
    have hx := h (a, b) (List.mem_cons_self _ _)
    show StrMap.get (loadPairs ((acc.put a b).put b a) rest) k = _
    rw [ih _ k (fun y hy => h y (List.mem_cons_of_mem _ hy)), StrMap.get_put, StrMap.get_put,
      if_neg hx.2, if_neg hx.1]

theorem loadPairs_get (decl : List (String × String)) :
    ∀ (acc : StrMap), (∀ x ∈ decl, ∀ y ∈ decl, PairsAgree x y) →
      ∀ x ∈ decl, StrMap.get (loadPairs acc decl) x.1 = x.2 ∧
        StrMap.get (loadPairs acc decl) x.2 = x.1 := by
  induction decl with
  | nil => intro acc _ x hx; cases hx
  | cons d rest ih =>
    intro acc hag x hx
    obtain ⟨a, b⟩ := d
    have hrest : ∀ x ∈ rest, ∀ y ∈ rest, PairsAgree x y := fun x hx y hy =>
      hag x (List.mem_cons_of_mem _ hx) y (List.mem_cons_of_mem _ hy)
    show StrMap.get (loadPairs ((acc.put a b).put b a) rest) x.1 = x.2 ∧
      StrMap.get (loadPairs ((acc.put a b).put b a) rest) x.2 = x.1
    by_cases h1 : x ∈ rest
    · exact ih _ hrest x h1
    · by_cases h2 : (x.2, x.1) ∈ rest
      · have := ih ((acc.put a b).put b a) hrest (x.2, x.1) h2
        exact ⟨this.2, this.1⟩
      · have hnm : ∀ y ∈ rest, (x.1 ≠ y.1 ∧ x.1 ≠ y.2) ∧ (x.2 ≠ y.1 ∧ x.2 ≠ y.2) := by
          intro y hy
          rcases hag x hx y (List.mem_cons_of_mem _ hy) with h | h | h
          · exact absurd (h ▸ hy) h1
          · have hy2 : (x.2, x.1) = y := by rw [h]
            exact absurd (hy2 ▸ hy) h2
          · exact ⟨⟨h.1, h.2.1⟩, ⟨h.2.2.1, h.2.2.2⟩⟩
        have hxd : x = (a, b) := by
          rcases List.mem_cons.1 hx with h | h
          · exact h
          · exact absurd h h1
        subst hxd
        rw [loadPairs_get_of_not_mentioned rest _ a (fun y hy => (hnm y hy).1),
          loadPairs_get_of_not_mentioned rest _ b (fun y hy => (hnm y hy).2)]
        simp only [StrMap.get_put]
        constructor
        · by_cases hab : a = b
          · simp [hab]
          · simp [hab]
        · simp

/-- C16 (amended): for every list of declared pairs in which two pairs that share a
label are the same pair or each other's reverse, the table built by the loader
(`pairs[A]=B; pairs[B]=A` for each declared pair in turn, starting from the
empty table) maps `A` to `B` and `B` to `A` for every declared pair `(A, B)`. -/
theorem complement_symmetry (decl : List (String × String))
    (hag : ∀ x ∈ decl, ∀ y ∈ decl, PairsAgree x y) (A B : String) (h : (A, B) ∈ decl) :
    StrMap.get (loadPairs [] decl) A = B ∧ StrMap.get (loadPairs [] decl) B = A :=
  loadPairs_get decl [] hag (A, B) h

/-- C16 (counterexample to the claim as stated): with the declared pairs `A=a A=b`
the pair `(A, a)` is declared, and looking up `A` in the table the loader
builds yields `b`. -/
theorem later_pair_overrides :
    (("A", "a") : String × String) ∈ [("A", "a"), ("A", "b")] ∧
    StrMap.get (loadPairs [] [("A", "a"), ("A", "b")]) "A" = "b" ∧
    StrMap.get (loadPairs [] [("A", "a"), ("A", "b")]) "A" ≠ "a" := by
  decide

/-- C16 (amended) at the declared pairs `A=a B=b C=c z=Z` and the pair `B=b`. -/
theorem complement_symmetry_witness :
    (∀ x ∈ [("A", "a"), ("B", "b"), ("C", "c"), ("z", "Z")],
      ∀ y ∈ [("A", "a"), ("B", "b"), ("C", "c"), ("z", "Z")], PairsAgree x y) ∧
    (("B", "b") : String × String) ∈ [("A", "a"), ("B", "b"), ("C", "c"), ("z", "Z")] ∧
    StrMap.get (loadPairs [] [("A", "a"), ("B", "b"), ("C", "c"), ("z", "Z")]) "B" = "b" ∧
    StrMap.get (loadPairs [] [("A", "a"), ("B", "b"), ("C", "c"), ("z", "Z")]) "b" = "B" :=
  ⟨by unfold PairsAgree; decide, by decide,
    complement_symmetry [("A", "a"), ("B", "b"), ("C", "c"), ("z", "Z")]
      (by unfold PairsAgree; decide) "B" "b" (by decide)⟩

/-! ## Legal placements keep the board matched -/

theorem Puzzle.edgeRule_of_snoc (r c : Nat) (m : StrMap) (s : List Tile) (t u : Tile)
    (loc : GridLocation) (dir : Direction)
    (hd : dir = Direction.NORTH ∨ dir = Direction.WEST)
    (hb : (Puzzle.ofStack r c m s)._grid.inBounds loc = true)
    (hi : (Puzzle.ofStack r c m s)._grid.index loc ≤ s.length)
    (he : (Puzzle.ofStack r c m (s ++ [t])).edgeRule u loc dir) :
    (Puzzle.ofStack r c m s).edgeRule u loc dir := by
  have ht := Puzzle.tileAt_snoc r c m s t (loc.neighbour dir) (fun hn =>
    Nat.lt_of_lt_of_le ((Puzzle.ofStack r c m s)._grid.index_neighbour_lt loc dir hd hb hn) hi)
  rcases he with h | ⟨nb, h1, h2⟩
  · exact Or.inl h
  · exact Or.inr ⟨nb, by rw [← ht]; exact h1, h2⟩

/-- Removing the last tile keeps the other filled cells matched. -/
theorem Puzzle.matched_pop (r c : Nat) (m : StrMap) (s : List Tile) (t : Tile)
    (hm : (Puzzle.ofStack r c m (s ++ [t])).Matched) : (Puzzle.ofStack r c m s).Matched := by
  intro loc u hb hidx htile
  have hlt : (Puzzle.ofStack r c m s)._grid.index loc < s.length := by
    have : ((Puzzle.ofStack r c m s)._grid.index loc : Int) < ((s.length : Nat) : Int) := hidx
    exact Int.ofNat_lt.1 this
  have ht := Puzzle.tileAt_snoc r c m s t loc (fun _ => hlt)
  have hidx2 : (((Puzzle.ofStack r c m (s ++ [t]))._grid.index loc : Nat) : Int)
      < (Puzzle.ofStack r c m (s ++ [t]))._numFilled := by
    have h1 : (Puzzle.ofStack r c m (s ++ [t]))._grid.index loc
        = (Puzzle.ofStack r c m s)._grid.index loc := rfl
    have h2 : (Puzzle.ofStack r c m (s ++ [t]))._numFilled = ((s.length + 1 : Nat) : Int) := by
      simp [Puzzle.ofStack]
    rw [h1, h2]
    exact Int.ofNat_lt.2 (Nat.lt_succ_of_lt hlt)
  have := hm loc u hb hidx2 (by rw [ht]; exact htile)
  exact ⟨Puzzle.edgeRule_of_snoc r c m s t u loc _ (Or.inl rfl) hb (Nat.le_of_lt hlt) this.1,
    Puzzle.edgeRule_of_snoc r c m s t u loc _ (Or.inr rfl) hb (Nat.le_of_lt hlt) this.2⟩

theorem runCheckedOps_ofStack (r c : Nat) (m : StrMap) (ops : List Op) :
    ∀ (s : List Tile) (p : Puzzle), s.length ≤ r * c → (Puzzle.ofStack r c m s).Matched →
      runCheckedOps (Puzzle.ofStack r c m s) ops = some p →
      p.Matched ∧ ∃ s1, s1.length ≤ r * c ∧ p = Puzzle.ofStack r c m s1 := by
  induction ops with
  | nil =>
    intro s p hs hm h
    simp only [runCheckedOps, Option.some.injEq] at h
    subst h
    exact ⟨hm, s, hs, rfl⟩
  | cons op ops ih =>
    intro s p hs hm h
    cases op with
    | add tile =>
      cases hc : (Puzzle.ofStack r c m s).canAdd tile with
      | error e => simp [runCheckedOps, hc] at h
      | ok b =>
        cases b with
        | false => simp [runCheckedOps, hc] at h
        | true =>
          have hlt := Puzzle.canAdd_ofStack_lt r c m s tile hs hc
          simp only [runCheckedOps, hc, Puzzle.add_ofStack r c m s tile hlt] at h
          exact ih (s ++ [tile]) p (by simp; omega)
            (Puzzle.matched_snoc r c m s tile hlt hm hc) h
    | remove =>
      rcases List.eq_nil_or_concat s with rfl | ⟨s0, t, hst⟩
      · have he : (Puzzle.ofStack r c m []).isEmpty = true := by
          rw [Puzzle.ofStack_isEmpty]; simp
        simp [runCheckedOps, Puzzle.remove, he] at h
      · rw [List.concat_eq_append] at hst
        subst hst
        have hs1 : s0.length < r * c := by simp at hs; omega
        simp only [runCheckedOps, Puzzle.remove_ofStack r c m s0 t hs1] at h
        exact ih s0 p (Nat.le_of_lt hs1) (Puzzle.matched_pop r c m s0 t hm) h

/-- C11: if, starting from `configure`, every `add(t)` is made only when
`canAdd(t)` is true on the board at that moment, removes being free, then on
the resulting board every filled cell is matched against its filled
neighbours: for a filled cell and its neighbour toward NORTH or WEST inside the
grid (the earlier-filled tile of the pair; every pair of adjacent filled cells
is of this form), the earlier-filled tile is blank or the complement table maps
the facing label of the later-filled tile to the facing label of the
earlier-filled tile. -/
theorem legal_placement_invariant (p0 : Puzzle) (numRows numCols : Nat) (pairs : StrMap)
    (ops : List Op) (p : Puzzle)
    (h : runCheckedOps (p0.configure numRows numCols pairs) ops = some p) :
    p.Matched ∧
    ∀ (loc : GridLocation) (dir : Direction),
      dir = Direction.NORTH ∨ dir = Direction.WEST →
      p._grid.inBounds loc = true → (p._grid.index loc : Int) < p._numFilled →
      p._grid.inBounds (loc.neighbour dir) = true →
      (p._grid.index (loc.neighbour dir) : Int) < p._numFilled ∧
      ∃ later earlier, p.tileAt loc = Except.ok later ∧
        p.tileAt (loc.neighbour dir) = Except.ok earlier ∧
        (earlier.isBlank = true ∨
          p._complementMap.get (later.getEdge dir) = earlier.getEdge dir.opposite) := by
  rw [Puzzle.configure_eq_ofStack] at h
  obtain ⟨hm, s1, hs1, rfl⟩ := runCheckedOps_ofStack numRows numCols pairs ops [] p
    (Nat.zero_le _) (Puzzle.matched_of_numFilled_zero _ rfl) h
  refine ⟨hm, ?_⟩
  intro loc dir hd hb hidx hnb
  have hv := Puzzle.ofStack_valid numRows numCols pairs s1 hs1
  obtain ⟨later, hl⟩ := Grid.get_total _ hv.1 loc hb
  have hlt := (Puzzle.ofStack numRows numCols pairs s1)._grid.index_neighbour_lt loc dir hd hb hnb
  refine ⟨lt_trans (Int.ofNat_lt.2 hlt) hidx, ?_⟩
  have hrule : (Puzzle.ofStack numRows numCols pairs s1).edgeRule later loc dir := by
    rcases hd with rfl | rfl
    · exact (hm loc later hb hidx hl).1
    · exact (hm loc later hb hidx hl).2
  rcases hrule with h1 | ⟨earlier, h1, h2⟩
  · rw [hnb] at h1; cases h1
  · exact ⟨later, earlier, hl, h1, h2⟩

/-! ## The logged solver computes what the solver computes -/

theorem rotLoopLog_dropLog (selfL : Puzzle → List Tile → List Event → SolveLogResult)
    (self : Puzzle → List Tile → SolveResult)
    (h : ∀ p v log, dropLog (selfL p v log) = self p v) :
    ∀ (n : Nat) (tile : Tile) (p : Puzzle) (v : List Tile) (log : List Event),
      dropLog (rotLoopLog selfL n tile p v log) = rotLoop self n tile p v := by
  intro n
  induction n with
  | zero => intro tile p v log; rfl
  | succ n ih =>
    intro tile p v log
    unfold rotLoopLog rotLoop
    cases hc : p.canAdd tile.rotate with
    | error e => simp only [hc, dropLog]
    | ok b =>
      cases b with
      | false =>
        simp only [hc]
        exact ih _ _ _ _
      | true =>
        simp only [hc]
        rcases hadd : p.add tile.rotate with ⟨r1, p1⟩
        cases r1 with
        | error e => simp only [hadd, dropLog]
        | ok u =>
          simp only [hadd]
          have hs := h p1 v (log ++ [Event.probe tile.rotate] ++ [Event.display p1 v])
          cases hl : selfL p1 v (log ++ [Event.probe tile.rotate] ++ [Event.display p1 v]) with
          | error e =>
            rw [hl] at hs
            rw [← hs]
            simp only [dropLog]
          | ok r =>
            obtain ⟨⟨b2, p2, v2⟩, log2⟩ := r
            rw [hl] at hs
            rw [← hs]
            simp only [dropLog]
            cases hf : p2.isFull with
            | true => simp only [if_true, dropLog]
            | false =>
              simp only [Bool.false_eq_true, if_false]
              rcases hrem : p2.remove with ⟨r3, p3⟩
              cases r3 with
              | error e => simp only [hrem, dropLog]
              | ok t3 =>
                simp only [hrem]
                exact ih _ _ _ _

theorem tileLoopLog_dropLog (selfL : Puzzle → List Tile → List Event → SolveLogResult)
    (self : Puzzle → List Tile → SolveResult)
    (h : ∀ p v log, dropLog (selfL p v log) = self p v) :
    ∀ (k : Nat) (p : Puzzle) (v : List Tile) (log : List Event),
      dropLog (tileLoopLog selfL k p v log) = tileLoop self k p v := by
  intro k
  induction k with
  | zero => intro p v log; rfl
  | succ k ih =>
    intro p v log
    unfold tileLoopLog tileLoop
    cases hg : v[k]? with
    | none => simp only [dropLog]
    | some tile =>
      simp only
      have hr := rotLoopLog_dropLog selfL self h 4 tile p (v.eraseIdx k)
        (log ++ [Event.take tile])
      cases hl : rotLoopLog selfL 4 tile p (v.eraseIdx k) (log ++ [Event.take tile]) with
      | error e =>
        rw [hl] at hr
        rw [← hr]
        simp only [dropLog]
      | ok r =>
        obtain ⟨fl, log1⟩ := r
        rw [hl] at hr
        rw [← hr]
        simp only [dropLog]
        cases fl with
        | ret b p1 v1 => simp only [dropLog]
        | next t1 p1 v1 => exact ih _ _ _

theorem solveBody_dropLog (selfL : Puzzle → List Tile → List Event → SolveLogResult)
    (self : Puzzle → List Tile → SolveResult)
    (h : ∀ p v log, dropLog (selfL p v log) = self p v)
    (p : Puzzle) (v : List Tile) (log : List Event) :
    dropLog (solveBody selfL p v log) =
      if v.isEmpty then Except.ok (true, p, v)
      else
        match tileLoop self v.length p v with
        | Except.error e => Except.error e
        | Except.ok (Flow.ret b p1 v1) => Except.ok (b, p1, v1)
        | Except.ok (Flow.next _ p1 v1) => Except.ok (p1.isFull, p1, v1) := by
  unfold solveBody
  by_cases hv : v.isEmpty = true
  · simp only [hv, if_true]
    rfl
  · simp only [hv]
    have hr := tileLoopLog_dropLog selfL self h v.length p v log
    cases hl : tileLoopLog selfL v.length p v log with
    | error e =>
      rw [hl] at hr
      rw [← hr]
      rfl
    | ok r =>
      obtain ⟨fl, log1⟩ := r
      rw [hl] at hr
      rw [← hr]
      cases fl with
      | ret b p1 v1 => rfl
      | next t1 p1 v1 => rfl

theorem solveLog_dropLog :
    ∀ (fuel : Nat) (p : Puzzle) (v : List Tile) (log : List Event),
      dropLog (solveLog fuel p v log) = solve fuel p v := by
  intro fuel
  induction fuel with
  | zero => intro p v log; rfl
  | succ fuel ih =>
    intro p v log
    show dropLog (solveBody (solveLog fuel) p v log) = _
    rw [solveBody_dropLog (solveLog fuel) (solve fuel) ih]
    rfl

theorem silent_dropLog (self : Puzzle → List Tile → SolveResult) (p : Puzzle) (v : List Tile)
    (log : List Event) : dropLog (silent self p v log) = self p v := by
  unfold silent
  cases self p v <;> rfl

/-- With the recursive calls silent, `solveBody` still computes `solve`. -/
theorem solveBody_silent (fuel : Nat) (p : Puzzle) (v : List Tile) (log : List Event) :
    dropLog (solveBody (silent (solve fuel)) p v log) = solve (fuel + 1) p v := by
  rw [solveBody_dropLog (silent (solve fuel)) (solve fuel) (silent_dropLog (solve fuel))]
  rfl

/-! ## No precondition error on a board that satisfies the class invariant -/

theorem Puzzle.Like.refl {p : Puzzle} (hv : p.Valid) : p.Like p := ⟨hv, rfl, rfl⟩

theorem Puzzle.Like.trans {p q r : Puzzle} (h1 : p.Like q) (h2 : q.Like r) : p.Like r :=
  ⟨h2.1, h2.2.1.trans h1.2.1, h2.2.2.trans h1.2.2⟩

theorem Puzzle.Like.same_size {p q : Puzzle} (h : p.Like q) : q._grid.size = p._grid.size := by
  rw [Grid.size_eq, Grid.size_eq, h.2.1, h.2.2]

theorem Puzzle.isFull_eq_false_iff (p : Puzzle) :
    p.isFull = false ↔ p._numFilled ≠ p._grid.size := by
  simp [Puzzle.isFull]

theorem Puzzle.add_like (p : Puzzle) (hv : p.Valid) (hnf : p.isFull = false) (t : Tile) :
    ∃ p1, p.add t = (Except.ok (), p1) ∧ p.Like p1 ∧ p1._numFilled = p._numFilled + 1 := by
  refine ⟨_, Puzzle.add_eq p hv hnf t, ⟨⟨?_, ?_, ?_⟩, rfl, rfl⟩, rfl⟩
  · simp only [List.length_set]
    exact hv.1
  · have := hv.2.1
    show (0 : Int) ≤ p._numFilled + 1
    omega
  · have h1 := hv.2.2
    have h2 := (p.isFull_eq_false_iff).1 hnf
    show p._numFilled + 1 ≤ p._grid.size
    omega

theorem Puzzle.remove_like (p : Puzzle) (hv : p.Valid) (hne : p._numFilled ≠ 0) :
    ∃ t p3, p.remove = (Except.ok t, p3) ∧ p.Like p3 ∧ p3._numFilled = p._numFilled - 1 := by
  have hne2 : p.isEmpty = false := by simp [Puzzle.isEmpty, hne]
  obtain ⟨t, _, hrem⟩ := Puzzle.remove_eq p hv hne2
  refine ⟨t, _, hrem, ⟨⟨?_, ?_, ?_⟩, rfl, rfl⟩, rfl⟩
  · simp only [List.length_set]
    exact hv.1
  · have := hv.2.1
    show (0 : Int) ≤ p._numFilled - 1
    omega
  · have h1 := hv.2.2
    show p._numFilled - 1 ≤ p._grid.size
    omega

theorem Event.within_mono {lo hi lo2 hi2 : Int} {e : Event} (h : e.within lo hi)
    (h1 : lo2 ≤ lo) (h2 : hi ≤ hi2) : e.within lo2 hi2 := by
  cases e with
  | take t => trivial
  | probe t => trivial
  | display q w => exact ⟨le_trans h1 h.1, le_trans h.2 h2⟩

theorem rotLoopLog_valid (selfL : Puzzle → List Tile → List Event → SolveLogResult)
    (len : Nat)
    (hself : ∀ (p : Puzzle) (v : List Tile) (log : List Event), p.Valid → v.length = len →
      ∃ out, selfL p v log = Except.ok out ∧ LogPost p v log out) :
    ∀ (n : Nat) (tile : Tile) (p : Puzzle) (v : List Tile) (log : List Event),
      p.Valid → v.length = len →
      ∃ fl log2, rotLoopLog selfL n tile p v log = Except.ok (fl, log2) ∧
        ((∃ t2 p2 v2, fl = Flow.next t2 p2 v2 ∧ p.Like p2 ∧
            p2._numFilled = p._numFilled ∧ v2.length = len) ∨
         (∃ p2 v2, fl = Flow.ret true p2 v2 ∧ p.Like p2 ∧ p2.isFull = true)) ∧
        ∃ new, log2 = log ++ new ∧ ∀ e ∈ new, e.within p._numFilled p._grid.size := by
  intro n
  induction n with
  | zero =>
    intro tile p v log hv hlen
    exact ⟨_, _, rfl, Or.inl ⟨tile, p, v, rfl, Puzzle.Like.refl hv, rfl, hlen⟩,
      [], by simp, by simp⟩
  | succ n ih =>
    intro tile p v log hv hlen
    obtain ⟨b, hb, hb2⟩ := p.canAdd_spec tile.rotate hv
    unfold rotLoopLog
    simp only [hb]
    cases b with
    | false =>
      obtain ⟨fl, log2, h1, h2, new, h3, h4⟩ := ih tile.rotate p v
        (log ++ [Event.probe tile.rotate]) hv hlen
      refine ⟨fl, log2, h1, h2, Event.probe tile.rotate :: new, by simp [h3], ?_⟩
      intro e he
      rcases List.mem_cons.1 he with rfl | he
      · trivial
      · exact h4 e he
    | true =>
      have hnf := (hb2.1 rfl).1
      obtain ⟨p1, hadd, hl1, hn1⟩ := Puzzle.add_like p hv hnf tile.rotate
      simp only [hadd]
      obtain ⟨⟨⟨b2, p2, v2⟩, log2⟩, hres, hl2, hcase, new1, hlog2, hnew1⟩ :=
        hself p1 v (log ++ [Event.probe tile.rotate] ++ [Event.display p1 v]) hl1.1 hlen
      simp only at hl2 hcase hlog2
      rw [hres]
      simp only
      have hsz1 := hl1.same_size
      have h0 := hv.2.1
      have hp1 : (Event.display p1 v).within p._numFilled p._grid.size := by
        refine ⟨by rw [hn1]; omega, ?_⟩
        rw [← hsz1]
        exact hl1.1.2.2
      have hnew1b : ∀ e ∈ new1, e.within p._numFilled p._grid.size := by
        intro e he
        exact Event.within_mono (hnew1 e he) (by rw [hn1]; omega) (le_of_eq hsz1)
      cases hfull : p2.isFull with
      | true =>
        simp only [if_true]
        refine ⟨_, _, rfl, Or.inr ⟨p2, v2, rfl, hl1.trans hl2, hfull⟩,
          Event.probe tile.rotate :: Event.display p1 v :: new1, by simp [hlog2], ?_⟩
        intro e he
        rcases List.mem_cons.1 he with rfl | he
        · trivial
        · rcases List.mem_cons.1 he with rfl | he
          · exact hp1
          · exact hnew1b e he
      | false =>
        simp only [Bool.false_eq_true, if_false]
        rcases hcase with ⟨hn2, hv2⟩ | hf2
        · have hne : p2._numFilled ≠ 0 := by rw [hn2, hn1]; omega
          obtain ⟨t3, p3, hrem, hl3, hn3⟩ := Puzzle.remove_like p2 hl2.1 hne
          simp only [hrem]
          have hlike3 : p.Like p3 := (hl1.trans hl2).trans hl3
          have hn3b : p3._numFilled = p._numFilled := by rw [hn3, hn2, hn1]; omega
          obtain ⟨fl, log3, h1, h2, new3, h3, h4⟩ := ih tile.rotate p3 v2
            (log2 ++ [Event.display p3 v2]) hl3.1 (by rw [hv2]; exact hlen)
          refine ⟨fl, log3, h1, ?_, Event.probe tile.rotate :: Event.display p1 v ::
            (new1 ++ Event.display p3 v2 :: new3), by simp [h3, hlog2], ?_⟩
          · rcases h2 with ⟨t4, p4, v4, e1, e2, e3, e4⟩ | ⟨p4, v4, e1, e2, e3⟩
            · exact Or.inl ⟨t4, p4, v4, e1, hlike3.trans e2, by rw [e3, hn3b], e4⟩
            · exact Or.inr ⟨p4, v4, e1, hlike3.trans e2, e3⟩
          · intro e he
            rcases List.mem_cons.1 he with rfl | he
            · trivial
            · rcases List.mem_cons.1 he with rfl | he
              · exact hp1
              · rcases List.mem_append.1 he with he | he
                · exact hnew1b e he
                · rcases List.mem_cons.1 he with rfl | he
                  · refine ⟨le_of_eq hn3b.symm, ?_⟩
                    rw [← hlike3.same_size]
                    exact hlike3.1.2.2
                  · exact Event.within_mono (h4 e he) (le_of_eq hn3b.symm)
                      (le_of_eq hlike3.same_size)
        · rw [hfull] at hf2
          cases hf2

theorem tileLoopLog_valid (selfL : Puzzle → List Tile → List Event → SolveLogResult)
    (len : Nat)
    (hself : ∀ (p : Puzzle) (v : List Tile) (log : List Event), p.Valid → v.length = len →
      ∃ out, selfL p v log = Except.ok out ∧ LogPost p v log out) :
    ∀ (k : Nat) (p : Puzzle) (v : List Tile) (log : List Event),
      p.Valid → v.length = len + 1 → k ≤ len + 1 →
      ∃ fl log2, tileLoopLog selfL k p v log = Except.ok (fl, log2) ∧
        ((∃ p2 v2, fl = Flow.next () p2 v2 ∧ p.Like p2 ∧
            p2._numFilled = p._numFilled ∧ v2.length = len + 1) ∨
         (∃ p2 v2, fl = Flow.ret true p2 v2 ∧ p.Like p2 ∧ p2.isFull = true)) ∧
        ∃ new, log2 = log ++ new ∧ ∀ e ∈ new, e.within p._numFilled p._grid.size := by
  intro k
  induction k with
  | zero =>
    intro p v log hv hlen _
    exact ⟨_, _, rfl, Or.inl ⟨p, v, rfl, Puzzle.Like.refl hv, rfl, hlen⟩, [], by simp, by simp⟩
  | succ k ih =>
    intro p v log hv hlen hk
    have hkl : k < v.length := by omega
    have hget : v[k]? = some v[k] := List.getElem?_eq_getElem hkl
    have hperm := List.perm_cons_eraseIdx_of_getElem? v k hget
    have hlen2 : (v.eraseIdx k).length = len := by
      have := hperm.length_eq
      simp only [List.length_cons] at this
      omega
    obtain ⟨fl, log1, h1, h2, new1, h3, h4⟩ := rotLoopLog_valid selfL len hself 4 v[k] p
      (v.eraseIdx k) (log ++ [Event.take v[k]]) hv hlen2
    unfold tileLoopLog
    simp only [hget, h1]
    rcases h2 with ⟨t2, p2, v2, e1, e2, e3, e4⟩ | ⟨p2, v2, e1, e2, e3⟩
    · subst e1
      simp only
      obtain ⟨fl2, log2, g1, g2, new2, g3, g4⟩ := ih p2 (v2 ++ [t2]) log1 e2.1
        (by simp [e4]) (by omega)
      refine ⟨fl2, log2, g1, ?_, Event.take v[k] :: (new1 ++ new2), by simp [g3, h3], ?_⟩
      · rcases g2 with ⟨p4, v4, f1, f2, f3, f4⟩ | ⟨p4, v4, f1, f2, f3⟩
        · exact Or.inl ⟨p4, v4, f1, e2.trans f2, by rw [f3, e3], f4⟩
        · exact Or.inr ⟨p4, v4, f1, e2.trans f2, f3⟩
      · intro e he
        rcases List.mem_cons.1 he with rfl | he
        · trivial
        · rcases List.mem_append.1 he with he | he
          · exact h4 e he
          · exact Event.within_mono (g4 e he) (le_of_eq e3.symm) (le_of_eq e2.same_size)
    · subst e1
      simp only
      refine ⟨_, _, rfl, Or.inr ⟨p2, v2, rfl, e2, e3⟩, Event.take v[k] :: new1,
        by simp [h3], ?_⟩
      intro e he
      rcases List.mem_cons.1 he with rfl | he
      · trivial
      · exact h4 e he

theorem solveBody_valid (selfL : Puzzle → List Tile → List Event → SolveLogResult)
    (p : Puzzle) (v : List Tile) (log : List Event) (hv : p.Valid)
    (hself : ∀ (q : Puzzle) (w : List Tile) (log : List Event), q.Valid →
      w.length + 1 = v.length →
      ∃ out, selfL q w log = Except.ok out ∧ LogPost q w log out) :
    ∃ out, solveBody selfL p v log = Except.ok out ∧ LogPost p v log out := by
  cases v with
  | nil =>
    exact ⟨((true, p, []), log), rfl, Puzzle.Like.refl hv, Or.inl ⟨rfl, rfl⟩, [], by simp,
      by simp⟩
  | cons a v =>
    obtain ⟨fl, log2, h1, h2, new, h3, h4⟩ := tileLoopLog_valid selfL v.length
      (fun q w lg hq hw => hself q w lg hq (by simp [hw])) (a :: v).length p (a :: v) log hv
      rfl (by simp)
    unfold solveBody
    simp only [List.isEmpty_cons, Bool.false_eq_true, if_false, h1]
    rcases h2 with ⟨p2, v2, e1, e2, e3, e4⟩ | ⟨p2, v2, e1, e2, e3⟩
    · subst e1
      exact ⟨_, rfl, e2, Or.inl ⟨e3, by simpa using e4⟩, new, h3, h4⟩
    · subst e1
      exact ⟨_, rfl, e2, Or.inr e3, new, h3, h4⟩

/-- On a board that satisfies the class invariant, with fuel above the number of
tiles, the logged solver returns without an error and `LogPost` holds. -/
theorem solveLog_valid :
    ∀ (fuel : Nat) (p : Puzzle) (v : List Tile) (log : List Event), p.Valid →
      v.length < fuel → ∃ out, solveLog fuel p v log = Except.ok out ∧ LogPost p v log out := by
  intro fuel
  induction fuel with
  | zero => intro p v log _ hf; omega
  | succ fuel ih =>
    intro p v log hv hf
    show ∃ out, solveBody (solveLog fuel) p v log = Except.ok out ∧ LogPost p v log out
    apply solveBody_valid (solveLog fuel) p v log hv
    intro q w lg hq hw
    exact ih q w lg hq (by omega)

/-! ## Termination and absence of precondition errors -/

/-- C12: on every board that satisfies the class invariant and for every (finite)
inventory, `solve` terminates with a result; the fuel, which counts the nested
activations of `solve`, need not exceed the number of tiles plus one (the
outermost call and at most one recursive call per tile of the inventory), and
more fuel gives the same result. -/
theorem solve_terminates (p : Puzzle) (hv : p.Valid) (v : List Tile) :
    ∃ res, solve (v.length + 1) p v = Except.ok res ∧
      ∀ fuel, v.length + 1 ≤ fuel → solve fuel p v = Except.ok res := by
  obtain ⟨⟨res, log⟩, h1, _⟩ := solveLog_valid (v.length + 1) p v [] hv (Nat.lt_succ_self _)
  have h2 : solve (v.length + 1) p v = Except.ok res := by
    rw [← solveLog_dropLog (v.length + 1) p v [], h1]
    rfl
  exact ⟨res, h2, fun fuel hf => solve_mono _ fuel hf p v res h2⟩

/-- C13: on every board with `0 <= numFilled <= numRows*numCols` and for every
inventory, a run of `solve` ends without an error, so no `add` is made on a full
board and no `remove` on an empty board; every board the run goes through
(shown to `updateDisplay` after each `add` and each `remove`) has `numFilled`
between the value on entry and the number of cells, and so has the board on
return. -/
theorem solve_no_precondition_error (p : Puzzle) (hv : p.Valid) (v : List Tile)
    (fuel : Nat) (hf : v.length < fuel) :
    ∃ res log, solveLog fuel p v [] = Except.ok (res, log) ∧
      solve fuel p v = Except.ok res ∧
      (∀ q w, Event.display q w ∈ log →
        p._numFilled ≤ q._numFilled ∧ q._numFilled ≤ p._grid.size) ∧
      p._numFilled ≤ res.2.1._numFilled ∧ res.2.1._numFilled ≤ p._grid.size := by
  obtain ⟨⟨res, log⟩, h1, hl, hcase, new, hnew, hwithin⟩ := solveLog_valid fuel p v [] hv hf
  simp only at hl hcase hnew
  refine ⟨res, log, h1, ?_, ?_, ?_, ?_⟩
  · rw [← solveLog_dropLog fuel p v [], h1]
    rfl
  · intro q w hq
    rw [hnew, List.nil_append] at hq
    exact hwithin _ hq
  · rcases hcase with ⟨h, _⟩ | h
    · exact le_of_eq h.symm
    · have hsz : res.2.1._numFilled = res.2.1._grid.size := by
        simpa [Puzzle.isFull] using h
      rw [hsz, hl.same_size]
      exact hv.2.2
  · rw [← hl.same_size]
    exact hl.1.2.2

/-! ## The examples of the specification and the tiles the outer loop takes -/

/-- The result of `solve` on the first example for every sufficient amount of fuel. -/
theorem solve_rgBoard_T1_T2 (fuel : Nat) (h : 3 ≤ fuel) :
    solve fuel rgBoard [exT1, exT2] = Except.ok (true, rgSolved, []) :=
  solve_mono 3 fuel h _ _ _ (by decide)

/-- The result of `solve` on the first example with declared labels, for every
sufficient amount of fuel. -/
theorem solve_decBoard_T1_T2 (fuel : Nat) (h : 3 ≤ fuel) :
    solve fuel decBoard [decT1, decT2] = Except.ok (true, decSolved, []) :=
  solve_mono 3 fuel h _ _ _ (by decide)

/-- The same with the two tiles in the other order in the inventory. -/
theorem solve_decBoard_T2_T1 (fuel : Nat) (h : 3 ≤ fuel) :
    solve fuel decBoard [decT2, decT1]
      = Except.ok (true, Puzzle.ofStack 1 2 decPairs [decT1, decT2], []) :=
  solve_mono 3 fuel h _ _ _ (by decide)

/-- C18 (counterexample to the claim as stated): the tiles `T1` and `T2` as the
claim writes them carry the empty label, which has no entry in the table built
from `r=g`, so the loader's check refuses them.  With the label `x` of a
declared pair `x=y` on those edges the check accepts both tiles, and on the
empty 1x2 board with the inventory `[T1, T2]` `solve` returns true with `T2`
turned twice at (0,0) and `T1` turned twice at (0,1): the cell (0,0) holds
`T1` in no orientation and the cell (0,1) holds `T2` in no orientation.  With
the tiles as the claim writes them the cell (0,0) holds `T2` as well. -/
theorem solve_example_layout :
    labelsDeclared rgPairs exT1 = false ∧ labelsDeclared rgPairs exT2 = false ∧
    labelsDeclared decPairs decT1 = true ∧ labelsDeclared decPairs decT2 = true ∧
    solve 3 decBoard [decT1, decT2] = Except.ok (true, decSolved, []) ∧
    decSolved.tileAt { row := 0, col := 0 } = Except.ok (Tile.rotateN 2 decT2) ∧
    decSolved.tileAt { row := 0, col := 1 } = Except.ok (Tile.rotateN 2 decT1) ∧
    (∀ j, j < 4 → decSolved.tileAt { row := 0, col := 0 } ≠ Except.ok (Tile.rotateN j decT1)) ∧
    (∀ j, j < 4 → decSolved.tileAt { row := 0, col := 1 } ≠ Except.ok (Tile.rotateN j decT2)) ∧
    solve 3 rgBoard [exT1, exT2] = Except.ok (true, rgSolved, []) ∧
    (∀ j, j < 4 → rgSolved.tileAt { row := 0, col := 0 } ≠ Except.ok (Tile.rotateN j exT1)) := by
  decide

/-- C18 (amended): the example with every edge label declared, as the loader
requires.  On the empty 1x2 board with the pairs `r=g x=y` and the tiles
`T1 = x-r-x-x`, `T2 = x-x-x-g`, `solve` returns true, the inventory ends empty
and the board is full, and the two tiles touch with an `r` edge facing a `g`
edge.  `solve` takes the last tile of the inventory first: with the inventory
`[T1, T2]` the board holds `T2` turned twice at (0,0) and `T1` turned twice at
(0,1), the east edge `g` of `T2` facing the west edge `r` of `T1`; with the
inventory `[T2, T1]` it holds `T1` at (0,0) and `T2` at (0,1), both as in the
inventory, the east edge `r` of `T1` facing the west edge `g` of `T2`. -/
theorem solve_example (fuel : Nat) (h : 3 ≤ fuel) :
    labelsDeclared decPairs decT1 = true ∧ labelsDeclared decPairs decT2 = true ∧
    (∃ p1, solve fuel decBoard [decT1, decT2] = Except.ok (true, p1, []) ∧ p1.isFull = true ∧
      p1.tileAt { row := 0, col := 0 } = Except.ok (Tile.rotateN 2 decT2) ∧
      p1.tileAt { row := 0, col := 1 } = Except.ok (Tile.rotateN 2 decT1) ∧
      (Tile.rotateN 2 decT2).getEdge Direction.EAST = "g" ∧
      (Tile.rotateN 2 decT1).getEdge Direction.WEST = "r" ∧
      p1.isComplement "r" "g" = true ∧ p1.isComplement "g" "r" = true) ∧
    (∃ p1, solve fuel decBoard [decT2, decT1] = Except.ok (true, p1, []) ∧ p1.isFull = true ∧
      p1.tileAt { row := 0, col := 0 } = Except.ok decT1 ∧
      p1.tileAt { row := 0, col := 1 } = Except.ok decT2 ∧
      decT1.getEdge Direction.EAST = "r" ∧ decT2.getEdge Direction.WEST = "g" ∧
      p1.isComplement "r" "g" = true ∧ p1.isComplement "g" "r" = true) :=
  ⟨by decide, by decide,
    ⟨decSolved, solve_decBoard_T1_T2 fuel h, by decide, by decide, by decide, by decide,
      by decide, by decide, by decide⟩,
    ⟨_, solve_decBoard_T2_T1 fuel h, by decide, by decide, by decide, by decide, by decide,
      by decide, by decide⟩⟩

/-- C19 (evaluation at a failing input): the example with every edge label declared,
as the loader requires (`T1 = x-r-x-x`, `T3 = x-x-x-r`, pairs `r=g x=y`).  On
the empty 1x2 board with the inventory `[T1, T3]`, `solve` returns false and
the board is as on entry, but the inventory comes back as `[T3, T1]`, which is
not the inventory on entry; with the inventory `[T3, T1]` it comes back as
`[T1, T3]`. -/
theorem solve_exhaustion_example :
    labelsDeclared decPairs decT1 = true ∧ labelsDeclared decPairs decT3 = true ∧
    solve 3 decBoard [decT1, decT3] = Except.ok (false, decBoard, [decT3, decT1]) ∧
    [decT3, decT1] ≠ [decT1, decT3] ∧
    solve 3 decBoard [decT3, decT1] = Except.ok (false, decBoard, [decT1, decT3]) ∧
    labelsDeclared rgPairs exT3 = false := by
  decide

/-- C20 (evaluation at the failing input): in the call of `solve` on `incBoard` with
the inventory `[incA, incB, incC]` the outer loop runs to exhaustion and the
call returns false; the tiles the outer loop takes out of the vector are
`incC`, `incA`, `incC`, so `incB` is never taken and never tried. -/
theorem solve_skips_tile :
    Except.map (fun out => (out.1, takes out.2))
        (solveBody (silent (solve 3)) incBoard [incA, incB, incC] []) =
      Except.ok ((false, incBoard, [incA, incB, incC]), [incC, incA, incC]) ∧
    incB ∈ [incA, incB, incC] ∧ incB ∉ [incC, incA, incC] := by
  decide

/-! ## The theorems of this part at concrete inputs -/

/-- C11 at the checked operations `add incX, add incB (turned three times),
add incA, remove` on a 1x4 board. -/
theorem legal_placement_invariant_witness :
    runCheckedOps (Puzzle.fresh.configure 1 4 incPairs)
        [Op.add incX, Op.add (Tile.rotateN 3 incB), Op.add incA, Op.remove]
      = some (Puzzle.ofStack 1 4 incPairs [incX, Tile.rotateN 3 incB]) ∧
    (Puzzle.ofStack 1 4 incPairs [incX, Tile.rotateN 3 incB]).Matched ∧
    ∀ (loc : GridLocation) (dir : Direction),
      dir = Direction.NORTH ∨ dir = Direction.WEST →
      (Puzzle.ofStack 1 4 incPairs [incX, Tile.rotateN 3 incB])._grid.inBounds loc = true →
      ((Puzzle.ofStack 1 4 incPairs [incX, Tile.rotateN 3 incB])._grid.index loc : Int)
        < (Puzzle.ofStack 1 4 incPairs [incX, Tile.rotateN 3 incB])._numFilled →
      (Puzzle.ofStack 1 4 incPairs [incX, Tile.rotateN 3 incB])._grid.inBounds
        (loc.neighbour dir) = true →
      ((Puzzle.ofStack 1 4 incPairs [incX, Tile.rotateN 3 incB])._grid.index
        (loc.neighbour dir) : Int)
        < (Puzzle.ofStack 1 4 incPairs [incX, Tile.rotateN 3 incB])._numFilled ∧
      ∃ later earlier,
        (Puzzle.ofStack 1 4 incPairs [incX, Tile.rotateN 3 incB]).tileAt loc
          = Except.ok later ∧
        (Puzzle.ofStack 1 4 incPairs [incX, Tile.rotateN 3 incB]).tileAt (loc.neighbour dir)
          = Except.ok earlier ∧
        (earlier.isBlank = true ∨
          (Puzzle.ofStack 1 4 incPairs [incX, Tile.rotateN 3 incB])._complementMap.get
            (later.getEdge dir) = earlier.getEdge dir.opposite) :=
  ⟨by decide,
    legal_placement_invariant Puzzle.fresh 1 4 incPairs
      [Op.add incX, Op.add (Tile.rotateN 3 incB), Op.add incA, Op.remove]
      (Puzzle.ofStack 1 4 incPairs [incX, Tile.rotateN 3 incB]) (by decide)⟩

/-- C12 at the board `incBoard` with the inventory `[incA, incB, incC]`. -/
theorem solve_terminates_witness :
    incBoard.Valid ∧
    ∃ res, solve ([incA, incB, incC].length + 1) incBoard [incA, incB, incC] = Except.ok res ∧
      ∀ fuel, [incA, incB, incC].length + 1 ≤ fuel →
        solve fuel incBoard [incA, incB, incC] = Except.ok res :=
  ⟨incBoard_valid, solve_terminates incBoard incBoard_valid [incA, incB, incC]⟩

/-- C13 at the board `incBoard` with the inventory `[incA, incB, incC]`. -/
theorem solve_no_precondition_error_witness :
    incBoard.Valid ∧ [incA, incB, incC].length < 4 ∧
    ∃ res log, solveLog 4 incBoard [incA, incB, incC] [] = Except.ok (res, log) ∧
      solve 4 incBoard [incA, incB, incC] = Except.ok res ∧
      (∀ q w, Event.display q w ∈ log →
        incBoard._numFilled ≤ q._numFilled ∧ q._numFilled ≤ incBoard._grid.size) ∧
      incBoard._numFilled ≤ res.2.1._numFilled ∧ res.2.1._numFilled ≤ incBoard._grid.size :=
  ⟨incBoard_valid, by decide,
    solve_no_precondition_error incBoard incBoard_valid [incA, incB, incC] 4 (by decide)⟩

/-- C17 at the board `incBoard`, the tile `incA`, the cell (0,1) and the direction
EAST, where the neighbour (0,2) holds the blank tile. -/
theorem blank_or_boundary_matches_witness :
    incBoard._grid.inBounds { row := 0, col := 1 } = true ∧
    (incBoard._grid.inBounds (GridLocation.neighbour { row := 0, col := 1 } Direction.EAST)
        = false ∨
      ∃ nb, incBoard.tileAt (GridLocation.neighbour { row := 0, col := 1 } Direction.EAST)
        = Except.ok nb ∧ nb.isBlank = true) ∧
    incBoard.canMatchEdge incA { row := 0, col := 1 } Direction.EAST = Except.ok true :=
  ⟨by decide, Or.inr ⟨Tile.blank, by decide, by decide⟩,
    blank_or_boundary_matches incBoard incA { row := 0, col := 1 } Direction.EAST (by decide)
      (Or.inr ⟨Tile.blank, by decide, by decide⟩)⟩

/-- C18 (amended) with fuel 3. -/
theorem solve_example_witness :
    3 ≤ 3 ∧
    labelsDeclared decPairs decT1 = true ∧ labelsDeclared decPairs decT2 = true ∧
    (∃ p1, solve 3 decBoard [decT1, decT2] = Except.ok (true, p1, []) ∧ p1.isFull = true ∧
      p1.tileAt { row := 0, col := 0 } = Except.ok (Tile.rotateN 2 decT2) ∧
      p1.tileAt { row := 0, col := 1 } = Except.ok (Tile.rotateN 2 decT1) ∧
      (Tile.rotateN 2 decT2).getEdge Direction.EAST = "g" ∧
      (Tile.rotateN 2 decT1).getEdge Direction.WEST = "r" ∧
      p1.isComplement "r" "g" = true ∧ p1.isComplement "g" "r" = true) ∧
    (∃ p1, solve 3 decBoard [decT2, decT1] = Except.ok (true, p1, []) ∧ p1.isFull = true ∧
      p1.tileAt { row := 0, col := 0 } = Except.ok decT1 ∧
      p1.tileAt { row := 0, col := 1 } = Except.ok decT2 ∧
      decT1.getEdge Direction.EAST = "r" ∧ decT2.getEdge Direction.WEST = "g" ∧
      p1.isComplement "r" "g" = true ∧ p1.isComplement "g" "r" = true) :=
  ⟨by decide, solve_example 3 (by decide)⟩

/-! ## The checks toward EAST and SOUTH, and index safety -/

/-- The EAST and SOUTH neighbours of a cell come after it in row-major order. -/
theorem Grid.index_neighbour_gt (g : Grid) (loc : GridLocation) (dir : Direction)
    (hd : dir = Direction.EAST ∨ dir = Direction.SOUTH)
    (h : g.inBounds loc = true) (hn : g.inBounds (loc.neighbour dir) = true) :
    g.index loc < g.index (loc.neighbour dir) := by
  have h1 := g.index_int loc h
  have h2 := g.index_int _ hn
  rw [Grid.inBounds_iff] at h hn
  rcases hd with rfl | rfl
  · simp only [GridLocation.neighbour] at h2 hn ⊢
    omega
  · simp only [GridLocation.neighbour] at h2 hn ⊢
    have h3 : (loc.row + 1) * (g.nCols : Int) = loc.row * (g.nCols : Int) + g.nCols := by ring
    rw [h3] at h2
    omega

/-- On a stack board the next open cell has no filled neighbour toward EAST or SOUTH. -/
theorem Puzzle.edgeRule_east_south (r c : Nat) (m : StrMap) (s : List Tile) (tile : Tile)
    (hs : s.length < r * c) (dir : Direction)
    (hd : dir = Direction.EAST ∨ dir = Direction.SOUTH) :
    (Puzzle.ofStack r c m s).edgeRule tile ((Puzzle.ofStack r c m s)._grid.cell s.length) dir := by
  by_cases hb : (Puzzle.ofStack r c m s)._grid.inBounds
      (((Puzzle.ofStack r c m s)._grid.cell s.length).neighbour dir) = true
  · have hloc := (Puzzle.ofStack r c m s)._grid.inBounds_cell hs
    have hgt := (Puzzle.ofStack r c m s)._grid.index_neighbour_gt _ dir hd hloc hb
    rw [Grid.index_cell] at hgt
    obtain ⟨h1, h2⟩ := (Puzzle.ofStack r c m s)._grid.loc_of_inBounds _ hb
    have ht := Puzzle.tileAt_ofStack r c m s h1
    rw [← h2, List.getD_eq_default _ _ (Nat.le_of_lt hgt)] at ht
    exact Or.inr ⟨Tile.blank, ht, Or.inl (by decide)⟩
  · exact Or.inl (by simpa using hb)

theorem Puzzle.canMatchEdge_east_south (r c : Nat) (m : StrMap) (s : List Tile) (tile : Tile)
    (hs : s.length < r * c) (dir : Direction)
    (hd : dir = Direction.EAST ∨ dir = Direction.SOUTH) :
    (Puzzle.ofStack r c m s).canMatchEdge tile
      ((Puzzle.ofStack r c m s)._grid.cell s.length) dir = Except.ok true := by
  obtain ⟨b, h1, h2⟩ := (Puzzle.ofStack r c m s).canMatchEdge_spec
    (Puzzle.ofStack_valid r c m s (Nat.le_of_lt hs)).1 tile _
    ((Puzzle.ofStack r c m s)._grid.inBounds_cell hs) dir
  rw [h1, h2.2 (Puzzle.edgeRule_east_south r c m s tile hs dir hd)]

/-- C21: on every board reached from `configure` by `add` and `remove`, the checks
toward EAST and SOUTH at the next open cell succeed for every tile; so the
four-direction check `canAdd` and the two-direction check (board not full,
`canMatchEdge` toward NORTH and toward WEST) agree for every tile. -/
theorem canAdd_two_way (p : Puzzle) (hp : p.Reachable) (tile : Tile) :
    (p.isFull = false →
      p.canMatchEdge tile (p.cellOf p._numFilled) Direction.EAST = Except.ok true ∧
      p.canMatchEdge tile (p.cellOf p._numFilled) Direction.SOUTH = Except.ok true) ∧
    p.canAdd tile = p.canAddTwoWay tile ∧
    (p.canAdd tile = Except.ok true ↔
      p.isFull = false ∧
      p.canMatchEdge tile (p.cellOf p._numFilled) Direction.NORTH = Except.ok true ∧
      p.canMatchEdge tile (p.cellOf p._numFilled) Direction.WEST = Except.ok true) := by
  obtain ⟨r, c, m, s, hs, rfl⟩ := hp.exists_stack
  have hcell : (Puzzle.ofStack r c m s).cellOf (Puzzle.ofStack r c m s)._numFilled
      = (Puzzle.ofStack r c m s)._grid.cell s.length := Puzzle.cellOf_ofStack r c m s s.length
  rw [hcell]
  cases hf : (Puzzle.ofStack r c m s).isFull with
  | true =>
    refine ⟨fun h => (by cases h), ?_, ?_⟩
    · simp [Puzzle.canAdd, Puzzle.canAddTwoWay, hf]
    · simp [Puzzle.canAdd, hf]
  | false =>
    have hlt : s.length < r * c := by
      rw [Puzzle.ofStack_isFull] at hf
      have : s.length ≠ r * c := by simpa using hf
      omega
    have hE := Puzzle.canMatchEdge_east_south r c m s tile hlt Direction.EAST (Or.inl rfl)
    have hS := Puzzle.canMatchEdge_east_south r c m s tile hlt Direction.SOUTH (Or.inr rfl)
    have hloc : (Puzzle.ofStack r c m s).locationForCount (Puzzle.ofStack r c m s)._numFilled
        = Except.ok ((Puzzle.ofStack r c m s)._grid.cell s.length) :=
      Puzzle.locationForCount_nat _ hlt
    obtain ⟨bN, hN, _⟩ := (Puzzle.ofStack r c m s).canMatchEdge_spec
      (Puzzle.ofStack_valid r c m s hs).1 tile _
      ((Puzzle.ofStack r c m s)._grid.inBounds_cell hlt) Direction.NORTH
    obtain ⟨bW, hW, _⟩ := (Puzzle.ofStack r c m s).canMatchEdge_spec
      (Puzzle.ofStack_valid r c m s hs).1 tile _
      ((Puzzle.ofStack r c m s)._grid.inBounds_cell hlt) Direction.WEST
    refine ⟨fun _ => ⟨hE, hS⟩, ?_, ?_⟩
    · simp only [Puzzle.canAdd, Puzzle.canAddTwoWay, hf, hloc, Puzzle.canMatchAllEdges,
        Puzzle.canMatchEdgesFrom, hN, hE, hS, hW]
    · simp only [Puzzle.canAdd, hf, hloc, Puzzle.canMatchAllEdges,
        Puzzle.canMatchEdgesFrom, hN, hE, hS, hW]
      cases bN <;> cases bW <;> simp

/-- C22: on every board with `0 <= numFilled <= numRows*numCols` and for every tile,
`canAdd` returns a flag, so it makes no out-of-bounds grid access and no division
by zero; a grid with zero rows or zero columns is full and `canAdd` is false on
it.  For every in-bounds location and every direction, the single boundary test
of `canMatchEdge` is true exactly when the neighbour lies outside the grid; when
it is true no cell is read, when it is false the neighbour that is read lies
inside the grid, and `canMatchEdge` returns a flag. -/
theorem index_safety (p : Puzzle) (hv : p.Valid) (tile : Tile) :
    (∃ b, p.canAdd tile = Except.ok b) ∧
    (p._grid.nRows = 0 ∨ p._grid.nCols = 0 →
      p.isFull = true ∧ p.canAdd tile = Except.ok false) ∧
    ∀ (loc : GridLocation) (dir : Direction), p._grid.inBounds loc = true →
      (p.atBoundary loc dir = true ↔ p._grid.inBounds (loc.neighbour dir) = false) ∧
      (p.atBoundary loc dir = true → p.canMatchEdge tile loc dir = Except.ok true) ∧
      (p.atBoundary loc dir = false → ∃ nb, p.tileAt (loc.neighbour dir) = Except.ok nb) ∧
      ∃ b, p.canMatchEdge tile loc dir = Except.ok b := by
  refine ⟨?_, ?_, ?_⟩
  · obtain ⟨b, hb, _⟩ := p.canAdd_spec tile hv
    exact ⟨b, hb⟩
  · intro h0
    have hsz : p._grid.size = 0 := by
      rw [Grid.size_eq]
      rcases h0 with h | h <;> simp [h]
    have hfull : p.isFull = true := by
      have h1 := hv.2.1
      have h2 := hv.2.2
      have : p._numFilled = p._grid.size := by omega
      simp [Puzzle.isFull, this]
    exact ⟨hfull, by simp [Puzzle.canAdd, hfull]⟩
  · intro loc dir hloc
    have hin := (p._grid.inBounds_iff loc).1 hloc
    have hiff : p.atBoundary loc dir = true ↔ p._grid.inBounds (loc.neighbour dir) = false := by
      rw [← Bool.not_eq_true, Grid.inBounds_iff]
      cases dir <;>
        simp only [Puzzle.atBoundary, GridLocation.neighbour, Grid.numCols, Grid.numRows,
          decide_eq_true_eq, reduceCtorEq, if_true, if_false] <;> omega
    obtain ⟨b, hb, hb2⟩ := p.canMatchEdge_spec hv.1 tile loc hloc dir
    refine ⟨hiff, ?_, ?_, b, hb⟩
    · intro h
      rw [hb, hb2.2 (Or.inl (hiff.1 h))]
    · intro h
      have hnb : p._grid.inBounds (loc.neighbour dir) = true := by
        cases hx : p._grid.inBounds (loc.neighbour dir) with
        | true => rfl
        | false => rw [hiff.2 hx] at h; cases h
      exact Grid.get_total p._grid hv.1 _ hnb

/-! ## Blank candidates and the symmetry of `isComplement` -/

theorem Tile.blank_getEdge (dir : Direction) : Tile.blank.getEdge dir = "" := by
  cases dir <;> decide

/-- C23 (amended): a blank tile as a candidate is treated like any other tile, with
the empty label on every side: on every board that satisfies the class
invariant, `canAdd(blank tile)` returns a flag, and the flag is true exactly
when the board is not full and, toward each of the four directions, the
neighbour of the next open cell is outside the grid, or is blank, or its facing
label is what the complement table yields for the empty label. -/
theorem blank_candidate (p : Puzzle) (hv : p.Valid) :
    (p.canAdd Tile.blank = Except.ok true ∨ p.canAdd Tile.blank = Except.ok false) ∧
    (p.canAdd Tile.blank = Except.ok true ↔
      p.isFull = false ∧
      ∀ dir, p._grid.inBounds ((p.cellOf p._numFilled).neighbour dir) = false ∨
        ∃ nb, p.tileAt ((p.cellOf p._numFilled).neighbour dir) = Except.ok nb ∧
          (nb.isBlank = true ∨ p._complementMap.get "" = nb.getEdge dir.opposite)) := by
  obtain ⟨b, h1, h2⟩ := p.canAdd_spec Tile.blank hv
  simp only [Puzzle.edgeRule, Tile.blank_getEdge] at h2
  rw [h1]
  constructor
  · cases b <;> simp
  · rw [← h2]
    cases b <;> simp

/-- C23 (counterexample to the claim as stated): the board `incBoard` is not full,
and `canAdd` refuses the blank tile on it: toward WEST the neighbour `incX` has
the facing label `A`, and the table yields `""` for the empty label. -/
theorem blank_candidate_refused :
    incBoard.isFull = false ∧ Tile.blank.isBlank = true ∧
    incBoard.canAdd Tile.blank = Except.ok false ∧
    incBoard.canMatchEdge Tile.blank { row := 0, col := 1 } Direction.WEST = Except.ok false := by
  decide

theorem probes_append (l1 l2 : List Event) : probes (l1 ++ l2) = probes l1 ++ probes l2 := by
  induction l1 with
  | nil => rfl
  | cons e l ih =>
    cases e with
    | take t => simpa [probes] using ih
    | probe t => simpa [probes] using ih
    | display q w => simpa [probes] using ih

theorem rotLoopLog_probes (self : Puzzle → List Tile → SolveResult) :
    ∀ (n : Nat) (tile : Tile) (p : Puzzle) (v : List Tile) (log : List Event)
      (fl : Flow Tile) (log2 : List Event),
      rotLoopLog (silent self) n tile p v log = Except.ok (fl, log2) →
      ∃ j, j ≤ n ∧
        probes log2 = probes log ++ (List.range j).map (fun i => Tile.rotateN (i + 1) tile) ∧
        (∀ t2 p2 v2, fl = Flow.next t2 p2 v2 → j = n) ∧
        (∀ b p2 v2, fl = Flow.ret b p2 v2 → 1 ≤ j ∧
          ∃ (q q1 : Puzzle) (w : List Tile) (b1 : Bool), q.canAdd (Tile.rotateN j tile) = Except.ok true ∧
            q.add (Tile.rotateN j tile) = (Except.ok (), q1) ∧
            self q1 w = Except.ok (b1, p2, v2) ∧ p2.isFull = true) := by
  intro n
  induction n with
  | zero =>
    intro tile p v log fl log2 h
    simp only [rotLoopLog, Except.ok.injEq, Prod.mk.injEq] at h
    obtain ⟨h1, h2⟩ := h
    subst h1 h2
    exact ⟨0, Nat.le_refl _, by simp, fun _ _ _ _ => rfl, fun _ _ _ h => (by cases h)⟩
  | succ n ih =>
    intro tile p v log fl log2 h
    have hstep : ∀ j, probes log ++ [tile.rotate] ++
        (List.range j).map (fun i => Tile.rotateN (i + 1) tile.rotate)
        = probes log ++ (List.range (j + 1)).map (fun i => Tile.rotateN (i + 1) tile) := by
      intro j
      rw [List.range_succ_eq_map, List.map_cons, List.map_map, List.append_assoc]
      rfl
    unfold rotLoopLog at h
    cases hc : p.canAdd tile.rotate with
    | error e => simp [hc] at h
    | ok b =>
      cases b with
      | false =>
        simp only [hc] at h
        obtain ⟨j, h1, h2, h3, h4⟩ := ih _ _ _ _ _ _ h
        refine ⟨j + 1, by omega, ?_, ?_, ?_⟩
        · rw [h2, probes_append, ← hstep]
          rfl
        · intro t2 p2 v2 e
          rw [h3 t2 p2 v2 e]
        · intro b p2 v2 e
          obtain ⟨g1, q, q1, w, b1, g2, g3, g4, g5⟩ := h4 b p2 v2 e
          exact ⟨by omega, q, q1, w, b1, g2, g3, g4, g5⟩
      | true =>
        simp only [hc] at h
        rcases hadd : p.add tile.rotate with ⟨r1, p1⟩
        cases r1 with
        | error e => simp [hadd] at h
        | ok u =>
          simp only [hadd] at h
          cases hs : self p1 v with
          | error e => simp [silent, hs] at h
          | ok res =>
            obtain ⟨b2, p2, v2⟩ := res
            simp only [silent, hs] at h
            cases hf : p2.isFull with
            | true =>
              simp only [hf, if_true, Except.ok.injEq, Prod.mk.injEq] at h
              obtain ⟨h1, h2⟩ := h
              subst h1 h2
              refine ⟨1, by omega, ?_, fun _ _ _ e => (by cases e), ?_⟩
              · rw [probes_append, probes_append, ← hstep 0]
                simp [probes]
              · intro b q2 w2 e
                cases e
                exact ⟨Nat.le_refl _, p, p1, v, b2, hc, hadd, hs, hf⟩
            | false =>
              simp only [hf, Bool.false_eq_true, if_false] at h
              rcases hrem : p2.remove with ⟨r3, p3⟩
              cases r3 with
              | error e => simp [hrem] at h
              | ok t3 =>
                simp only [hrem] at h
                obtain ⟨j, h1, h2, h3, h4⟩ := ih _ _ _ _ _ _ h
                refine ⟨j + 1, by omega, ?_, ?_, ?_⟩
                · rw [h2, probes_append, probes_append, probes_append, ← hstep]
                  simp [probes]
                · intro t2 q2 w2 e
                  rw [h3 t2 q2 w2 e]
                · intro b q2 w2 e
                  obtain ⟨g1, q, q1, w, b1, g2, g3, g4, g5⟩ := h4 b q2 w2 e
                  exact ⟨by omega, q, q1, w, b1, g2, g3, g4, g5⟩

/-- On an empty 1x1 board `canAdd` accepts every tile. -/
theorem canAdd_empty_one (pairs : StrMap) (t : Tile) :
    (Puzzle.ofStack 1 1 pairs []).canAdd t = Except.ok true := by
  obtain ⟨b, h1, h2⟩ := (Puzzle.ofStack 1 1 pairs []).canAdd_spec t
    (Puzzle.ofStack_valid 1 1 pairs [] (by decide))
  have hout : ∀ dir, (Puzzle.ofStack 1 1 pairs [])._grid.inBounds
      (((Puzzle.ofStack 1 1 pairs []).cellOf
        (Puzzle.ofStack 1 1 pairs [])._numFilled).neighbour dir) = false := by
    intro dir
    rw [← Bool.not_eq_true, Grid.inBounds_iff]
    cases dir <;> simp [Puzzle.cellOf, Puzzle.ofStack, GridLocation.neighbour, Grid.numCols]
  rw [h1, h2.2 ⟨rfl, fun dir => Or.inl (hout dir)⟩]

/-- On an empty 1x1 board with one tile, `solve` places the tile turned once. -/
theorem solve_one_tile (p0 : Puzzle) (pairs : StrMap) (t : Tile) (fuel : Nat) (h : 2 ≤ fuel) :
    solve fuel (p0.configure 1 1 pairs) [t] =
      Except.ok (true, Puzzle.ofStack 1 1 pairs [t.rotate], []) := by
  apply solve_mono 2 fuel h
  rw [Puzzle.configure_eq_ofStack]
  have hadd : (Puzzle.ofStack 1 1 pairs []).add t.rotate
      = (Except.ok (), Puzzle.ofStack 1 1 pairs [t.rotate]) :=
    Puzzle.add_ofStack 1 1 pairs [] t.rotate (by decide)
  have hfull : (Puzzle.ofStack 1 1 pairs [t.rotate]).isFull = true := by
    rw [Puzzle.ofStack_isFull]; rfl
  simp [solve, tileLoop, rotLoop, canAdd_empty_one, hadd, hfull]

/-- C25 (amended): for each candidate tile, the loop over the orientations passes
to `canAdd` the tile turned once, twice, three times and four times, in this
order: the first orientation tested is the tile turned once, the unturned
orientation (four turns) is tested last.  When the loop ends the call with
success, the orientation placed is the last one tested, which `canAdd`
accepted.  On an empty 1x1 board with the inventory `[t]`, `solve` returns true
with `t` turned once at (0,0). -/
theorem rotation_order :
    (∀ (self : Puzzle → List Tile → SolveResult) (n : Nat) (tile : Tile) (p : Puzzle)
        (v : List Tile) (log : List Event) (fl : Flow Tile) (log2 : List Event),
      rotLoopLog (silent self) n tile p v log = Except.ok (fl, log2) →
      ∃ j, j ≤ n ∧
        probes log2 = probes log ++ (List.range j).map (fun i => Tile.rotateN (i + 1) tile) ∧
        (∀ t2 p2 v2, fl = Flow.next t2 p2 v2 → j = n) ∧
        (∀ b p2 v2, fl = Flow.ret b p2 v2 → 1 ≤ j ∧
          ∃ (q q1 : Puzzle) (w : List Tile) (b1 : Bool), q.canAdd (Tile.rotateN j tile) = Except.ok true ∧
            q.add (Tile.rotateN j tile) = (Except.ok (), q1) ∧
            self q1 w = Except.ok (b1, p2, v2) ∧ p2.isFull = true)) ∧
    (∀ (t : Tile), Tile.rotateN 1 t = t.rotate ∧ Tile.rotateN 4 t = t) ∧
    (∀ (p0 : Puzzle) (pairs : StrMap) (t : Tile) (fuel : Nat), 2 ≤ fuel →
      ∃ p1, solve fuel (p0.configure 1 1 pairs) [t] = Except.ok (true, p1, []) ∧
        p1.tileAt { row := 0, col := 0 } = Except.ok t.rotate) :=
  ⟨rotLoopLog_probes, fun t => ⟨rfl, Tile.rotateN_four t⟩,
    fun p0 pairs t fuel h => ⟨_, solve_one_tile p0 pairs t fuel h, rfl⟩⟩

/-- C25 (counterexample to the claim as stated): on the empty 1x1 board with the
inventory `[exNESW]`, the only orientation passed to `canAdd` is the tile turned
once, and `solve` returns true with the tile turned once at (0,0), not in its
original orientation. -/
theorem first_orientation_is_turned :
    Except.map (fun out => probes out.2) (solveLog 2 oneBoard [exNESW] [])
      = Except.ok [exNESW.rotate] ∧
    solve 2 oneBoard [exNESW] = Except.ok (true, Puzzle.ofStack 1 1 [] [exNESW.rotate], []) ∧
    (Puzzle.ofStack 1 1 [] [exNESW.rotate]).tileAt { row := 0, col := 0 }
      = Except.ok exNESW.rotate ∧
    exNESW.rotate ≠ exNESW := by
  decide

/-! ## Base case, restored inventory and conservation of tiles -/

theorem oneBoard_reachable : oneBoard.Reachable :=
  Puzzle.Reachable.configure Puzzle.fresh 1 1 []

/-- When the loop over the orientations runs to its end, the tile has been turned
once per iteration. -/
theorem rotLoop_next_tile (self : Puzzle → List Tile → SolveResult) :
    ∀ (n : Nat) (tile : Tile) (p : Puzzle) (v : List Tile) (t2 : Tile) (p2 : Puzzle)
      (v2 : List Tile),
      rotLoop self n tile p v = Except.ok (Flow.next t2 p2 v2) → t2 = Tile.rotateN n tile := by
  intro n
  induction n with
  | zero =>
    intro tile p v t2 p2 v2 h
    simp only [rotLoop, Except.ok.injEq, Flow.next.injEq] at h
    exact h.1.symm
  | succ n ih =>
    intro tile p v t2 p2 v2 h
    unfold rotLoop at h
    simp only at h
    cases hc : p.canAdd tile.rotate with
    | error e => simp [hc] at h
    | ok b =>
      cases b with
      | false =>
        simp only [hc] at h
        exact ih _ _ _ _ _ _ h
      | true =>
        simp only [hc] at h
        rcases hadd : p.add tile.rotate with ⟨r1, p1⟩
        cases r1 with
        | error e => simp [hadd] at h
        | ok u =>
          simp only [hadd] at h
          cases hs : self p1 v with
          | error e => simp [hs] at h
          | ok res =>
            obtain ⟨b2, q2, w2⟩ := res
            simp only [hs] at h
            cases hf : q2.isFull with
            | true => simp [hf] at h
            | false =>
              simp only [hf] at h
              rcases hrem : q2.remove with ⟨r3, p3⟩
              cases r3 with
              | error e => simp [hrem] at h
              | ok t3 =>
                simp only [hrem] at h
                exact ih _ _ _ _ _ _ h

/-- On a stack board the inner loop calls `self` only on the board with one tile
more and on inventories of the length it was given: two recursive calls that
agree there give the same loop. -/
theorem rotLoop_agree (r c : Nat) (m : StrMap) (self self2 : Puzzle → List Tile → SolveResult)
    (len : Nat)
    (hself : ∀ (s : List Tile) (v : List Tile), s.length ≤ r * c → v.length = len →
      ∃ res, self (Puzzle.ofStack r c m s) v = Except.ok res ∧
        SolvePost (Puzzle.ofStack r c m s) v res)
    (s : List Tile) (hs : s.length ≤ r * c)
    (hag : ∀ (t : Tile) (w : List Tile), s.length < r * c → w.length = len →
      self2 (Puzzle.ofStack r c m (s ++ [t])) w = self (Puzzle.ofStack r c m (s ++ [t])) w) :
    ∀ (n : Nat) (tile : Tile) (v1 : List Tile), v1.length = len →
      rotLoop self2 n tile (Puzzle.ofStack r c m s) v1
        = rotLoop self n tile (Puzzle.ofStack r c m s) v1 := by
  intro n
  induction n with
  | zero =>
    intro tile v1 _
    rfl
  | succ n ih =>
    intro tile v1 hv1
    obtain ⟨b, hb, _⟩ := (Puzzle.ofStack r c m s).canAdd_spec tile.rotate
      (Puzzle.ofStack_valid r c m s hs)
    cases b with
    | false =>
      simp [rotLoop, hb, ih tile.rotate v1 hv1]
    | true =>
      have hlt := Puzzle.canAdd_ofStack_lt r c m s tile.rotate hs hb
      have hadd := Puzzle.add_ofStack r c m s tile.rotate hlt
      have hag1 := hag tile.rotate v1 hlt hv1
      obtain ⟨res, hres, hpost⟩ := hself (s ++ [tile.rotate]) v1 (by simp; omega) hv1
      obtain ⟨b2, p2, v2⟩ := res
      cases hfull : p2.isFull with
      | true =>
        simp [rotLoop, hb, hadd, hag1, hres, hfull]
      | false =>
        rcases hpost with ⟨h1, h2, _⟩ | ⟨l, ts, _, _, h3, _⟩
        · simp only at h1 h2
          subst h1
          have hrem := Puzzle.remove_ofStack r c m s tile.rotate hlt
          have hrec := ih tile.rotate v2 (by rw [h2.length_eq]; exact hv1)
          simp [rotLoop, hb, hadd, hag1, hres, hfull, hrem, hrec]
        · simp only at h3
          rw [hfull] at h3
          cases h3

/-- The same for the outer loop. -/
theorem tileLoop_agree (r c : Nat) (m : StrMap) (self self2 : Puzzle → List Tile → SolveResult)
    (len : Nat)
    (hself : ∀ (s : List Tile) (v : List Tile), s.length ≤ r * c → v.length = len →
      ∃ res, self (Puzzle.ofStack r c m s) v = Except.ok res ∧
        SolvePost (Puzzle.ofStack r c m s) v res)
    (s : List Tile) (hs : s.length ≤ r * c)
    (hag : ∀ (t : Tile) (w : List Tile), s.length < r * c → w.length = len →
      self2 (Puzzle.ofStack r c m (s ++ [t])) w = self (Puzzle.ofStack r c m (s ++ [t])) w) :
    ∀ (k : Nat) (v : List Tile), v.length = len + 1 → k ≤ len + 1 →
      tileLoop self2 k (Puzzle.ofStack r c m s) v
        = tileLoop self k (Puzzle.ofStack r c m s) v := by
  intro k
  induction k with
  | zero =>
    intro v _ _
    rfl
  | succ k ih =>
    intro v hv hk
    have hkl : k < v.length := by omega
    have hget : v[k]? = some v[k] := List.getElem?_eq_getElem hkl
    have hperm := List.perm_cons_eraseIdx_of_getElem? v k hget
    have hlen : (v.eraseIdx k).length = len := by
      have := hperm.length_eq
      simp only [List.length_cons] at this
      omega
    have hrot := rotLoop_agree r c m self self2 len hself s hs hag 4 v[k] (v.eraseIdx k) hlen
    obtain ⟨fl, h1, h2⟩ := rotLoop_spec r c m self len hself s hs 4 v[k] (v.eraseIdx k) hlen
    rcases h2 with ⟨v2, h3, h4⟩ | ⟨p1, v2, j, l, ts, h3, _⟩
    · subst h3
      have hp2 : (v2 ++ [Tile.rotateN 4 v[k]]).Perm v := by
        rw [Tile.rotateN_four]
        exact (List.perm_append_comm.trans (List.Perm.cons _ h4)).trans hperm
      have hrec := ih (v2 ++ [Tile.rotateN 4 v[k]]) (by rw [hp2.length_eq]; exact hv) (by omega)
      simp [tileLoop, hget, hrot, h1, hrec]
    · subst h3
      simp [tileLoop, hget, hrot, h1]

/-- On a stack board whose open cells are as many as the tiles of the inventory,
`solveFullBase` computes what `solve` computes: no call of the run, nested
calls included, meets an empty inventory on a board that is not full. -/
theorem solveFullBase_eq_solve (r c : Nat) (m : StrMap) :
    ∀ (fuel : Nat) (s : List Tile) (v : List Tile), s.length + v.length = r * c →
      v.length < fuel →
      solveFullBase fuel (Puzzle.ofStack r c m s) v = solve fuel (Puzzle.ofStack r c m s) v := by
  intro fuel
  induction fuel with
  | zero =>
    intro s v _ hv
    omega
  | succ fuel ih =>
    intro s v hsum hv
    cases v with
    | nil =>
      have hf : (Puzzle.ofStack r c m s).isFull = true := by
        rw [Puzzle.ofStack_isFull]
        simpa using hsum
      simp [solveFullBase, solve, hf]
    | cons a v =>
      simp only [List.length_cons] at hsum hv
      have hs : s.length ≤ r * c := by omega
      have hself : ∀ (s : List Tile) (w : List Tile), s.length ≤ r * c → w.length = v.length →
          ∃ res, solve fuel (Puzzle.ofStack r c m s) w = Except.ok res ∧
            SolvePost (Puzzle.ofStack r c m s) w res := by
        intro s w hs hw
        exact solve_spec r c m fuel s w hs (by omega)
      have hag : ∀ (t : Tile) (w : List Tile), s.length < r * c → w.length = v.length →
          solveFullBase fuel (Puzzle.ofStack r c m (s ++ [t])) w
            = solve fuel (Puzzle.ofStack r c m (s ++ [t])) w := by
        intro t w _ hw
        exact ih (s ++ [t]) w (by simp; omega) (by omega)
      have hloop := tileLoop_agree r c m (solve fuel) (solveFullBase fuel) v.length hself s hs hag
        (a :: v).length (a :: v) rfl (Nat.le_refl _)
      simp only [solveFullBase, solve, hloop]
      rfl

/-- C26 (amended): for every board, `solve` called with an empty inventory returns
true and changes neither the board nor the inventory; the base case does not
look at the board.  The board is full in that situation in every run that
starts on a board reached from `configure` by `add` and `remove` with as many
tiles in the inventory as the board has open cells: such a run returns, and
every call of `solve` in it that finds the inventory empty, nested calls
included, is made on a full board (`solveFullBase`, which fails on any other
base case, gives the same result as `solve`). -/
theorem solve_base_case :
    (∀ (p : Puzzle) (fuel : Nat), 1 ≤ fuel → solve fuel p [] = Except.ok (true, p, [])) ∧
    (∀ (p : Puzzle) (v : List Tile) (fuel : Nat), p.Reachable →
      (v.length : Int) = p._grid.size - p._numFilled → v.length < fuel →
      (∃ res, solve fuel p v = Except.ok res) ∧ solveFullBase fuel p v = solve fuel p v ∧
      (v = [] → p.isFull = true)) := by
  constructor
  · intro p fuel hf
    obtain ⟨f, rfl⟩ : ∃ f, fuel = f + 1 := ⟨fuel - 1, by omega⟩
    rfl
  · intro p v fuel hp hopen hf
    obtain ⟨r, c, m, s, hs, rfl⟩ := hp.exists_stack
    have hsum : s.length + v.length = r * c := by
      simp only [Puzzle.ofStack, Grid.size_eq] at hopen
      have h1 : ((v.length : Nat) : Int) = ((r * c : Nat) : Int) - ((s.length : Nat) : Int) := by
        simpa using hopen
      omega
    obtain ⟨res, hres, _⟩ := solve_spec r c m fuel s v hs hf
    refine ⟨⟨res, hres⟩, solveFullBase_eq_solve r c m fuel s v hsum hf, ?_⟩
    intro hv
    subst hv
    rw [Puzzle.ofStack_isFull]
    simpa using hsum

/-- C26 (counterexample to the claim as stated): on the empty 1x1 board, reached
from `configure`, `solve` with the empty inventory returns true and leaves the
board as it is, and the board is not full. -/
theorem solve_base_case_not_full :
    oneBoard.Reachable ∧
    solve 1 oneBoard [] = Except.ok (true, oneBoard, []) ∧
    oneBoard.isFull = false ∧ oneBoard._numFilled = 0 ∧ oneBoard._grid.size = 1 :=
  ⟨oneBoard_reachable, by decide, by decide, by decide, by decide⟩

/-- C27: on every board reached from `configure` by `add` and `remove` and for every
inventory, `solve` returns, and when it returns false the inventory on return
is a permutation of the inventory on entry: the same length, every tile the
same number of times, and every tile in it is a tile of the entry inventory
with the same four edge labels.  A tile that the loop over the four
orientations puts back has been turned four times, which is its entry
orientation. -/
theorem solve_false_restores_inventory (p : Puzzle) (hp : p.Reachable) (v : List Tile)
    (fuel : Nat) (hf : v.length < fuel) :
    (∃ b p1 v1, solve fuel p v = Except.ok (b, p1, v1) ∧
      (b = false →
        v1.Perm v ∧ v1.length = v.length ∧ (∀ t, v1.count t = v.count t) ∧
        ∀ t ∈ v1, ∃ o ∈ v, t = o ∧ ∀ dir, t.getEdge dir = o.getEdge dir)) ∧
    (∀ (self : Puzzle → List Tile → SolveResult) (tile : Tile) (q : Puzzle) (w : List Tile)
        (t2 : Tile) (q2 : Puzzle) (w2 : List Tile),
      rotLoop self 4 tile q w = Except.ok (Flow.next t2 q2 w2) →
        t2 = Tile.rotateN 4 tile ∧ t2 = tile) := by
  constructor
  · obtain ⟨⟨b, p1, v1⟩, hres, hpost⟩ := solve_reachable p hp v fuel hf
    refine ⟨b, p1, v1, hres, ?_⟩
    intro hb
    rcases hpost with ⟨_, h2, _⟩ | ⟨l, ts, _, _, _, h4, _⟩
    · refine ⟨h2, h2.length_eq, fun t => h2.count_eq t, ?_⟩
      intro t ht
      exact ⟨t, h2.subset ht, rfl, fun _ => rfl⟩
    · simp only at h4
      rw [hb] at h4
      cases h4
  · intro self tile q w t2 q2 w2 h
    have h1 := rotLoop_next_tile self 4 tile q w t2 q2 w2 h
    exact ⟨h1, h1.trans (Tile.rotateN_four tile)⟩

/-- C28: on every board reached from `configure` by `add` and `remove` and for every
inventory, `solve` returns, and there are the tiles `placed` put on the board
during the call and the inventory tiles `origs` they come from such that: the
grid keeps its dimensions and complement table; `numFilled` grew by the number
of placed tiles; every cell filled on entry holds the tile it held on entry;
the cells filled during the call hold the placed tiles in fill order; each
placed tile is its inventory tile after zero to three quarter turns; and the
inventory tiles of the placed ones together with the tiles left in the
inventory are a permutation of the inventory on entry. -/
theorem solve_conserves_tiles (p : Puzzle) (hp : p.Reachable) (v : List Tile)
    (fuel : Nat) (hf : v.length < fuel) :
    ∃ b p1 v1, solve fuel p v = Except.ok (b, p1, v1) ∧
      ∃ origs placed : List Tile,
        p1._grid.nRows = p._grid.nRows ∧ p1._grid.nCols = p._grid.nCols ∧
        p1._complementMap = p._complementMap ∧
        p1._numFilled = p._numFilled + placed.length ∧
        (∀ k : Nat, (k : Int) < p._numFilled →
          p1.tileAt (p._grid.cell k) = p.tileAt (p._grid.cell k)) ∧
        (∀ i : Nat, i < placed.length →
          p1.tileAt (p._grid.cell (p._numFilled.toNat + i)) = Except.ok (placed.getD i Tile.blank)) ∧
        List.Forall₂ RotOf origs placed ∧
        (origs ++ v1).Perm v ∧
        origs.length + v1.length = v.length := by
  obtain ⟨r, c, m, s, hs, rfl⟩ := hp.exists_stack
  obtain ⟨⟨b, p1, v1⟩, hres, hpost⟩ := solve_spec r c m fuel s v hs hf
  refine ⟨b, p1, v1, hres, ?_⟩
  rcases hpost with ⟨h1, h2, _⟩ | ⟨l, ts, _, h2, _, _, h5, h6⟩
  · simp only at h1 h2
    subst h1
    refine ⟨[], [], rfl, rfl, rfl, by simp, fun _ _ => rfl, ?_, List.Forall₂.nil, by simpa using h2,
      by simpa using h2.length_eq⟩
    intro i hi
    simp at hi
  · simp only at h2 h6
    obtain ⟨hlen, rfl⟩ := Puzzle.placeAll_ofStack r c m ts s p1 hs h2
    refine ⟨l, ts, rfl, rfl, rfl, by simp [Puzzle.ofStack], ?_, ?_, h5, h6, ?_⟩
    · intro k hk
      have hk1 : k < s.length := by
        simp only [Puzzle.ofStack] at hk
        exact Int.ofNat_lt.mp hk
      have hk2 : k < r * c := by omega
      have e1 := Puzzle.tileAt_ofStack r c m (s ++ ts) hk2
      have e2 := Puzzle.tileAt_ofStack r c m s hk2
      have e3 : (Puzzle.ofStack r c m (s ++ ts))._grid.cell k
          = (Puzzle.ofStack r c m s)._grid.cell k := rfl
      rw [e3] at e1
      rw [e1, e2]
      simp [List.getD, List.getElem?_append_left hk1]
    · intro i hi
      have hn : (Puzzle.ofStack r c m s)._numFilled.toNat = s.length := by
        simp [Puzzle.ofStack]
      rw [hn]
      have hk2 : s.length + i < r * c := by
        simp only [List.length_append] at hlen
        omega
      have e1 := Puzzle.tileAt_ofStack r c m (s ++ ts) hk2
      have e3 : (Puzzle.ofStack r c m (s ++ ts))._grid.cell (s.length + i)
          = (Puzzle.ofStack r c m s)._grid.cell (s.length + i) := rfl
      rw [e3] at e1
      rw [e1]
      simp [List.getD, List.getElem?_append_right]
    · have := h6.length_eq
      simpa using this

/-! ## The later properties at concrete boards -/

/-- C21 at the board `incBoard` and the tile `incB` turned three times. -/
theorem canAdd_two_way_witness :
    incBoard.Reachable ∧
    (incBoard.isFull = false →
      incBoard.canMatchEdge (Tile.rotateN 3 incB) (incBoard.cellOf incBoard._numFilled)
        Direction.EAST = Except.ok true ∧
      incBoard.canMatchEdge (Tile.rotateN 3 incB) (incBoard.cellOf incBoard._numFilled)
        Direction.SOUTH = Except.ok true) ∧
    incBoard.canAdd (Tile.rotateN 3 incB) = incBoard.canAddTwoWay (Tile.rotateN 3 incB) ∧
    (incBoard.canAdd (Tile.rotateN 3 incB) = Except.ok true ↔
      incBoard.isFull = false ∧
      incBoard.canMatchEdge (Tile.rotateN 3 incB) (incBoard.cellOf incBoard._numFilled)
        Direction.NORTH = Except.ok true ∧
      incBoard.canMatchEdge (Tile.rotateN 3 incB) (incBoard.cellOf incBoard._numFilled)
        Direction.WEST = Except.ok true) :=
  ⟨incBoard_reachable, canAdd_two_way incBoard incBoard_reachable (Tile.rotateN 3 incB)⟩

/-- C22 at the board `incBoard` with the tile `incA`: `canAdd` yields a value, and
at the last cell (0,3) toward EAST the boundary test holds; and at a grid with
zero rows and three columns, which is full. -/
theorem index_safety_witness :
    incBoard.Valid ∧
    (∃ b, incBoard.canAdd incA = Except.ok b) ∧
    incBoard._grid.inBounds { row := 0, col := 3 } = true ∧
    incBoard.atBoundary { row := 0, col := 3 } Direction.EAST = true ∧
    incBoard.canMatchEdge incA { row := 0, col := 3 } Direction.EAST = Except.ok true ∧
    (Puzzle.ofStack 0 3 [] []).Valid ∧
    ((Puzzle.ofStack 0 3 [] [])._grid.nRows = 0 ∨ (Puzzle.ofStack 0 3 [] [])._grid.nCols = 0) ∧
    (Puzzle.ofStack 0 3 [] []).isFull = true ∧
    (Puzzle.ofStack 0 3 [] []).canAdd incA = Except.ok false :=
  ⟨incBoard_valid, (index_safety incBoard incBoard_valid incA).1, by decide, by decide,
    ((index_safety incBoard incBoard_valid incA).2.2 { row := 0, col := 3 } Direction.EAST
      (by decide)).2.1 (by decide),
    Puzzle.ofStack_valid 0 3 [] [] (by decide), Or.inl rfl,
    (index_safety (Puzzle.ofStack 0 3 [] []) (Puzzle.ofStack_valid 0 3 [] [] (by decide)) incA).2.1
      (Or.inl rfl)⟩

/-- C23 (amended) at the board `incBoard`. -/
theorem blank_candidate_witness :
    incBoard.Valid ∧
    (incBoard.canAdd Tile.blank = Except.ok true ∨ incBoard.canAdd Tile.blank = Except.ok false) ∧
    (incBoard.canAdd Tile.blank = Except.ok true ↔
      incBoard.isFull = false ∧
      ∀ dir, incBoard._grid.inBounds ((incBoard.cellOf incBoard._numFilled).neighbour dir) = false ∨
        ∃ nb, incBoard.tileAt ((incBoard.cellOf incBoard._numFilled).neighbour dir)
            = Except.ok nb ∧
          (nb.isBlank = true ∨ incBoard._complementMap.get "" = nb.getEdge dir.opposite)) :=
  ⟨incBoard_valid, blank_candidate incBoard incBoard_valid⟩

/-- C25 (amended) at the empty 1x1 board with the tile `exNESW`: the loop over the
orientations of the outermost call, and the whole call with fuel 2. -/
theorem rotation_order_witness :
    rotLoopLog (silent (solve 1)) 4 exNESW oneBoard [] []
      = Except.ok (Flow.ret true (Puzzle.ofStack 1 1 [] [exNESW.rotate]) [],
          [Event.probe exNESW.rotate, Event.display (Puzzle.ofStack 1 1 [] [exNESW.rotate]) []]) ∧
    (∃ j, j ≤ 4 ∧
      probes [Event.probe exNESW.rotate, Event.display (Puzzle.ofStack 1 1 [] [exNESW.rotate]) []]
        = probes [] ++ (List.range j).map (fun i => Tile.rotateN (i + 1) exNESW) ∧
      (∀ t2 p2 v2, (Flow.ret true (Puzzle.ofStack 1 1 [] [exNESW.rotate]) [] : Flow Tile)
          = Flow.next t2 p2 v2 → j = 4) ∧
      (∀ b p2 v2, (Flow.ret true (Puzzle.ofStack 1 1 [] [exNESW.rotate]) [] : Flow Tile)
          = Flow.ret b p2 v2 → 1 ≤ j ∧
        ∃ (q q1 : Puzzle) (w : List Tile) (b1 : Bool),
          q.canAdd (Tile.rotateN j exNESW) = Except.ok true ∧
          q.add (Tile.rotateN j exNESW) = (Except.ok (), q1) ∧
          solve 1 q1 w = Except.ok (b1, p2, v2) ∧ p2.isFull = true)) ∧
    2 ≤ 2 ∧
    (∃ p1, solve 2 (Puzzle.fresh.configure 1 1 []) [exNESW] = Except.ok (true, p1, []) ∧
      p1.tileAt { row := 0, col := 0 } = Except.ok exNESW.rotate) :=
  ⟨by decide,
    rotation_order.1 (solve 1) 4 exNESW oneBoard [] [] _ _ (by decide),
    by decide,
    rotation_order.2.2 Puzzle.fresh [] exNESW 2 (by decide)⟩

/-- C26 (amended) at the board `incBoard` with the empty inventory and fuel 1, and
at the empty 1x2 board `decBoard` with the two tiles `decT1`, `decT2` and fuel
3, a run that ends on the full board `decSolved`. -/
theorem solve_base_case_witness :
    1 ≤ 1 ∧ solve 1 incBoard [] = Except.ok (true, incBoard, []) ∧
    decBoard.Reachable ∧
    (([decT1, decT2].length : Nat) : Int) = decBoard._grid.size - decBoard._numFilled ∧
    [decT1, decT2].length < 3 ∧
    solve 3 decBoard [decT1, decT2] = Except.ok (true, decSolved, []) ∧
    (∃ res, solve 3 decBoard [decT1, decT2] = Except.ok res) ∧
    solveFullBase 3 decBoard [decT1, decT2] = solve 3 decBoard [decT1, decT2] ∧
    ([decT1, decT2] = [] → decBoard.isFull = true) :=
  ⟨by decide, solve_base_case.1 incBoard 1 (by decide),
    Puzzle.Reachable.configure Puzzle.fresh 1 2 decPairs, by decide, by decide, by decide,
    solve_base_case.2 decBoard [decT1, decT2] 3
      (Puzzle.Reachable.configure Puzzle.fresh 1 2 decPairs) (by decide) (by decide)⟩

/-- C27 at the empty 1x2 board `ordBoard` with the two tiles `ordP`, `ordQ`, where
`solve` returns false. -/
theorem solve_false_restores_inventory_witness :
    ordBoard.Reachable ∧ [ordP, ordQ].length < 3 ∧
    solve 3 ordBoard [ordP, ordQ] = Except.ok (false, ordBoard, [ordQ, ordP]) ∧
    ∃ b p1 v1, solve 3 ordBoard [ordP, ordQ] = Except.ok (b, p1, v1) ∧
      (b = false →
        v1.Perm [ordP, ordQ] ∧ v1.length = [ordP, ordQ].length ∧
        (∀ t, v1.count t = [ordP, ordQ].count t) ∧
        ∀ t ∈ v1, ∃ o ∈ [ordP, ordQ], t = o ∧ ∀ dir, t.getEdge dir = o.getEdge dir) :=
  ⟨ordBoard_reachable, by decide, by decide,
    (solve_false_restores_inventory ordBoard ordBoard_reachable [ordP, ordQ] 3 (by decide)).1⟩

/-- C28 at the empty 1x2 board `rgBoard` with the tiles `exT1`, `exT2`, where `solve`
fills the board. -/
theorem solve_conserves_tiles_witness :
    rgBoard.Reachable ∧ [exT1, exT2].length < 3 ∧
    solve 3 rgBoard [exT1, exT2] = Except.ok (true, rgSolved, []) ∧
    ∃ b p1 v1, solve 3 rgBoard [exT1, exT2] = Except.ok (b, p1, v1) ∧
      ∃ origs placed : List Tile,
        p1._grid.nRows = rgBoard._grid.nRows ∧ p1._grid.nCols = rgBoard._grid.nCols ∧
        p1._complementMap = rgBoard._complementMap ∧
        p1._numFilled = rgBoard._numFilled + placed.length ∧
        (∀ k : Nat, (k : Int) < rgBoard._numFilled →
          p1.tileAt (rgBoard._grid.cell k) = rgBoard.tileAt (rgBoard._grid.cell k)) ∧
        (∀ i : Nat, i < placed.length →
          p1.tileAt (rgBoard._grid.cell (rgBoard._numFilled.toNat + i))
            = Except.ok (placed.getD i Tile.blank)) ∧
        List.Forall₂ RotOf origs placed ∧
        (origs ++ v1).Perm [exT1, exT2] ∧
        origs.length + v1.length = [exT1, exT2].length :=
  ⟨Puzzle.Reachable.configure Puzzle.fresh 1 2 rgPairs, by decide, by decide,
    solve_conserves_tiles rgBoard (Puzzle.Reachable.configure Puzzle.fresh 1 2 rgPairs)
      [exT1, exT2] 3 (by decide)⟩

end TilePuzzle
